import Mathlib

/-!
# Groth16 prover core (bls377): shallow embedding of `prove.go`

The file embeds `execute`, `asyncExpTable`, `precomputeExpTableChunk`, `computeH` and `Prove`
of `internal/backend/bls377/groth16/prove.go` and proves properties of them.

Conventions of the embedding.

* `runtime.NumCPU()` is the explicit parameter `P`.
* Go `int` values that the code keeps non-negative are `Nat`; no arithmetic of the file can
  overflow 64 bits for slice lengths that fit in memory.
* A slice is a `List`; an in-place write `s[i] = v` is `List.set`; a run-time panic (index or
  slice bound out of range, `make` with a negative length) is `none`.  A slice expression is
  bounded by the capacity: where the capacity can exceed the length (`pk.G1.K`) the entries of
  the backing array beyond the length are kept next to the slice.
* Goroutines that write disjoint parts of a slice and are joined by a wait group are run one after
  the other in launch order.
* An `fr.Element` is modelled by its stored residue, an element of the field `F`; the stored
  residue of the field value `x` in Montgomery form is `x * R`, where `R` is the Montgomery
  constant.  The operations of package `fr` are the functions of namespace `fr` below.
-/

namespace Groth16

/-! ## Control flow -/

/-- The next `k` iterations of a counting loop whose loop variable is `i`. -/
def forLoopIter {σ : Type} (body : Nat → σ → σ) : Nat → Nat → σ → σ
  | 0, _, st => st
  | k + 1, i, st => forLoopIter body k (i + 1) (body i st)

/-- Go loop `for i := i0; i < stop; i++ { st = body i st }` over an explicit state: it runs
`stop - i0` iterations (none when `stop ≤ i0`). -/
def forLoop {σ : Type} (body : Nat → σ → σ) (stop : Nat) (i : Nat) (st : σ) : σ :=
  forLoopIter body (stop - i) i st

/-! ## `execute` -/

/-- Mutable locals of the launch loop of `execute`, and the ranges handed to the goroutines so
far (in launch order). -/
structure ExecState where
  extraTasks : Nat
  extraTasksOffset : Nat
  launched : List (Nat × Nat)
deriving Repr, DecidableEq

/-- Body of `for i := 0; i < nbTasks; i++` in `execute`: computes `_start`, `_end` and launches
`work(_start, _end)`. -/
def executeBody (nbIterationsPerCpus : Nat) (i : Nat) (st : ExecState) : ExecState :=
  let _start := i * nbIterationsPerCpus + st.extraTasksOffset
  let _end := _start + nbIterationsPerCpus
  if st.extraTasks > 0 then
    { extraTasks := st.extraTasks - 1
      extraTasksOffset := st.extraTasksOffset + 1
      launched := st.launched ++ [(_start, _end + 1)] }
  else
    { st with launched := st.launched ++ [(_start, _end)] }

/-- The ranges `[start, end)` that `execute(nbIterations, work)` passes to `work`, in launch
order, when `runtime.NumCPU()` is `P`. -/
def executeRanges (P nbIterations : Nat) : List (Nat × Nat) :=
  let nbTasks := P
  let nbIterationsPerCpus := nbIterations / nbTasks
  let (nbIterationsPerCpus, nbTasks) :=
    if nbIterationsPerCpus < 1 then (1, nbIterations) else (nbIterationsPerCpus, nbTasks)
  let extraTasks := nbIterations - nbTasks * nbIterationsPerCpus
  (forLoop (executeBody nbIterationsPerCpus) nbTasks 0
    { extraTasks := extraTasks, extraTasksOffset := 0, launched := [] }).launched

/-- Function `execute`: runs `work start end` on every launched range; the workers are joined by
`wg.Wait()` before `execute` returns. -/
def execute {σ : Type} (P nbIterations : Nat) (work : Nat → Nat → σ → σ) (st : σ) : σ :=
  (executeRanges P nbIterations).foldl (fun acc r => work r.1 r.2 acc) st

/-- The range launched for task `j` when `per` indices go to every task and the first `extra`
tasks get one more. -/
def balancedRange (per extra j : Nat) : Nat × Nat :=
  (j * per + min j extra, (j + 1) * per + min (j + 1) extra)

/-- The ranges of `rs` follow one another from `a` to `b`: the first starts at `a`, each next
start is the previous end, the last ends at `b`, and no range has its end before its start. -/
def ChainFromTo : Nat → List (Nat × Nat) → Nat → Prop
  | a, [], b => a = b
  | a, r :: rs, b => r.1 = a ∧ r.1 ≤ r.2 ∧ ChainFromTo r.2 rs b

/-! ## Package `fr`: field elements as stored residues -/

namespace fr

variable {F : Type} [Field F]

/-- Field value denoted by a stored residue that is in Montgomery form. -/
def val (R : Fˣ) (x : F) : F := x * ↑R⁻¹

/-- Stored residue, in Montgomery form, of a field value. -/
def toMont (R : Fˣ) (a : F) : F := a * ↑R

/-- Method `z.Mul(x, y)`: Montgomery product of two stored residues. -/
def Mul (R : Fˣ) (x y : F) : F := x * y * ↑R⁻¹

/-- Method `z.Sub(x, y)`. -/
def Sub (x y : F) : F := x - y

/-- Method `z.Neg(x)`. -/
def Neg (x : F) : F := -x

/-- Method `z.SetUint64(v)`: the Montgomery form of `v`. -/
def SetUint64 (R : Fˣ) (v : Nat) : F := (v : F) * ↑R

/-- Method `z.Inverse(x)`: the Montgomery form of the inverse of the value of `x`
(and `0` for `0`). -/
def Inverse (R : Fˣ) (x : F) : F := x⁻¹ * ↑R * ↑R

/-- Method `z.Exp(x, k)`: `k` Montgomery products by `x`, starting from the Montgomery form of
one. -/
def Exp (R : Fˣ) (x : F) : Nat → F
  | 0 => ↑R
  | k + 1 => Mul R (Exp R x k) x

/-- Method `z.FromMont()`: from the Montgomery residue to the regular residue. -/
def FromMont (R : Fˣ) (x : F) : F := x * ↑R⁻¹

end fr

/-- The prime 5: `ZMod 5` is the field of the concrete instances below. -/
instance fact_prime_five_nat : Fact (Nat.Prime 5) := ⟨by norm_num⟩

/-! ## Slices -/

/-- Go slice expression `s[lo:hi]` on a slice whose capacity is its length (a slice made by
`make` with one length, the whole backing array of a slice), and any slice expression whose
`hi` is at most `len(s)` by construction: panics unless `lo ≤ hi ≤ len(s)`.  The one slice
expression of the file that can reach beyond the length, `pk.G1.K[:nbPrivateWires]`, is taken on
the backing array, see `computeKRS`. -/
def slice {α : Type} (s : List α) (lo hi : Nat) : Option (List α) :=
  if lo ≤ hi ∧ hi ≤ s.length then some ((s.take hi).drop lo) else none

/-- Effect on `s` of overwriting the view `s[lo : lo + len(sub)]` with `sub`. -/
def writeBack {α : Type} (s : List α) (lo : Nat) (sub : List α) : List α :=
  s.take lo ++ sub ++ s.drop (lo + sub.length)

/-! ## The exponent table -/

section ExpTable

variable {F : Type} [Field F]

/-- Function `precomputeExpTableChunk`; `table[0]` of an empty `table` panics. -/
def precomputeExpTableChunk (R : Fˣ) (scale w : F) (power : Nat) (table : List F) :
    Option (List F) :=
  if 0 < table.length then
    let table := table.set 0 (fr.Exp R w power)
    let table := table.set 0 (fr.Mul R (table.getD 0 0) scale)
    some (forLoop (fun i t => t.set i (fr.Mul R (t.getD (i - 1) 0) w)) table.length 1 table)
  else
    none

/-- The constant `ratioExpMul` of `asyncExpTable`. -/
def ratioExpMul : Nat := 2400 / 26

/-- The pairs `(start, end)` computed by `for i := 1; i < n; i += interval` in `asyncExpTable`,
from the value `i` of the loop variable on.  The loop is in the branch
`interval >= ratioExpMul`, so its step is positive. -/
def asyncExpTableChunks (interval n : Nat) (hpos : 0 < interval) (i : Nat) : List (Nat × Nat) :=
  if i < n then
    let start := i
    let end_ := i + interval
    let end_ := if end_ > n then n else end_
    (start, end_) :: asyncExpTableChunks interval n hpos (i + interval)
  else
    []
termination_by n - i

/-- One worker of the parallel branch:
`precomputeExpTableChunk(scale, w, uint64(start), table[start:end])`. -/
def expTableWorker (R : Fˣ) (scale w : F) (table : Option (List F)) (r : Nat × Nat) :
    Option (List F) :=
  table.bind fun t =>
    (slice t r.1 r.2).bind fun view =>
      (precomputeExpTableChunk R scale w r.1 view).map fun view => writeBack t r.1 view

/-- The branch `interval < ratioExpMul` of `asyncExpTable`: one worker runs
`precomputeExpTableChunk(scale, w, 1, table[1:])`. -/
def asyncExpTableSequential (R : Fˣ) (scale w : F) (table : List F) : Option (List F) :=
  (slice table 1 table.length).bind fun view =>
    (precomputeExpTableChunk R scale w 1 view).map fun view => writeBack table 1 view

/-- The branch `interval >= ratioExpMul` of `asyncExpTable`: one worker per chunk of the loop
`for i := 1; i < n; i += interval`. -/
def asyncExpTableParallel (interval : Nat) (hpos : 0 < interval) (R : Fˣ) (scale w : F)
    (table : List F) : Option (List F) :=
  (asyncExpTableChunks interval table.length hpos 1).foldl (expTableWorker R scale w) (some table)

/-- Function `asyncExpTable` followed by `wg.Wait()`: the table once every worker is done. -/
def asyncExpTable (P : Nat) (R : Fˣ) (scale w : F) (table : List F) : Option (List F) :=
  let n := table.length
  let interval := (n - 1) / P
  if h : interval < ratioExpMul then
    asyncExpTableSequential R scale w table
  else
    asyncExpTableParallel interval (Nat.lt_of_lt_of_le (by decide) (Nat.le_of_not_lt h))
      R scale w table

/-- Stored residue of `scale * w ^ k`, for stored residues `scale` and `w` in Montgomery form:
the entry that the exponent table is to hold at index `k`. -/
def expEntry (R : Fˣ) (scale w : F) (k : Nat) : F := scale * (w * ↑R⁻¹) ^ k

/-- The recurrence `table[0] = s`, `table[i] = table[i-1] * w` (Montgomery products), for a table
of length `n`. -/
def expTableRec (R : Fˣ) (s w : F) : Nat → List F
  | 0 => []
  | 1 => [s]
  | n + 2 =>
    let t := expTableRec R s w (n + 1)
    t ++ [fr.Mul R (t.getLastD 0) w]

end ExpTable

/-! ## The FFT domain and `computeH` -/

/-- Type `Domain` of package `bls377backend`: the fields of the FFT domain that `computeH`
reads, as stored residues in Montgomery form. -/
structure Domain (F : Type) where
  Cardinality : Nat
  CardinalityInv : F
  Generator : F
  GeneratorInv : F
  GeneratorSqRt : F
  GeneratorSqRtInv : F

section ComputeH

variable {F : Type} [Field F]

/-- Modelled from the spec: `bls377backend.FFT(v, x)` is not under `src/`; it is the
natural-order transform whose entry `k` denotes `∑ j, v[j] * x ^ (j * k)`, on a vector of
Montgomery residues and a Montgomery residue `x`, with a result of the length of `v`. -/
def FFT (R : Fˣ) (v : List F) (x : F) : List F :=
  (List.range v.length).map fun k =>
    ∑ j in Finset.range v.length, v.getD j 0 * (x * ↑R⁻¹) ^ (j * k)

/-- The work function `for i := start; i < end; i++ { s[i] = f(i, s[i]) }` that `computeH`
passes to `execute`. -/
def pointwiseWork (f : Nat → F → F) (start end_ : Nat) (s : List F) : List F :=
  forLoop (fun i s => s.set i (f i (s.getD i 0))) end_ start s

/-- The closure `FFTa` of `computeH`, once the exponent table is there: FFT by `GeneratorInv`,
product entry by entry with `expTable`, FFT by `Generator`. -/
def FFTa (P : Nat) (R : Fˣ) (fftDomain : Domain F) (n : Nat) (expTable : List F)
    (s : List F) : List F :=
  let s := FFT R s fftDomain.GeneratorInv
  let s := execute P n (pointwiseWork fun i x => fr.Mul R x (expTable.getD i 0)) s
  FFT R s fftDomain.Generator

/-- The padding step of `computeH`: `append(a, make([]fr.Element, Cardinality - len(a))...)`.
-/
def padTo (cardinality : Nat) (a : List F) : List F :=
  a ++ List.replicate (cardinality - a.length) 0

/-- Function `computeH`.  `none` is a panic: the assertion on the lengths fails, `make` gets a
negative length, `expTable[0]` is out of range, or a worker of `asyncExpTable` panics. -/
def computeH (P : Nat) (R : Fˣ) (a b c : List F) (fftDomain : Domain F) : Option (List F) :=
  let n := a.length
  if ¬ (n = b.length ∧ n = c.length) then none
  else if fftDomain.Cardinality < n then none
  else
    let a := padTo fftDomain.Cardinality a
    let b := padTo fftDomain.Cardinality b
    let c := padTo fftDomain.Cardinality c
    let n := a.length
    if n = 0 then none
    else
      let expTable := (List.replicate n (0 : F)).set 0 fftDomain.CardinalityInv
      (asyncExpTable P R fftDomain.CardinalityInv fftDomain.GeneratorSqRt expTable).bind
        fun expTable =>
          let a := FFTa P R fftDomain n expTable a
          let b := FFTa P R fftDomain n expTable b
          let c := FFTa P R fftDomain n expTable c
          let minusTwoInv := fr.Inverse R (fr.Neg (fr.SetUint64 R 2))
          let a := execute P n
            (pointwiseWork fun i x =>
              fr.Mul R (fr.Sub (fr.Mul R x (b.getD i 0)) (c.getD i 0)) minusTwoInv) a
          (asyncExpTable P R fftDomain.CardinalityInv fftDomain.GeneratorSqRtInv
              expTable).bind
            fun expTable =>
              let a := FFT R a fftDomain.GeneratorInv
              some (execute P n
                (pointwiseWork fun i x => fr.FromMont R (fr.Mul R x (expTable.getD i 0))) a)

end ComputeH

section ComputeHClosed

variable {F : Type} [Field F]

/-- Closed form of the closure `FFTa` of `computeH`, with the exponent table of base `g` and
scale `ninv` written out. -/
def FFTaClosed (R : Fˣ) (fftDomain : Domain F) (s : List F) : List F :=
  FFT R
    ((List.range s.length).map fun i =>
      fr.Mul R ((FFT R s fftDomain.GeneratorInv).getD i 0)
        (expEntry R fftDomain.CardinalityInv fftDomain.GeneratorSqRt i))
    fftDomain.Generator

/-- Closed form of the vector that `computeH` returns, for padded inputs `a`, `b`, `c`. -/
def computeHClosed (R : Fˣ) (fftDomain : Domain F) (a b c : List F) : List F :=
  let ca := FFTaClosed R fftDomain a
  let cb := FFTaClosed R fftDomain b
  let cc := FFTaClosed R fftDomain c
  let d := (List.range a.length).map fun i =>
    fr.Mul R (fr.Sub (fr.Mul R (ca.getD i 0) (cb.getD i 0)) (cc.getD i 0))
      (fr.Inverse R (fr.Neg (fr.SetUint64 R 2)))
  (List.range a.length).map fun k =>
    fr.FromMont R (fr.Mul R ((FFT R d fftDomain.GeneratorInv).getD k 0)
      (expEntry R fftDomain.CardinalityInv fftDomain.GeneratorSqRtInv k))

end ComputeHClosed

/-- The transform `k ↦ ∑ j < n, u j * x ^ (j * k)` on field values. -/
def dft {F : Type} [Field F] (n : Nat) (u : Nat → F) (x : F) (k : Nat) : F :=
  ∑ j in Finset.range n, u j * x ^ (j * k)

/-- The fields of a domain are consistent: `Generator` denotes `ω`, a primitive root of unity
of order `Cardinality`, `GeneratorInv` its inverse, `GeneratorSqRt` denotes `γ` with `γ ^ 2 = ω`
and `γ ^ Cardinality = -1`, `GeneratorSqRtInv` its inverse, and `CardinalityInv` the inverse
of the cardinality. -/
structure Domain.Consistent {F : Type} [Field F] (R : Fˣ) (d : Domain F) (ω γ : F) : Prop where
  prim : IsPrimitiveRoot ω d.Cardinality
  gen : fr.val R d.Generator = ω
  genInv : fr.val R d.GeneratorInv = ω⁻¹
  sqrt : fr.val R d.GeneratorSqRt = γ
  sq : γ ^ 2 = ω
  sqrt_pow : γ ^ d.Cardinality = -1
  sqrtInv : fr.val R d.GeneratorSqRtInv = γ⁻¹
  cardInv : fr.val R d.CardinalityInv = (d.Cardinality : F)⁻¹

/-- A consistent domain of cardinality 2 over `ZMod 5`, with Montgomery constant 1:
`ω = 4 = -1`, `γ = 2`, `2⁻¹ = 3`. -/
def exampleDomain : Domain (ZMod 5) :=
  { Cardinality := 2, CardinalityInv := 3, Generator := 4, GeneratorInv := 4,
    GeneratorSqRt := 2, GeneratorSqRtInv := 3 }

/-! ## `Prove` -/

/-- Type `Proof`: the three points of a Groth16 proof. Jacobian and affine coordinates of one
point are one element of the group. -/
structure Proof (E1 E2 : Type) where
  Ar : E1
  Krs : E1
  Bs : E2

/-- The `G1` part of the proving key.  `KSpare` holds the entries of the backing array of the
slice `K` from `len(K)` up to `cap(K)`: a slice expression `K[:hi]` is in range up to
`cap(K) = len(K) + len(KSpare)` and reads them. -/
structure ProvingKeyG1 (E1 : Type) where
  Alpha : E1
  Beta : E1
  Delta : E1
  A : List E1
  B : List E1
  Z : List E1
  K : List E1
  KSpare : List E1

/-- The `G2` part of the proving key. -/
structure ProvingKeyG2 (E2 : Type) where
  Beta : E2
  Delta : E2
  B : List E2

/-- Type `ProvingKey`, as far as `Prove` reads it. -/
structure ProvingKey (E1 E2 : Type) where
  G1 : ProvingKeyG1 E1
  G2 : ProvingKeyG2 E2

/-- What `Solve` writes into its four buffers: entry `i` of `a`, `b`, `c` and of
`wireValues`, as stored residues in Montgomery form. -/
structure SolveResult (F : Type) where
  a : Nat → F
  b : Nat → F
  c : Nat → F
  wireValues : Nat → F

/-- Type `bls377backend.R1CS`, as far as `Prove` reads it.  Its method `Solve` is not under
`src/`: it is the field `Solve`, which either fails with an error or fills the buffers. -/
structure R1CS (ε S F : Type) where
  NbWires : Nat
  NbPublicWires : Nat
  NbConstraints : Nat
  Solve : S → Except ε (SolveResult F)

/-- How a call of `Prove` ends: a run-time panic, the return `(nil, err)` or the return
`(proof, nil)`. -/
inductive Outcome (ε α : Type) where
  | panic : Outcome ε α
  | error (err : ε) : Outcome ε α
  | ok (proof : α) : Outcome ε α

/-- The operations of `Prove` that a run is traced by. -/
inductive Event where
  | solve
  | setRandom
  | computeH
  | batchScalarMultiplication
  | multiExp
deriving DecidableEq, Repr

/-- A run of `Prove`: how it ends and the traced operations it performed, in program order. -/
structure ProveRun (ε E1 E2 : Type) where
  outcome : Outcome ε (Proof E1 E2)
  events : List Event

/-- The completion signals that the select loop of `computeKRS` waits for. -/
inductive KrsEvent where
  | krs2Done
  | arDone
  | bs1Done
deriving DecidableEq, Repr

section ProveDefs

variable {F E1 E2 ε S : Type} [Field F]

/-- The multi-scalar multiplication `∑ i, scalars[i] • points[i]`, the stored residue of each
scalar being read as a number (regular form). -/
def msm {E : Type} [AddCommGroup E] [Module F E] (points : List E) (scalars : List F) : E :=
  (List.zipWith (fun p x => x • p) points scalars).sum

/-- Method `MultiExp` of the curve package: it reads `points[i]` for every index `i` of
`scalars`, so it panics (`none`) when there are fewer points than scalars; otherwise it returns
`∑ i, scalars[i] • points[i]`. -/
def MultiExp {E : Type} [AddCommGroup E] [Module F E] (points : List E) (scalars : List F) :
    Option E :=
  if points.length < scalars.length then none else some (msm points scalars)

/-- Function `curve.BatchScalarMultiplicationG1`: the multiples of one base by each scalar. -/
def BatchScalarMultiplicationG1 [AddCommGroup E1] [Module F E1] (base : E1)
    (scalars : List F) : List E1 :=
  scalars.map fun x => x • base

/-- Method `ToBigInt`: the number that the stored residue is. -/
def fr.ToBigInt (x : F) : F := x

/-- One case of the `select` of `computeKRS`. -/
def krsSelectCase [AddCommGroup E1] [Module F E1] (krs2 ar bs1 : E1) (r s : F) (krs : E1) :
    KrsEvent → E1
  | .krs2Done => krs + krs2
  | .arDone => krs + s • ar
  | .bs1Done => krs + r • bs1

/-- The loop `n := 3; for n != 0 { select { ... }; n-- }` of `computeKRS`.  `arrivals` is the
order in which the scheduler delivers the signals and `pending` the signals not yet received:
each of the three channels is sent to exactly once.  The result is the final `krs` and the
signals consumed, one per iteration; `none` when the loop waits for a signal that never comes.
-/
def krsLoop [AddCommGroup E1] [Module F E1] (krs2 ar bs1 : E1) (r s : F) :
    Nat → List KrsEvent → List KrsEvent → E1 → List KrsEvent → Option (E1 × List KrsEvent)
  | 0, _, _, krs, consumed => some (krs, consumed)
  | _ + 1, [], _, _, _ => none
  | n + 1, ev :: arrivals, pending, krs, consumed =>
    if ev ∈ pending then
      krsLoop krs2 ar bs1 r s n arrivals (pending.erase ev)
        (krsSelectCase krs2 ar bs1 r s krs ev) (consumed ++ [ev])
    else
      none

/-- The split branch of the `Bs2` block: three sub-multi-exponentiations and their sum. -/
def bs2Split [AddCommGroup E2] [Module F E2] (pk : ProvingKey E1 E2) (wireValues : List F) :
    Option E2 :=
  let bsSplit := pk.G2.B.length / 3
  (slice pk.G2.B 0 bsSplit).bind fun p1 =>
  (slice wireValues 0 bsSplit).bind fun w1 =>
  (slice pk.G2.B bsSplit (bsSplit * 2)).bind fun p2 =>
  (slice wireValues bsSplit (bsSplit * 2)).bind fun w2 =>
  (slice pk.G2.B (bsSplit * 2) pk.G2.B.length).bind fun p3 =>
  (slice wireValues (bsSplit * 2) wireValues.length).bind fun w3 =>
  (MultiExp p1 w1).bind fun (bs1 : E2) =>
  (MultiExp p2 w2).bind fun (bs2 : E2) =>
  (MultiExp p3 w3).bind fun (Bs : E2) =>
    let Bs := Bs + bs1
    let Bs := Bs + bs2
    some Bs

/-- The other branch of the `Bs2` block: one multi-exponentiation. -/
def bs2Single [AddCommGroup E2] [Module F E2] (pk : ProvingKey E1 E2) (wireValues : List F) :
    Option E2 :=
  MultiExp pk.G2.B wireValues

/-- The `Bs2` block of `Prove`: the value stored in `proof.Bs`. -/
def computeBs2 [AddCommGroup E2] [Module F E2] (pk : ProvingKey E1 E2) (wireValues : List F)
    (s : F) : Option E2 :=
  let bsSplit := pk.G2.B.length / 3
  (if bsSplit > 10 then bs2Split pk wireValues else bs2Single pk wireValues).map
    fun Bs =>
      let deltaS := s • pk.G2.Delta
      let Bs := Bs + deltaS
      Bs + pk.G2.Beta

/-- The closure `computeBS1` of `Prove`. -/
def computeBS1 [AddCommGroup E1] [Module F E1] (pk : ProvingKey E1 E2) (wireValues : List F)
    (deltas : List E1) : Option E1 :=
  (MultiExp pk.G1.B wireValues).map fun (bs1 : E1) => bs1 + pk.G1.Beta + deltas.getD 1 0

/-- The closure `computeAR1` of `Prove`: the value of `ar`, which is stored in `proof.Ar`. -/
def computeAR1 [AddCommGroup E1] [Module F E1] (pk : ProvingKey E1 E2) (wireValues : List F)
    (deltas : List E1) : Option E1 :=
  (MultiExp pk.G1.A wireValues).map fun (ar : E1) => ar + pk.G1.Alpha + deltas.getD 0 0

/-- The closure `computeKRS` of `Prove`: the value stored in `proof.Krs`, given the values
`ar` and `bs1` that the closures `computeAR1` and `computeBS1` have computed when their signals
arrive.  `nbPrivateWires` is `NbWires - NbPublicWires`, negative when `nbPublic > nbWires`.
The slice expression `pk.G1.K[:nbPrivateWires]` is bounded by the capacity of `pk.G1.K`: it is
taken on `K ++ KSpare`; `wireValues` is made with capacity `NbWires`, its length. -/
def computeKRS [AddCommGroup E1] [Module F E1] (pk : ProvingKey E1 E2) (nbWires nbPublic : Nat)
    (wireValues h : List F) (deltas : List E1) (ar bs1 : E1) (r s : F)
    (arrivals : List KrsEvent) : Option E1 :=
  if nbWires < nbPublic then none
  else
    let nbPrivateWires := nbWires - nbPublic
    (MultiExp pk.G1.Z h).bind fun (krs2 : E1) =>
    (slice (pk.G1.K ++ pk.G1.KSpare) 0 nbPrivateWires).bind fun points =>
    (slice wireValues 0 nbPrivateWires).bind fun scalars =>
    (MultiExp points scalars).bind fun (krs : E1) =>
      let krs := krs + deltas.getD 2 0
      (krsLoop krs2 ar bs1 r s 3 arrivals [.krs2Done, .arDone, .bs1Done] krs []).map
        fun res => res.1

/-- Function `Prove`.  `NewDomain` is `bls377backend.NewDomain`, `rnd1` and `rnd2` are the
residues that the two calls of `SetRandom` store, `arrivals` is the order in which the select
loop of `computeKRS` receives its signals. -/
def Prove [AddCommGroup E1] [Module F E1] [AddCommGroup E2] [Module F E2] (P : Nat) (R : Fˣ)
    (NewDomain : Nat → Domain F) (rnd1 rnd2 : F) (arrivals : List KrsEvent)
    (r1cs : R1CS ε S F) (pk : ProvingKey E1 E2) (solution : S) : ProveRun ε E1 E2 :=
  let fftDomain := NewDomain r1cs.NbConstraints
  if fftDomain.Cardinality < r1cs.NbConstraints then
    { outcome := .panic, events := [] }
  else
    match r1cs.Solve solution with
    | .error err => { outcome := .error err, events := [.solve] }
    | .ok sol =>
      let a := (List.range r1cs.NbConstraints).map sol.a
      let b := (List.range r1cs.NbConstraints).map sol.b
      let c := (List.range r1cs.NbConstraints).map sol.c
      let wireValues := (List.range r1cs.NbWires).map sol.wireValues
      let wireValues :=
        execute P wireValues.length (pointwiseWork fun _ x => fr.FromMont R x) wireValues
      let h := computeH P R a b c fftDomain
      let _r := rnd1
      let _s := rnd2
      let _kr := fr.Neg (fr.Mul R _r _s)
      let _r := fr.FromMont R _r
      let _s := fr.FromMont R _s
      let _kr := fr.FromMont R _kr
      let r := fr.ToBigInt _r
      let s := fr.ToBigInt _s
      let deltas : List E1 := BatchScalarMultiplicationG1 pk.G1.Delta [_r, _s, _kr]
      let events : List Event :=
        [.solve, .computeH, .setRandom, .setRandom, .batchScalarMultiplication]
      match h with
      | none => { outcome := .panic, events := events }
      | some h =>
        let events := events ++ [.multiExp, .multiExp, .multiExp, .multiExp] ++
          (if pk.G2.B.length / 3 > 10 then [.multiExp, .multiExp, .multiExp] else [.multiExp])
        match computeBS1 pk wireValues deltas, computeAR1 pk wireValues deltas with
        | some bs1, some ar =>
          match computeKRS pk r1cs.NbWires r1cs.NbPublicWires wireValues h deltas ar bs1 r s
              arrivals, computeBs2 pk wireValues s with
          | some krs, some Bs =>
            { outcome := .ok { Ar := ar, Krs := krs, Bs := Bs }, events := events }
          | _, _ => { outcome := .panic, events := events }
        | _, _ => { outcome := .panic, events := events }

end ProveDefs

section ProveSpec

variable {F E1 E2 ε S : Type} [Field F]

/-- The wire values as field values: what `wireValues` holds once `Prove` has put it in
regular form. -/
def regularWires (R : Fˣ) (r1cs : R1CS ε S F) (sol : SolveResult F) : List F :=
  (List.range r1cs.NbWires).map fun i => fr.val R (sol.wireValues i)

/-- The three multiples of `Delta` that `Prove` computes from the residues drawn by
`SetRandom`: by `r`, by `s` and by `kr = -(r * s)`, with `r`, `s` the field values drawn. -/
def proveDeltas [AddCommGroup E1] [Module F E1] (R : Fˣ) (pk : ProvingKey E1 E2)
    (rnd1 rnd2 : F) : List E1 :=
  BatchScalarMultiplicationG1 pk.G1.Delta
    [fr.FromMont R rnd1, fr.FromMont R rnd2, fr.FromMont R (fr.Neg (fr.Mul R rnd1 rnd2))]

end ProveSpec

/-- An R1CS with 3 wires, 1 of them public, and 2 constraints over `ZMod 5`, whose `Solve`
succeeds with `a = [1, 2]`, `b = [3, 4]`, `c = [3, 3]` and the wire values `[1, 2, 3]`. -/
def exampleR1CS : R1CS String Unit (ZMod 5) :=
  { NbWires := 3, NbPublicWires := 1, NbConstraints := 2,
    Solve := fun _ => .ok
      { a := fun i => [1, 2].getD i 0, b := fun i => [3, 4].getD i 0,
        c := fun i => [3, 3].getD i 0, wireValues := fun i => [1, 2, 3].getD i 0 } }

/-- A proving key for `exampleR1CS`, with points in the additive group of `ZMod 5`. -/
def exampleProvingKey : ProvingKey (ZMod 5) (ZMod 5) :=
  { G1 := { Alpha := 1, Beta := 2, Delta := 3, A := [1, 1, 1], B := [2, 2, 2], Z := [1, 2],
            K := [1, 1], KSpare := [] },
    G2 := { Beta := 1, Delta := 2, B := [1, 2, 3] } }

/-- An R1CS with 33 wires, whose `Solve` succeeds. -/
def exampleWideR1CS : R1CS String Unit (ZMod 5) :=
  { NbWires := 33, NbPublicWires := 1, NbConstraints := 2,
    Solve := fun _ => .ok
      { a := fun _ => 1, b := fun _ => 1, c := fun _ => 1, wireValues := fun _ => 1 } }

/-- A proving key for `exampleWideR1CS` whose `G2.B` has 33 points, so that the `Bs2` block
takes its split branch. -/
def exampleWideProvingKey : ProvingKey (ZMod 5) (ZMod 5) :=
  { G1 := { Alpha := 1, Beta := 2, Delta := 3, A := List.replicate 33 1,
            B := List.replicate 33 1, Z := [1, 2], K := List.replicate 32 1, KSpare := [] },
    G2 := { Beta := 1, Delta := 2, B := List.replicate 33 1 } }

/-- The ranges `(start, end)` of the workers that `asyncExpTable` starts on a table of length
`n` with `P` CPUs: the one call on `table[1:]` when `interval < ratioExpMul`, the chunks of the
loop otherwise.  A worker on `(start, end)` is
`precomputeExpTableChunk(scale, w, start, table[start:end])`. -/
def asyncExpTableWorkers (P n : Nat) : List (Nat × Nat) :=
  let interval := (n - 1) / P
  if h : interval < ratioExpMul then [(1, n)]
  else asyncExpTableChunks interval n
    (Nat.lt_of_lt_of_le (by decide) (Nat.le_of_not_lt h)) 1

section UnfusedPasses

variable {F : Type} [Field F]

/-- Pass (a) of the specification, the one an iFFT is followed by when nothing is fused: every
entry is scaled by `n⁻¹`, stored in the domain as `CardinalityInv`. -/
def scaleByCardinalityInv (R : Fˣ) (fftDomain : Domain F) (s : List F) : List F :=
  s.map fun x => fr.Mul R x fftDomain.CardinalityInv

/-- Pass (b) of the specification: entry `i` is multiplied by `g ^ i`, the `i`-th entry of
`[1, g, g², …]`. -/
def cosetShift (R : Fˣ) (g : F) (s : List F) : List F :=
  (List.range s.length).map fun i => fr.Mul R (s.getD i 0) (fr.Exp R g i)

/-- The two passes of the specification, one after the other. -/
def unfusedTablePass (R : Fˣ) (fftDomain : Domain F) (g : F) (s : List F) : List F :=
  cosetShift R g (scaleByCardinalityInv R fftDomain s)

/-- The unfused final pass of the specification: scaling, shift by the powers of `g`, and the
conversion out of Montgomery form of each entry. -/
def unfusedFinalPass (R : Fˣ) (fftDomain : Domain F) (g : F) (s : List F) : List F :=
  (unfusedTablePass R fftDomain g s).map fun x => fr.FromMont R x

end UnfusedPasses

/-- The key `exampleProvingKey` with one more point in `G1.K` than `exampleR1CS` has private
wires. -/
def exampleLongKey : ProvingKey (ZMod 5) (ZMod 5) :=
  { G1 := { Alpha := 1, Beta := 2, Delta := 3, A := [1, 1, 1], B := [2, 2, 2], Z := [1, 2],
            K := [1, 1, 1], KSpare := [] },
    G2 := { Beta := 1, Delta := 2, B := [1, 2, 3] } }

/-- The key `exampleProvingKey` with an empty `G1.K` of capacity 0. -/
def exampleShortKey : ProvingKey (ZMod 5) (ZMod 5) :=
  { G1 := { Alpha := 1, Beta := 2, Delta := 3, A := [1, 1, 1], B := [2, 2, 2], Z := [1, 2],
            K := [], KSpare := [] },
    G2 := { Beta := 1, Delta := 2, B := [1, 2, 3] } }

/-- The key `exampleProvingKey` with one point in `G1.K`, whose backing array holds one more
point: `len(G1.K) = 1`, `cap(G1.K) = 2`. -/
def exampleSpareKey : ProvingKey (ZMod 5) (ZMod 5) :=
  { G1 := { Alpha := 1, Beta := 2, Delta := 3, A := [1, 1, 1], B := [2, 2, 2], Z := [1, 2],
            K := [1], KSpare := [4] },
    G2 := { Beta := 1, Delta := 2, B := [1, 2, 3] } }

/-- An R1CS like `exampleR1CS` whose `Solve` fails. -/
def exampleFailingR1CS : R1CS String Unit (ZMod 5) :=
  { NbWires := 3, NbPublicWires := 1, NbConstraints := 2,
    Solve := fun _ => .error "constraint is not satisfied" }

/-- The unit 2 of `ZMod 5`, with inverse 3: a Montgomery constant different from 1. -/
def exampleMontR : (ZMod 5)ˣ := ⟨2, 3, by decide, by decide⟩

/-- The domain of cardinality 2 over `ZMod 5` with its fields stored in Montgomery form for the
constant `exampleMontR`: the field values are those of `exampleDomain`, each stored as twice
its value. -/
def exampleMontDomain : Domain (ZMod 5) :=
  { Cardinality := 2, CardinalityInv := 1, Generator := 3, GeneratorInv := 3,
    GeneratorSqRt := 4, GeneratorSqRtInv := 1 }

/-- The R1CS `exampleR1CS` with the results of `Solve` stored in Montgomery form for the
constant `exampleMontR`: `a`, `b`, `c` denote `[1, 2]`, `[3, 4]`, `[3, 3]` and the wire values
denote `[1, 2, 3]`. -/
def exampleMontR1CS : R1CS String Unit (ZMod 5) :=
  { NbWires := 3, NbPublicWires := 1, NbConstraints := 2,
    Solve := fun _ => .ok
      { a := fun i => [2, 4].getD i 0, b := fun i => [1, 3].getD i 0,
        c := fun i => [1, 1].getD i 0, wireValues := fun i => [2, 4, 1].getD i 0 } }

/-! # Theorems -/

/-! ### Loop reasoning -/

theorem forLoop_of_ge {σ : Type} (body : Nat → σ → σ) (stop i : Nat) (st : σ) (h : stop ≤ i) :
    forLoop body stop i st = st := by
  unfold forLoop
  rw [Nat.sub_eq_zero_of_le h]
  rfl

theorem forLoop_step {σ : Type} (body : Nat → σ → σ) (stop i : Nat) (st : σ) (h : i < stop) :
    forLoop body stop i st = forLoop body stop (i + 1) (body i st) := by
  unfold forLoop
  obtain ⟨k, hk⟩ : ∃ k, stop - i = k + 1 := ⟨stop - i - 1, by omega⟩
  have hk2 : stop - (i + 1) = k := by omega
  rw [hk, hk2]
  rfl

/-- Invariant rule for `forLoop`. -/
theorem forLoop_invariant {σ : Type} (body : Nat → σ → σ) (stop : Nat) (Inv : Nat → σ → Prop)
    (hstep : ∀ j s, j < stop → Inv j s → Inv (j + 1) (body j s)) :
    ∀ (k i : Nat) (st : σ), stop - i = k → i ≤ stop → Inv i st →
      Inv stop (forLoop body stop i st) := by
  intro k
  induction k with
  | zero =>
    intro i st hk hi hinv
    have : i = stop := by omega
    subst this
    rw [forLoop_of_ge _ _ _ _ (le_refl _)]
    exact hinv
  | succ k ih =>
    intro i st hk hi hinv
    have hlt : i < stop := by omega
    rw [forLoop_step _ _ _ _ hlt]
    exact ih (i + 1) (body i st) (by omega) (by omega) (hstep i st hlt hinv)

theorem executeLoop_closed (per extra nbTasks : Nat) :
    (forLoop (executeBody per) nbTasks 0
      { extraTasks := extra, extraTasksOffset := 0, launched := [] }).launched
      = (List.range nbTasks).map (balancedRange per extra) := by
  have key := forLoop_invariant (executeBody per) nbTasks
    (fun j s => s.extraTasks = extra - j ∧ s.extraTasksOffset = min j extra ∧
      s.launched = (List.range j).map (balancedRange per extra))
    (by
      intro j s _ hinv
      obtain ⟨h1, h2, h3⟩ := hinv
      unfold executeBody
      by_cases hpos : s.extraTasks > 0
      · simp only [hpos, if_true]
        refine ⟨by omega, by omega, ?_⟩
        rw [List.range_succ, List.map_append, h3, h2]
        simp only [List.map_cons, List.map_nil, balancedRange]
        have e1 : min (j + 1) extra = min j extra + 1 := by omega
        rw [e1]
        congr 2
        ring_nf
      · simp only [hpos, if_false]
        refine ⟨by omega, by omega, ?_⟩
        rw [List.range_succ, List.map_append, h3, h2]
        simp only [List.map_cons, List.map_nil, balancedRange]
        have e1 : min (j + 1) extra = min j extra := by omega
        rw [e1]
        congr 2
        ring_nf)
    nbTasks 0 { extraTasks := extra, extraTasksOffset := 0, launched := [] }
    (by omega) (by omega) (by simp)
  exact key.2.2


/-- Closed form of the ranges of `execute`. -/
theorem executeRanges_eq (P n : Nat) :
    executeRanges P n =
      if n / P < 1 then (List.range n).map (balancedRange 1 (n - n * 1))
      else (List.range P).map (balancedRange (n / P) (n - P * (n / P))) := by
  unfold executeRanges
  by_cases h : n / P < 1
  · simp only [h, if_true]
    exact executeLoop_closed 1 (n - n * 1) n
  · simp only [h, if_false]
    exact executeLoop_closed (n / P) (n - P * (n / P)) P

theorem ChainFromTo.le {a b : Nat} {rs : List (Nat × Nat)} (h : ChainFromTo a rs b) : a ≤ b := by
  induction rs generalizing a with
  | nil => exact le_of_eq h
  | cons r rs ih =>
    obtain ⟨h1, h2, h3⟩ := h
    have := ih h3
    omega

theorem ChainFromTo.head {a b : Nat} {rs : List (Nat × Nat)} (h : ChainFromTo a rs b) :
    ∀ r, rs.head? = some r → r.1 = a := by
  cases rs with
  | nil => intro r hr; simp at hr
  | cons x xs =>
    intro r hr
    simp only [List.head?_cons, Option.some.injEq] at hr
    subst hr
    exact h.1

theorem ChainFromTo.last {a b : Nat} {rs : List (Nat × Nat)} (h : ChainFromTo a rs b) :
    ∀ r, rs.getLast? = some r → r.2 = b := by
  induction rs generalizing a with
  | nil => intro r hr; simp at hr
  | cons x xs ih =>
    intro r hr
    obtain ⟨_, _, h3⟩ := h
    cases xs with
    | nil =>
      simp only [List.getLast?_singleton, Option.some.injEq] at hr
      subst hr
      exact h3
    | cons y ys =>
      rw [List.getLast?_cons_cons] at hr
      exact ih h3 r hr

theorem ChainFromTo.chain {a b : Nat} {rs : List (Nat × Nat)} (h : ChainFromTo a rs b) :
    List.Chain' (fun r r' => r.2 = r'.1) rs := by
  induction rs generalizing a with
  | nil => exact List.chain'_nil
  | cons x xs ih =>
    obtain ⟨_, _, h3⟩ := h
    cases xs with
    | nil => exact List.chain'_singleton x
    | cons y ys =>
      rw [List.chain'_cons]
      exact ⟨h3.1.symm, ih h3⟩

theorem ChainFromTo.start_ge {a b : Nat} {rs : List (Nat × Nat)} (h : ChainFromTo a rs b) :
    ∀ r ∈ rs, a ≤ r.1 ∧ r.1 ≤ r.2 ∧ r.2 ≤ b := by
  induction rs generalizing a with
  | nil => intro r hr; simp at hr
  | cons x xs ih =>
    intro r hr
    obtain ⟨h1, h2, h3⟩ := h
    rcases List.mem_cons.mp hr with rfl | hmem
    · exact ⟨le_of_eq h1.symm, h2, h3.le⟩
    · have := ih h3 r hmem
      omega

theorem ChainFromTo.pairwise {a b : Nat} {rs : List (Nat × Nat)} (h : ChainFromTo a rs b) :
    List.Pairwise (fun r r' => r.2 ≤ r'.1) rs := by
  induction rs generalizing a with
  | nil => exact List.Pairwise.nil
  | cons x xs ih =>
    obtain ⟨_, _, h3⟩ := h
    rw [List.pairwise_cons]
    exact ⟨fun r hr => (h3.start_ge r hr).1, ih h3⟩

theorem ChainFromTo.count_eq {a b : Nat} {rs : List (Nat × Nat)} (h : ChainFromTo a rs b)
    (i : Nat) :
    rs.countP (fun r => decide (r.1 ≤ i ∧ i < r.2)) = if a ≤ i ∧ i < b then 1 else 0 := by
  induction rs generalizing a with
  | nil =>
    have hab : a = b := h
    subst hab
    have : ¬ (a ≤ i ∧ i < a) := by omega
    simp [this]
  | cons x xs ih =>
    obtain ⟨h1, h2, h3⟩ := h
    have hle := h3.le
    rw [List.countP_cons, ih h3]
    by_cases hx : x.1 ≤ i ∧ i < x.2
    · have c1 : ¬ (x.2 ≤ i ∧ i < b) := by omega
      have c2 : a ≤ i ∧ i < b := by omega
      simp [hx, c1, c2]
    · by_cases hr : x.2 ≤ i ∧ i < b
      · have c2 : a ≤ i ∧ i < b := by omega
        simp [hx, hr, c2]
      · have c2 : ¬ (a ≤ i ∧ i < b) := by omega
        simp [hx, hr, c2]

theorem balanced_chain (per extra : Nat) (m j : Nat) :
    ChainFromTo (j * per + min j extra) ((List.range' j m).map (balancedRange per extra))
      ((j + m) * per + min (j + m) extra) := by
  induction m generalizing j with
  | zero => simp [ChainFromTo]
  | succ m ih =>
    rw [List.range'_succ, List.map_cons]
    refine ⟨rfl, ?_, ?_⟩
    · simp only [balancedRange]
      have : j * per ≤ (j + 1) * per := Nat.mul_le_mul_right per (by omega)
      omega
    · have := ih (j + 1)
      simp only [balancedRange]
      rw [show j + (m + 1) = j + 1 + m by omega]
      exact this

/-- The ranges of `execute` follow one another from `0` to `nbIterations`. -/
theorem executeRanges_chain (P n : Nat) (hP : 1 ≤ P) : ChainFromTo 0 (executeRanges P n) n := by
  rw [executeRanges_eq]
  by_cases h : n / P < 1
  · simp only [h, if_true]
    have := balanced_chain 1 (n - n * 1) n 0
    rw [List.range_eq_range']
    simpa using this
  · simp only [h, if_false]
    have := balanced_chain (n / P) (n - P * (n / P)) P 0
    rw [List.range_eq_range']
    have hmod : n - P * (n / P) = n % P := by
      have := Nat.div_add_mod n P
      omega
    have hlt : n % P < P := Nat.mod_lt n (by omega)
    have e : (0 + P) * (n / P) + min (0 + P) (n - P * (n / P)) = n := by
      rw [hmod, Nat.zero_add, Nat.min_eq_right (le_of_lt hlt)]
      exact Nat.div_add_mod n P
    rw [e] at this
    simpa using this

/-- C5. `execute` partitions the index interval: for every `nbIterations = n` and every worker
count `P ≥ 1`, the ranges passed to `work`, in launch order, start at `0`, each next range starts
where the previous one ends, the last one ends at `n`; they are pairwise disjoint (an earlier
range ends before a later one starts), every index below `n` lies in exactly one range, no index
from `n` on lies in any, and for `n = 0` no range is launched, so `work` is never called. -/
theorem execute_partitions_interval (P n : Nat) (hP : 1 ≤ P) :
    (∀ r, (executeRanges P n).head? = some r → r.1 = 0) ∧
    List.Chain' (fun r r' => r.2 = r'.1) (executeRanges P n) ∧
    (∀ r, (executeRanges P n).getLast? = some r → r.2 = n) ∧
    List.Pairwise (fun r r' => r.2 ≤ r'.1) (executeRanges P n) ∧
    (∀ i, i < n → (executeRanges P n).countP (fun r => decide (r.1 ≤ i ∧ i < r.2)) = 1) ∧
    (∀ i, n ≤ i → (executeRanges P n).countP (fun r => decide (r.1 ≤ i ∧ i < r.2)) = 0) ∧
    (n = 0 → executeRanges P n = [] ∧
      ∀ (σ : Type) (work : Nat → Nat → σ → σ) (st : σ), execute P n work st = st) := by
  have hc := executeRanges_chain P n hP
  refine ⟨hc.head, hc.chain, hc.last, hc.pairwise, ?_, ?_, ?_⟩
  · intro i hi
    rw [hc.count_eq i]
    simp [hi]
  · intro i hi
    rw [hc.count_eq i]
    have : ¬ (0 ≤ i ∧ i < n) := by omega
    rw [if_neg this]
  · intro h0
    subst h0
    have hnil : executeRanges P 0 = [] := by
      rw [executeRanges_eq]
      simp
    refine ⟨hnil, ?_⟩
    intro σ work st
    unfold execute
    rw [hnil]
    rfl

/-- Concrete instance of C5: 10 iterations on 4 workers. -/
theorem execute_partitions_interval_witness :
    (∀ r, (executeRanges 4 10).head? = some r → r.1 = 0) ∧
    List.Chain' (fun r r' => r.2 = r'.1) (executeRanges 4 10) ∧
    (∀ r, (executeRanges 4 10).getLast? = some r → r.2 = 10) ∧
    List.Pairwise (fun r r' => r.2 ≤ r'.1) (executeRanges 4 10) ∧
    (∀ i, i < 10 → (executeRanges 4 10).countP (fun r => decide (r.1 ≤ i ∧ i < r.2)) = 1) ∧
    (∀ i, 10 ≤ i → (executeRanges 4 10).countP (fun r => decide (r.1 ≤ i ∧ i < r.2)) = 0) ∧
    (10 = 0 → executeRanges 4 10 = [] ∧
      ∀ (σ : Type) (work : Nat → Nat → σ → σ) (st : σ), execute 4 10 work st = st) :=
  execute_partitions_interval 4 10 (by decide)

theorem balancedRange_size (per extra j : Nat) :
    (balancedRange per extra j).2 - (balancedRange per extra j).1 =
      if j < extra then per + 1 else per := by
  simp only [balancedRange]
  have e : (j + 1) * per = j * per + per := by ring
  rw [e]
  by_cases h : j < extra
  · simp only [h, if_true]
    omega
  · simp only [h, if_false]
    omega

/-- C6. `execute` balances the ranges: for every `n` and `P ≥ 1`, if `n < P` exactly `n`
workers are launched and worker `i` owns the single index `i`; otherwise exactly `P` workers are
launched, the first `n mod P` of them get `n / P + 1` indices and the others `n / P`; in both
cases two range sizes differ by at most 1 and no range is empty. -/
theorem execute_balances_ranges (P n : Nat) (hP : 1 ≤ P) :
    (n < P → executeRanges P n = (List.range n).map (fun i => (i, i + 1))) ∧
    (P ≤ n → (executeRanges P n).length = P ∧
      ∀ k r, (executeRanges P n)[k]? = some r →
        r.2 - r.1 = if k < n % P then n / P + 1 else n / P) ∧
    (∀ r ∈ executeRanges P n, ∀ r' ∈ executeRanges P n, r.2 - r.1 ≤ r'.2 - r'.1 + 1) ∧
    (∀ r ∈ executeRanges P n, r.1 < r.2) := by
  have hmod : n - P * (n / P) = n % P := by
    have := Nat.div_add_mod n P
    omega
  have hsmall : n < P → executeRanges P n = (List.range n).map (fun i => (i, i + 1)) := by
    intro h
    rw [executeRanges_eq]
    have h0 : n / P = 0 := Nat.div_eq_of_lt h
    simp only [h0, Nat.lt_one_iff, if_true]
    apply List.map_congr_left
    intro j _
    simp [balancedRange]
  have hbig : P ≤ n → executeRanges P n = (List.range P).map (balancedRange (n / P) (n % P)) := by
    intro h
    rw [executeRanges_eq]
    have h1 : ¬ n / P < 1 := by
      have : 1 ≤ n / P := (Nat.one_le_div_iff (by omega)).mpr h
      omega
    simp only [h1, if_false, hmod]
  refine ⟨hsmall, ?_, ?_, ?_⟩
  · intro h
    rw [hbig h]
    refine ⟨by simp, ?_⟩
    intro k r hk
    rw [List.getElem?_map] at hk
    by_cases hkP : k < P
    · rw [List.getElem?_range hkP] at hk
      simp only [Option.map_some', Option.some.injEq] at hk
      rw [← hk]
      exact balancedRange_size _ _ _
    · rw [List.getElem?_eq_none (by simpa using hkP)] at hk
      simp at hk
  · intro r hr r' hr'
    by_cases h : n < P
    · rw [hsmall h] at hr hr'
      simp only [List.mem_map, List.mem_range] at hr hr'
      obtain ⟨i, _, rfl⟩ := hr
      obtain ⟨j, _, rfl⟩ := hr'
      simp
    · rw [hbig (by omega)] at hr hr'
      simp only [List.mem_map, List.mem_range] at hr hr'
      obtain ⟨i, _, rfl⟩ := hr
      obtain ⟨j, _, rfl⟩ := hr'
      rw [balancedRange_size, balancedRange_size]
      split <;> split <;> omega
  · intro r hr
    by_cases h : n < P
    · rw [hsmall h] at hr
      simp only [List.mem_map, List.mem_range] at hr
      obtain ⟨i, _, rfl⟩ := hr
      simp
    · have hPn : P ≤ n := by omega
      rw [hbig hPn] at hr
      simp only [List.mem_map, List.mem_range] at hr
      obtain ⟨i, _, rfl⟩ := hr
      have hsz := balancedRange_size (n / P) (n % P) i
      have : 1 ≤ n / P := (Nat.one_le_div_iff (by omega)).mpr hPn
      split at hsz <;> omega

/-- Concrete instance of C6: 10 iterations on 4 workers. -/
theorem execute_balances_ranges_witness :
    (10 < 4 → executeRanges 4 10 = (List.range 10).map (fun i => (i, i + 1))) ∧
    (4 ≤ 10 → (executeRanges 4 10).length = 4 ∧
      ∀ k r, (executeRanges 4 10)[k]? = some r →
        r.2 - r.1 = if k < 10 % 4 then 10 / 4 + 1 else 10 / 4) ∧
    (∀ r ∈ executeRanges 4 10, ∀ r' ∈ executeRanges 4 10, r.2 - r.1 ≤ r'.2 - r'.1 + 1) ∧
    (∀ r ∈ executeRanges 4 10, r.1 < r.2) :=
  execute_balances_ranges 4 10 (by decide)

/-! ### Package `fr` -/

section FrLemmas

variable {F : Type} [Field F]

theorem fr.units_mul_inv (R : Fˣ) : (↑R : F) * ↑R⁻¹ = 1 := R.mul_inv

theorem fr.Exp_eq (R : Fˣ) (x : F) (k : Nat) : fr.Exp R x k = ↑R * (x * ↑R⁻¹) ^ k := by
  induction k with
  | zero => simp [fr.Exp]
  | succ k ih =>
    rw [fr.Exp, ih, fr.Mul, pow_succ]
    ring

theorem fr.val_toMont (R : Fˣ) (a : F) : fr.val R (fr.toMont R a) = a := by
  unfold fr.val fr.toMont
  rw [mul_assoc, fr.units_mul_inv, mul_one]

theorem fr.toMont_val (R : Fˣ) (x : F) : fr.toMont R (fr.val R x) = x := by
  unfold fr.val fr.toMont
  rw [mul_assoc, R.inv_mul, mul_one]

theorem fr.val_Mul (R : Fˣ) (x y : F) : fr.val R (fr.Mul R x y) = fr.val R x * fr.val R y := by
  unfold fr.val fr.Mul
  ring

theorem fr.val_expEntry (R : Fˣ) (scale w : F) (k : Nat) :
    fr.val R (expEntry R scale w k) = fr.val R scale * fr.val R w ^ k := by
  unfold fr.val expEntry
  ring

theorem expEntry_zero (R : Fˣ) (scale w : F) : expEntry R scale w 0 = scale := by
  simp [expEntry]

theorem expEntry_succ (R : Fˣ) (scale w : F) (k : Nat) :
    expEntry R scale w (k + 1) = fr.Mul R (expEntry R scale w k) w := by
  unfold expEntry fr.Mul
  rw [pow_succ]
  ring

theorem expEntry_exp (R : Fˣ) (scale w : F) (k : Nat) :
    fr.Mul R (fr.Exp R w k) scale = expEntry R scale w k := by
  rw [fr.Exp_eq]
  unfold fr.Mul expEntry
  have h := fr.units_mul_inv R
  linear_combination (scale * (w * ↑R⁻¹) ^ k) * h

end FrLemmas

/-! ### The exponent table -/

section ExpTableLemmas

variable {F : Type} [Field F]

/-- A list is determined by its length and its entries. -/
theorem list_eq_map_range {α : Type} (t : List α) (n : Nat) (f : Nat → α)
    (hlen : t.length = n) (h : ∀ i, i < n → t[i]? = some (f i)) :
    t = (List.range n).map f := by
  apply List.ext_getElem?
  intro i
  by_cases hi : i < n
  · rw [h i hi, List.getElem?_map, List.getElem?_range hi]
    rfl
  · rw [List.getElem?_eq_none (by omega), List.getElem?_eq_none (by simp; omega)]

/-- Closed form of `precomputeExpTableChunk` on a non-empty view: entry `i` is the stored
residue of `scale * w ^ (power + i)`, whatever the view held before. -/
theorem precomputeExpTableChunk_eq (R : Fˣ) (scale w : F) (power : Nat) (table : List F)
    (h : 0 < table.length) :
    precomputeExpTableChunk R scale w power table =
      some ((List.range table.length).map (fun i => expEntry R scale w (power + i))) := by
  unfold precomputeExpTableChunk
  simp only [h, if_true, List.length_set, Option.some.injEq]
  apply list_eq_map_range
  · have key := forLoop_invariant
      (fun i (t : List F) => t.set i (fr.Mul R (t.getD (i - 1) 0) w)) table.length
      (fun _ t => t.length = table.length)
      (by intro j s _ hs; simpa using hs)
      (table.length - 1) 1
      ((table.set 0 (fr.Exp R w power)).set 0
        (fr.Mul R ((table.set 0 (fr.Exp R w power)).getD 0 0) scale))
      rfl (by omega) (by simp)
    exact key
  · have key := forLoop_invariant
      (fun i (t : List F) => t.set i (fr.Mul R (t.getD (i - 1) 0) w)) table.length
      (fun j t => 1 ≤ j ∧ t.length = table.length ∧
        ∀ i, i < j → t[i]? = some (expEntry R scale w (power + i)))
      (by
        intro j s hj hinv
        obtain ⟨h1, h2, h3⟩ := hinv
        refine ⟨by omega, by simpa using h2, ?_⟩
        intro i hi
        by_cases hij : i = j
        · subst hij
          rw [List.getElem?_set_self (by omega)]
          have hprev := h3 (i - 1) (by omega)
          rw [List.getD_eq_getElem?_getD, hprev, Option.getD_some]
          rw [← expEntry_succ]
          congr 2
          omega
        · rw [List.getElem?_set_ne (by omega)]
          exact h3 i (by omega))
      (table.length - 1) 1
      ((table.set 0 (fr.Exp R w power)).set 0
        (fr.Mul R ((table.set 0 (fr.Exp R w power)).getD 0 0) scale))
      rfl (by omega)
      (by
        refine ⟨le_refl 1, by simp, ?_⟩
        intro i hi
        have hi0 : i = 0 := by omega
        subst hi0
        rw [List.getElem?_set_self (by simpa using h)]
        rw [List.getD_eq_getElem?_getD, List.getElem?_set_self h, Option.getD_some]
        rw [expEntry_exp]
        rfl)
    exact key.2.2

theorem precomputeExpTableChunk_nil (R : Fˣ) (scale w : F) (power : Nat) :
    precomputeExpTableChunk R scale w power [] = none := by
  simp [precomputeExpTableChunk]

theorem writeBack_length {α : Type} (t : List α) (lo : Nat) (v : List α)
    (h : lo + v.length ≤ t.length) : (writeBack t lo v).length = t.length := by
  unfold writeBack
  simp only [List.length_append, List.length_take, List.length_drop]
  omega

theorem writeBack_getElem? {α : Type} (t : List α) (lo : Nat) (v : List α)
    (h : lo + v.length ≤ t.length) (j : Nat) :
    (writeBack t lo v)[j]? =
      if j < lo then t[j]? else if j < lo + v.length then v[j - lo]? else t[j]? := by
  unfold writeBack
  have hl : (t.take lo).length = lo := by rw [List.length_take]; omega
  by_cases h1 : j < lo
  · rw [if_pos h1, List.append_assoc, List.getElem?_append_left (by omega),
      List.getElem?_take_of_lt h1]
  · rw [if_neg h1, List.append_assoc, List.getElem?_append_right (by omega), hl]
    by_cases h2 : j < lo + v.length
    · rw [if_pos h2, List.getElem?_append_left (by omega)]
    · rw [if_neg h2, List.getElem?_append_right (by omega), List.getElem?_drop]
      congr 1
      omega

theorem slice_eq_some {α : Type} (t : List α) (lo hi : Nat) (h1 : lo ≤ hi)
    (h2 : hi ≤ t.length) :
    slice t lo hi = some ((t.take hi).drop lo) ∧ ((t.take hi).drop lo).length = hi - lo := by
  refine ⟨by simp [slice, h1, h2], ?_⟩
  rw [List.length_drop, List.length_take]
  omega

/-- One worker of `asyncExpTable` on the view `table[lo:hi]`: the view gets the entries
`scale * w ^ j`, the rest of the table is unchanged. -/
theorem expTable_view_written (R : Fˣ) (scale w : F) (t : List F) (lo hi : Nat)
    (h1 : lo < hi) (h2 : hi ≤ t.length) :
    ∃ t1, ((slice t lo hi).bind fun view =>
        (precomputeExpTableChunk R scale w lo view).map fun view => writeBack t lo view)
          = some t1 ∧
      t1.length = t.length ∧
      ∀ j, t1[j]? = if lo ≤ j ∧ j < hi then some (expEntry R scale w j) else t[j]? := by
  obtain ⟨hs, hlen⟩ := slice_eq_some t lo hi (le_of_lt h1) h2
  have hpre := precomputeExpTableChunk_eq R scale w lo ((t.take hi).drop lo) (by omega)
  rw [hs, Option.some_bind, hpre, Option.map_some', hlen]
  have hvl : ((List.range (hi - lo)).map (fun i => expEntry R scale w (lo + i))).length
      = hi - lo := by simp
  refine ⟨_, rfl, ?_, ?_⟩
  · rw [writeBack_length _ _ _ (by omega)]
  · intro j
    rw [writeBack_getElem? _ _ _ (by omega), hvl]
    by_cases c1 : j < lo
    · have : ¬ (lo ≤ j ∧ j < hi) := by omega
      rw [if_pos c1, if_neg this]
    · rw [if_neg c1]
      by_cases c2 : j < lo + (hi - lo)
      · have : lo ≤ j ∧ j < hi := by omega
        rw [if_pos c2, if_pos this, List.getElem?_map, List.getElem?_range (by omega)]
        simp only [Option.map_some', Option.some.injEq]
        congr 1
        omega
      · have : ¬ (lo ≤ j ∧ j < hi) := by omega
        rw [if_neg c2, if_neg this]

/-- The sequential branch on a table of length at least 2: the tail is filled, `table[0]` is
kept. -/
theorem asyncExpTableSequential_spec (R : Fˣ) (scale w : F) (table : List F)
    (hn : 2 ≤ table.length) :
    ∃ t, asyncExpTableSequential R scale w table = some t ∧ t.length = table.length ∧
      ∀ j, t[j]? = if 1 ≤ j ∧ j < table.length then some (expEntry R scale w j)
        else table[j]? :=
  expTable_view_written R scale w table 1 table.length (by omega) (le_refl _)

theorem asyncExpTableChunks_of_ge (interval n : Nat) (hpos : 0 < interval) (i : Nat)
    (h : n ≤ i) : asyncExpTableChunks interval n hpos i = [] := by
  rw [asyncExpTableChunks]
  simp [Nat.not_lt.mpr h]

theorem asyncExpTableChunks_of_lt (interval n : Nat) (hpos : 0 < interval) (i : Nat)
    (h : i < n) : asyncExpTableChunks interval n hpos i =
      (i, if i + interval > n then n else i + interval) ::
        asyncExpTableChunks interval n hpos (i + interval) := by
  rw [asyncExpTableChunks]
  simp [h]

/-- The workers of the parallel branch, started at loop variable `i`, fill every entry from
`i` on and keep the entries below `i`. -/
theorem expTable_chunks_fold (R : Fˣ) (scale w : F) (interval n : Nat) (hpos : 0 < interval) :
    ∀ (k i : Nat) (t : List F), n - i ≤ k → t.length = n →
      ∃ t1, (asyncExpTableChunks interval n hpos i).foldl (expTableWorker R scale w) (some t)
          = some t1 ∧ t1.length = n ∧
        ∀ j, t1[j]? = if i ≤ j ∧ j < n then some (expEntry R scale w j) else t[j]? := by
  intro k
  induction k with
  | zero =>
    intro i t hk hlen
    rw [asyncExpTableChunks_of_ge _ _ _ _ (by omega)]
    refine ⟨t, rfl, hlen, ?_⟩
    intro j
    have : ¬ (i ≤ j ∧ j < n) := by omega
    rw [if_neg this]
  | succ k ih =>
    intro i t hk hlen
    by_cases hi : n ≤ i
    · rw [asyncExpTableChunks_of_ge _ _ _ _ hi]
      refine ⟨t, rfl, hlen, ?_⟩
      intro j
      have : ¬ (i ≤ j ∧ j < n) := by omega
      rw [if_neg this]
    · have hlt : i < n := by omega
      rw [asyncExpTableChunks_of_lt _ _ _ _ hlt, List.foldl_cons]
      have hend : i < (if i + interval > n then n else i + interval) ∧
          (if i + interval > n then n else i + interval) ≤ n := by
        split <;> omega
      obtain ⟨t1, ht1, hlen1, hget1⟩ :=
        expTable_view_written R scale w t i _ hend.1 (by rw [hlen]; exact hend.2)
      have hw : expTableWorker R scale w (some t)
          (i, if i + interval > n then n else i + interval) = some t1 := by
        unfold expTableWorker
        rw [Option.some_bind]
        exact ht1
      rw [hw]
      obtain ⟨t2, ht2, hlen2, hget2⟩ := ih (i + interval) t1 (by omega) (by omega)
      refine ⟨t2, ht2, hlen2, ?_⟩
      intro j
      rw [hget2 j, hget1 j]
      by_cases c1 : i + interval ≤ j ∧ j < n
      · have : i ≤ j ∧ j < n := by omega
        rw [if_pos c1, if_pos this]
      · rw [if_neg c1]
        by_cases c2 : i ≤ j ∧ j < n
        · have c3 : i ≤ j ∧ j < (if i + interval > n then n else i + interval) := by
            split <;> omega
          rw [if_pos c2, if_pos c3]
        · have c3 : ¬ (i ≤ j ∧ j < (if i + interval > n then n else i + interval)) := by
            split <;> omega
          rw [if_neg c2, if_neg c3]

/-- The parallel branch, for any positive chunk length: the tail is filled, `table[0]` is
kept. -/
theorem asyncExpTableParallel_spec (interval : Nat) (hpos : 0 < interval) (R : Fˣ)
    (scale w : F) (table : List F) :
    ∃ t, asyncExpTableParallel interval hpos R scale w table = some t ∧
      t.length = table.length ∧
      ∀ j, t[j]? = if 1 ≤ j ∧ j < table.length then some (expEntry R scale w j)
        else table[j]? :=
  expTable_chunks_fold R scale w interval table.length hpos (table.length - 1) 1 table
    (le_refl _) rfl

/-- Both branches of `asyncExpTable` on a table of length at least 2. -/
theorem asyncExpTable_spec (P : Nat) (R : Fˣ) (scale w : F) (table : List F)
    (hn : 2 ≤ table.length) :
    ∃ t, asyncExpTable P R scale w table = some t ∧ t.length = table.length ∧
      ∀ j, t[j]? = if 1 ≤ j ∧ j < table.length then some (expEntry R scale w j)
        else table[j]? := by
  unfold asyncExpTable
  by_cases h : (table.length - 1) / P < ratioExpMul
  · simp only [h, dif_pos]
    exact asyncExpTableSequential_spec R scale w table hn
  · simp only [h, dif_neg, not_false_eq_true]
    exact asyncExpTableParallel_spec _ _ R scale w table

theorem expTableRec_eq (R : Fˣ) (s w : F) (n : Nat) :
    expTableRec R s w n = (List.range n).map (expEntry R s w) := by
  induction n using Nat.strong_induction_on with
  | _ n ih =>
    match n with
    | 0 => rfl
    | 1 =>
      rw [show List.range 1 = [0] from rfl]
      simp [expTableRec, expEntry_zero]
    | m + 2 =>
      rw [expTableRec, ih (m + 1) (by omega)]
      rw [List.range_succ (m + 1), List.map_append, List.range_succ m, List.map_append]
      simp only [List.map_cons, List.map_nil, List.getLastD_concat]
      rw [expEntry_succ]

/-- A table of length at least 2 whose entry 0 is `s` is turned by either branch into the
table of the recurrence. -/
theorem expTable_filled_eq_rec (R : Fˣ) (s w : F) (table t : List F)
    (h0 : table[0]? = some s) (hlen : t.length = table.length)
    (hget : ∀ j, t[j]? = if 1 ≤ j ∧ j < table.length then some (expEntry R s w j)
      else table[j]?) :
    t = expTableRec R s w table.length := by
  rw [expTableRec_eq]
  apply list_eq_map_range _ _ _ hlen
  intro i hi
  rw [hget i]
  by_cases c : 1 ≤ i
  · rw [if_pos ⟨c, hi⟩]
  · have hi0 : i = 0 := by omega
    subst hi0
    rw [if_neg (by omega), h0, expEntry_zero]

/-- For tables of length at least 2 the chunked path, with any positive chunk length, and the
sequential path produce the same table, the one of the recurrence `table[0] = s`,
`table[i] = table[i-1] * w`. -/
theorem expTable_paths_agree (interval : Nat) (hpos : 0 < interval) (R : Fˣ) (s w : F)
    (table : List F) (hn : 2 ≤ table.length) (h0 : table[0]? = some s) :
    asyncExpTableParallel interval hpos R s w table = some (expTableRec R s w table.length) ∧
    asyncExpTableSequential R s w table = some (expTableRec R s w table.length) := by
  obtain ⟨t, ht, hlen, hget⟩ := asyncExpTableParallel_spec interval hpos R s w table
  obtain ⟨u, hu, hlenu, hgetu⟩ := asyncExpTableSequential_spec R s w table hn
  rw [ht, hu, expTable_filled_eq_rec R s w table t h0 hlen hget,
    expTable_filled_eq_rec R s w table u h0 hlenu hgetu]
  exact ⟨rfl, rfl⟩

/-- C7. The exponent table holds `s * w ^ i`: for a table of length `n ≥ 2` with
`table[0] = s` on entry and any worker count `P ≥ 1`, `asyncExpTable` (whichever branch it
takes) ends, once its workers are done, with a table of the same length whose entry `i`
denotes the field value `s * w ^ i`, for every `i < n`. -/
theorem asyncExpTable_holds_powers (P : Nat) (R : Fˣ) (s w : F) (table : List F)
    (hn : 2 ≤ table.length) (_hP : 1 ≤ P) (h0 : table[0]? = some s) :
    ∃ t, asyncExpTable P R s w table = some t ∧ t.length = table.length ∧
      ∀ i, i < table.length →
        ∃ x, t[i]? = some x ∧ fr.val R x = fr.val R s * fr.val R w ^ i := by
  obtain ⟨t, ht, hlen, hget⟩ := asyncExpTable_spec P R s w table hn
  refine ⟨t, ht, hlen, ?_⟩
  intro i hi
  refine ⟨expEntry R s w i, ?_, fr.val_expEntry R s w i⟩
  rw [expTable_filled_eq_rec R s w table t h0 hlen hget, expTableRec_eq,
    List.getElem?_map, List.getElem?_range hi]
  rfl

/-- Concrete instance of C7: a table of length 3 over `ZMod 5`, two workers. -/
theorem asyncExpTable_holds_powers_witness :
    ∃ t, asyncExpTable 2 (1 : (ZMod 5)ˣ) 3 2 [3, 0, 0] = some t ∧
      t.length = [(3 : ZMod 5), 0, 0].length ∧
      ∀ i, i < [(3 : ZMod 5), 0, 0].length →
        ∃ x, t[i]? = some x ∧
          fr.val (1 : (ZMod 5)ˣ) x = fr.val (1 : (ZMod 5)ˣ) 3 * fr.val (1 : (ZMod 5)ˣ) 2 ^ i :=
  asyncExpTable_holds_powers 2 (1 : (ZMod 5)ˣ) 3 2 [3, 0, 0] (by decide) (by decide) rfl

/-- C8, at the failing input. On a table of length 1 the two paths of the exponent table do
not agree: the sequential path calls `precomputeExpTableChunk` on the empty view `table[1:]`,
whose `table[0]` is out of range, while the chunked path starts no worker and leaves `[s]`,
which is the table of the recurrence. -/
theorem expTable_paths_differ_at_length_one (R : Fˣ) (s w : F) :
    asyncExpTableSequential R s w [s] = none ∧
    asyncExpTableParallel 1 Nat.one_pos R s w [s] = some [s] ∧
    expTableRec R s w 1 = [s] := by
  refine ⟨?_, ?_, rfl⟩
  · simp [asyncExpTableSequential, slice, precomputeExpTableChunk]
  · unfold asyncExpTableParallel
    rw [asyncExpTableChunks_of_ge _ _ _ _ (by simp)]
    rfl

end ExpTableLemmas

/-! ### Pointwise passes under `execute` -/

section Pointwise

variable {F : Type} [Field F]

theorem getD_of_getElem? (s : List F) (i : Nat) (x : F) (h : s[i]? = some x) :
    s.getD i 0 = x := by
  rw [List.getD_eq_getElem?_getD, h, Option.getD_some]

/-- One worker of a pointwise pass: the entries of `[start, end)` are rewritten, the others are
kept. -/
theorem pointwiseWork_spec (f : Nat → F → F) (start end_ : Nat) (s : List F)
    (hse : start ≤ end_) (hlen : end_ ≤ s.length) :
    (pointwiseWork f start end_ s).length = s.length ∧
    ∀ j, (pointwiseWork f start end_ s)[j]? =
      if start ≤ j ∧ j < end_ then some (f j (s.getD j 0)) else s[j]? := by
  have key := forLoop_invariant (fun i (t : List F) => t.set i (f i (t.getD i 0))) end_
    (fun k t => start ≤ k ∧ t.length = s.length ∧
      ∀ j, t[j]? = if start ≤ j ∧ j < k then some (f j (s.getD j 0)) else s[j]?)
    (by
      intro k t hk hinv
      obtain ⟨h0, h1, h2⟩ := hinv
      refine ⟨by omega, by simpa using h1, ?_⟩
      intro j
      show (t.set k (f k (t.getD k 0)))[j]? = _
      by_cases hjk : j = k
      · subst hjk
        rw [List.getElem?_set_self (by omega), if_pos ⟨h0, by omega⟩]
        have hj := h2 j
        rw [if_neg (by omega)] at hj
        rw [List.getD_eq_getElem?_getD, hj, ← List.getD_eq_getElem?_getD]
      · rw [List.getElem?_set_ne (by omega), h2 j]
        by_cases c : start ≤ j ∧ j < k
        · rw [if_pos c, if_pos ⟨c.1, by omega⟩]
        · rw [if_neg c, if_neg (by omega)])
    (end_ - start) start s rfl hse
    (by
      refine ⟨le_refl _, rfl, ?_⟩
      intro j
      rw [if_neg (by omega)])
  exact key.2

/-- The workers of a pointwise pass over ranges that follow one another from `a` to `b`. -/
theorem pointwise_fold_chain (f : Nat → F → F) :
    ∀ (rs : List (Nat × Nat)) (a b : Nat) (s : List F), ChainFromTo a rs b → b ≤ s.length →
      (rs.foldl (fun acc r => pointwiseWork f r.1 r.2 acc) s).length = s.length ∧
      ∀ j, (rs.foldl (fun acc r => pointwiseWork f r.1 r.2 acc) s)[j]? =
        if a ≤ j ∧ j < b then some (f j (s.getD j 0)) else s[j]? := by
  intro rs
  induction rs with
  | nil =>
    intro a b s hc _
    have hab : a = b := hc
    refine ⟨rfl, ?_⟩
    intro j
    rw [if_neg (by omega)]
    rfl
  | cons r rs ih =>
    intro a b s hc hb
    obtain ⟨h1, h2, h3⟩ := hc
    have hle := h3.le
    obtain ⟨hl1, hg1⟩ := pointwiseWork_spec f r.1 r.2 s h2 (by omega)
    obtain ⟨hl2, hg2⟩ := ih r.2 b (pointwiseWork f r.1 r.2 s) h3 (by omega)
    rw [List.foldl_cons]
    refine ⟨by rw [hl2, hl1], ?_⟩
    intro j
    rw [hg2 j]
    by_cases c : r.2 ≤ j ∧ j < b
    · rw [if_pos c, if_pos (by omega)]
      have hj := hg1 j
      rw [if_neg (by omega)] at hj
      rw [List.getD_eq_getElem?_getD, hj, ← List.getD_eq_getElem?_getD]
    · rw [if_neg c, hg1 j]
      by_cases c2 : r.1 ≤ j ∧ j < r.2
      · rw [if_pos c2, if_pos (by omega)]
      · rw [if_neg c2, if_neg (by omega)]

/-- A pointwise pass run by `execute` rewrites every entry once. -/
theorem execute_pointwise (P : Nat) (hP : 1 ≤ P) (f : Nat → F → F) (s : List F) :
    execute P s.length (pointwiseWork f) s =
      (List.range s.length).map (fun i => f i (s.getD i 0)) := by
  obtain ⟨hl, hg⟩ := pointwise_fold_chain f (executeRanges P s.length) 0 s.length s
    (executeRanges_chain P s.length hP) (le_refl _)
  unfold execute
  apply list_eq_map_range _ _ _ hl
  intro i hi
  rw [hg i, if_pos ⟨Nat.zero_le _, hi⟩]

end Pointwise

/-! ### Closed form of `computeH` -/

section ComputeHLemmas

variable {F : Type} [Field F]

theorem asyncExpTable_eq (P : Nat) (R : Fˣ) (s w : F) (table : List F)
    (hn : 2 ≤ table.length) (h0 : table[0]? = some s) :
    asyncExpTable P R s w table = some ((List.range table.length).map (expEntry R s w)) := by
  obtain ⟨t, ht, hlen, hget⟩ := asyncExpTable_spec P R s w table hn
  rw [ht, expTable_filled_eq_rec R s w table t h0 hlen hget, expTableRec_eq]

theorem FFT_length (R : Fˣ) (v : List F) (x : F) : (FFT R v x).length = v.length := by
  simp [FFT]

theorem padTo_length (N : Nat) (a : List F) (h : a.length ≤ N) : (padTo N a).length = N := by
  simp only [padTo, List.length_append, List.length_replicate]
  omega

theorem getD_map_range (n : Nat) (f : Nat → F) (i : Nat) (hi : i < n) :
    ((List.range n).map f).getD i 0 = f i := by
  rw [List.getD_eq_getElem?_getD, List.getElem?_map, List.getElem?_range hi]
  rfl

theorem FFTa_eq (P : Nat) (hP : 1 ≤ P) (R : Fˣ) (d : Domain F) (s : List F) :
    FFTa P R d s.length
        ((List.range s.length).map (expEntry R d.CardinalityInv d.GeneratorSqRt)) s =
      FFTaClosed R d s := by
  unfold FFTa FFTaClosed
  have hl : (FFT R s d.GeneratorInv).length = s.length := FFT_length R s _
  have h := execute_pointwise P hP
    (fun i x => fr.Mul R x
      (((List.range s.length).map (expEntry R d.CardinalityInv d.GeneratorSqRt)).getD i 0))
    (FFT R s d.GeneratorInv)
  rw [hl] at h
  simp only
  rw [h]
  congr 1
  apply List.map_congr_left
  intro i hi
  rw [getD_map_range _ _ _ (List.mem_range.mp hi)]

theorem FFTa_eq_of_length (P : Nat) (hP : 1 ≤ P) (R : Fˣ) (d : Domain F) (s : List F) (n : Nat)
    (hn : s.length = n) :
    FFTa P R d n ((List.range n).map (expEntry R d.CardinalityInv d.GeneratorSqRt)) s =
      FFTaClosed R d s := by
  subst hn
  exact FFTa_eq P hP R d s

theorem execute_pointwise_of_length (P : Nat) (hP : 1 ≤ P) (f : Nat → F → F) (s : List F)
    (n : Nat) (hn : s.length = n) :
    execute P n (pointwiseWork f) s = (List.range n).map (fun i => f i (s.getD i 0)) := by
  subst hn
  exact execute_pointwise P hP f s

theorem FFTaClosed_length (R : Fˣ) (d : Domain F) (s : List F) :
    (FFTaClosed R d s).length = s.length := by
  simp [FFTaClosed, FFT_length]

/-- On inputs of one common length `m ≤ Cardinality`, for a domain of cardinality at least 2,
`computeH` returns the closed form on the padded inputs. -/
theorem computeH_eq (P : Nat) (hP : 1 ≤ P) (R : Fˣ) (a b c : List F) (d : Domain F)
    (hb : a.length = b.length) (hc : a.length = c.length) (hm : a.length ≤ d.Cardinality)
    (hN : 2 ≤ d.Cardinality) :
    computeH P R a b c d =
      some (computeHClosed R d (padTo d.Cardinality a) (padTo d.Cardinality b)
        (padTo d.Cardinality c)) := by
  have hA : (padTo d.Cardinality a).length = d.Cardinality := padTo_length _ _ hm
  have hB : (padTo d.Cardinality b).length = d.Cardinality := padTo_length _ _ (by omega)
  have hC : (padTo d.Cardinality c).length = d.Cardinality := padTo_length _ _ (by omega)
  have e1 : asyncExpTable P R d.CardinalityInv d.GeneratorSqRt
      ((List.replicate d.Cardinality (0 : F)).set 0 d.CardinalityInv) =
      some ((List.range d.Cardinality).map (expEntry R d.CardinalityInv d.GeneratorSqRt)) := by
    have := asyncExpTable_eq P R d.CardinalityInv d.GeneratorSqRt
      ((List.replicate d.Cardinality (0 : F)).set 0 d.CardinalityInv)
      (by simpa using hN) (by rw [List.getElem?_set_self (by simp; omega)])
    simpa using this
  have e2 : asyncExpTable P R d.CardinalityInv d.GeneratorSqRtInv
      ((List.range d.Cardinality).map (expEntry R d.CardinalityInv d.GeneratorSqRt)) =
      some ((List.range d.Cardinality).map
        (expEntry R d.CardinalityInv d.GeneratorSqRtInv)) := by
    have := asyncExpTable_eq P R d.CardinalityInv d.GeneratorSqRtInv
      ((List.range d.Cardinality).map (expEntry R d.CardinalityInv d.GeneratorSqRt))
      (by simpa using hN)
      (by rw [List.getElem?_map, List.getElem?_range (by omega)]; simp [expEntry_zero])
    simpa using this
  unfold computeH
  have hcond : ¬ ¬ (a.length = b.length ∧ a.length = c.length) := not_not.mpr ⟨hb, hc⟩
  rw [if_neg hcond, if_neg (by omega)]
  simp only [hA]
  rw [if_neg (by omega), e1, Option.some_bind, e2, Option.some_bind]
  rw [FFTa_eq_of_length P hP R d _ _ hA, FFTa_eq_of_length P hP R d _ _ hB,
    FFTa_eq_of_length P hP R d _ _ hC]
  rw [execute_pointwise_of_length P hP _ (FFTaClosed R d (padTo d.Cardinality a)) _
    (by rw [FFTaClosed_length, hA])]
  rw [execute_pointwise_of_length P hP _ _ _ (by rw [FFT_length, List.length_map,
    List.length_range])]
  unfold computeHClosed
  simp only [hA]
  congr 1
  apply List.map_congr_left
  intro k hk
  rw [getD_map_range _ _ _ (List.mem_range.mp hk)]

end ComputeHLemmas

/-! ### Transforms and polynomials -/

section Transforms

open Polynomial

variable {F : Type} [Field F]

theorem dft_orthogonality {N : ℕ} {ω : F} (hω : IsPrimitiveRoot ω N) (l k : ℕ) (hl : l < N) (hk : k < N) :
    ∑ j in Finset.range N, ω ^ (j * l) * (ω⁻¹) ^ (j * k) = if l = k then (N : F) else 0 := by
  have hN : 0 < N := by omega
  have hω0 : ω ≠ 0 := hω.ne_zero (by omega)
  by_cases h : l = k
  · subst h
    rw [if_pos rfl]
    have : ∀ j ∈ Finset.range N, ω ^ (j * l) * (ω⁻¹) ^ (j * l) = 1 := by
      intro j _
      rw [← mul_pow, mul_inv_cancel₀ hω0, one_pow]
    rw [Finset.sum_congr rfl this]
    simp
  · rw [if_neg h]
    set x := ω ^ l * (ω⁻¹) ^ k with hx
    have hterm : ∀ j ∈ Finset.range N, ω ^ (j * l) * (ω⁻¹) ^ (j * k) = x ^ j := by
      intro j _
      rw [hx, mul_pow, ← pow_mul, ← pow_mul, mul_comm l j, mul_comm k j]
    rw [Finset.sum_congr rfl hterm]
    have hxN : x ^ N = 1 := by
      rw [hx, mul_pow, ← pow_mul, ← pow_mul, mul_comm l N, mul_comm k N, pow_mul, pow_mul,
        inv_pow, hω.pow_eq_one]
      simp
    have hx1 : x ≠ 1 := by
      intro h1
      apply h
      apply hω.pow_inj hl hk
      have : ω ^ l * (ω⁻¹) ^ k * ω ^ k = ω ^ k := by rw [← hx, h1, one_mul]
      rw [mul_assoc, ← mul_pow, inv_mul_cancel₀ hω0, one_pow, mul_one] at this
      exact this
    have hg := mul_geom_sum x N
    rw [hxN, sub_self] at hg
    rcases mul_eq_zero.mp hg with h0 | h0
    · exact absurd (sub_eq_zero.mp h0) hx1
    · exact h0

theorem natDegree_lt_of_degree_lt_pos {p : F[X]} {N : ℕ} (hN : 0 < N) (h : p.degree < N) :
    p.natDegree < N := by
  by_cases hp : p = 0
  · subst hp; simpa using hN
  · exact (natDegree_lt_iff_degree_lt hp).mpr h

/-- The transform by `ω⁻¹` of the evaluations of a polynomial on the coset `γ * ω ^ j` gives
its coefficients, scaled. -/
theorem dft_eval {N : ℕ} {ω : F} (hω : IsPrimitiveRoot ω N) (γ : F) (p : F[X])
    (hp : p.natDegree < N) (k : ℕ) (hk : k < N) :
    dft N (fun j => p.eval (γ * ω ^ j)) ω⁻¹ k = (N : F) * (p.coeff k * γ ^ k) := by
  unfold dft
  have h1 : ∀ j ∈ Finset.range N, p.eval (γ * ω ^ j) * (ω⁻¹) ^ (j * k) =
      ∑ l in Finset.range N, p.coeff l * γ ^ l * (ω ^ (j * l) * (ω⁻¹) ^ (j * k)) := by
    intro j _
    rw [eval_eq_sum_range' hp, Finset.sum_mul]
    apply Finset.sum_congr rfl
    intro l _
    rw [mul_pow, ← pow_mul]
    ring
  rw [Finset.sum_congr rfl h1, Finset.sum_comm]
  have h2 : ∀ l ∈ Finset.range N,
      ∑ j in Finset.range N, p.coeff l * γ ^ l * (ω ^ (j * l) * (ω⁻¹) ^ (j * k)) =
        p.coeff l * γ ^ l * (if l = k then (N : F) else 0) := by
    intro l hl
    rw [← Finset.mul_sum, dft_orthogonality hω l k (Finset.mem_range.mp hl) hk]
  rw [Finset.sum_congr rfl h2]
  simp only [mul_ite, mul_zero]
  rw [Finset.sum_ite_eq' (Finset.range N) k]
  rw [if_pos (Finset.mem_range.mpr hk)]
  ring

/-- The transform by `ω` of the scaled coefficients of a polynomial gives its evaluations on the
coset. -/
theorem dft_coeff {N : ℕ} (ω γ : F) (p : F[X]) (hp : p.natDegree < N) (i : ℕ) :
    dft N (fun k => p.coeff k * γ ^ k) ω i = p.eval (γ * ω ^ i) := by
  unfold dft
  rw [eval_eq_sum_range' hp]
  apply Finset.sum_congr rfl
  intro k _
  rw [mul_pow, ← pow_mul, mul_comm k i]
  ring

/-- A polynomial that vanishes at every `ω ^ j` is a multiple of `X ^ N - 1`. -/
theorem vanishing_quotient {N : ℕ} {ω : F} (hω : IsPrimitiveRoot ω N) (hN : 0 < N) (Q : F[X])
    (hQ : ∀ j, j < N → Q.eval (ω ^ j) = 0) :
    Q = (Q /ₘ (X ^ N - 1)) * (X ^ N - 1) := by
  have hmonic : (X ^ N - 1 : F[X]).Monic := by
    have := monic_X_pow_sub_C (1 : F) (Nat.pos_iff_ne_zero.mp hN)
    simpa using this
  have hdiv := modByMonic_add_div Q hmonic
  have hdeg : (Q %ₘ (X ^ N - 1)).degree < N := by
    have h := degree_modByMonic_lt Q hmonic
    have hd : (X ^ N - 1 : F[X]).degree = N := by
      have := degree_X_pow_sub_C hN (1 : F)
      simpa using this
    rwa [hd] at h
  have hzero : Q %ₘ (X ^ N - 1) = 0 := by
    have hinj : Set.InjOn (fun j : ℕ => ω ^ j) (↑(Finset.range N) : Set ℕ) := by
      intro i hi j hj hij
      exact hω.pow_inj (by simpa using hi) (by simpa using hj) hij
    have hdeg2 : (Q %ₘ (X ^ N - 1)).degree < ((Finset.range N).card : WithBot ℕ) := by
      simpa using hdeg
    have hev : ∀ i ∈ Finset.range N,
        (Q %ₘ (X ^ N - 1)).eval ((fun j : ℕ => ω ^ j) i) = 0 := by
      intro j hj
      have hj2 : j < N := Finset.mem_range.mp hj
      have h1 : (Q %ₘ (X ^ N - 1)) = Q - (X ^ N - 1) * (Q /ₘ (X ^ N - 1)) := by
        rw [eq_sub_iff_add_eq]; exact hdiv
      have hp : (ω ^ j) ^ N = 1 := by
        rw [← pow_mul, mul_comm, pow_mul, hω.pow_eq_one, one_pow]
      rw [h1]
      simp only [eval_sub, eval_mul, eval_pow, eval_X, eval_one]
      rw [hQ j hj2, hp]
      simp
    exact Polynomial.eq_zero_of_degree_lt_of_eval_index_eq_zero (Finset.range N) hinj hdeg2 hev
  rw [hzero, zero_add] at hdiv
  rw [mul_comm]
  exact hdiv.symm

theorem quotient_natDegree_lt {N : ℕ} (hN : 2 ≤ N) (A B C : F[X])
    (hA : A.natDegree < N) (hB : B.natDegree < N) (hC : C.natDegree < N) (Hq : F[X])
    (h : A * B - C = Hq * (X ^ N - 1)) : Hq.natDegree < N := by
  by_cases h0 : Hq = 0
  · subst h0; simp; omega
  · have hdZ : (X ^ N - 1 : F[X]).natDegree = N := by
      have h1 : (X ^ N - Polynomial.C (1 : F)).natDegree = N := natDegree_X_pow_sub_C
      simpa using h1
    have hZ0 : (X ^ N - 1 : F[X]) ≠ 0 := by
      intro hz
      rw [hz] at hdZ
      simp at hdZ
      omega
    have hd : (Hq * (X ^ N - 1)).natDegree = Hq.natDegree + N := by
      rw [natDegree_mul h0 hZ0, hdZ]
    have hle : (A * B - C).natDegree ≤ max (A * B).natDegree C.natDegree := natDegree_sub_le _ _
    have hab : (A * B).natDegree ≤ A.natDegree + B.natDegree := natDegree_mul_le
    rw [h, hd] at hle
    have : max (A * B).natDegree C.natDegree ≤ 2 * N - 2 := by
      apply max_le <;> omega
    omega

theorem dft_congr (n : Nat) (u v : Nat → F) (x : F) (k : Nat)
    (h : ∀ j, j < n → u j = v j) : dft n u x k = dft n v x k := by
  unfold dft
  apply Finset.sum_congr rfl
  intro j hj
  rw [h j (Finset.mem_range.mp hj)]

theorem fr.val_Sub (R : Fˣ) (x y : F) :
    fr.val R (fr.Sub x y) = fr.val R x - fr.val R y := by
  unfold fr.val fr.Sub
  ring

theorem fr.val_minusTwoInv (R : Fˣ) :
    fr.val R (fr.Inverse R (fr.Neg (fr.SetUint64 R 2))) = (-2 : F)⁻¹ := by
  unfold fr.val fr.Inverse fr.Neg fr.SetUint64
  have hR : (↑R : F) ≠ 0 := R.ne_zero
  have e : -(((2 : ℕ) : F) * ↑R) = (-2 : F) * ↑R := by
    push_cast
    ring
  rw [e, mul_inv, Units.val_inv_eq_inv_val, mul_assoc ((-2 : F)⁻¹), inv_mul_cancel₀ hR,
    mul_one, mul_assoc, mul_inv_cancel₀ hR, mul_one]

theorem fr.FromMont_eq_val (R : Fˣ) (x : F) : fr.FromMont R x = fr.val R x := rfl

/-- Entry `k` of `FFT` denotes the transform of the values of the vector. -/
theorem val_FFT_getD (R : Fˣ) (v : List F) (x : F) (k : Nat) (hk : k < v.length) :
    fr.val R ((FFT R v x).getD k 0) =
      dft v.length (fun j => fr.val R (v.getD j 0)) (fr.val R x) k := by
  unfold FFT
  rw [getD_map_range _ _ _ hk]
  unfold dft fr.val
  rw [Finset.sum_mul]
  apply Finset.sum_congr rfl
  intro j _
  ring

/-- A field with a primitive root of unity of order `2 ^ k`, `k ≥ 1`, has odd characteristic.
-/
theorem two_ne_zero_of_primitive {ω : F} {k : Nat} (hk : 1 ≤ k)
    (hω : IsPrimitiveRoot ω (2 ^ k)) : (2 : F) ≠ 0 := by
  intro h2
  obtain ⟨m, rfl⟩ : ∃ m, k = m + 1 := ⟨k - 1, by omega⟩
  have hsq : (ω ^ 2 ^ m) ^ 2 = 1 := by
    rw [← pow_mul, ← pow_succ]
    exact hω.pow_eq_one
  have hne : ω ^ 2 ^ m ≠ 1 := by
    intro h1
    have hdvd := (hω.pow_eq_one_iff_dvd (2 ^ m)).mp h1
    have hle := Nat.le_of_dvd (by positivity) hdvd
    rw [pow_succ] at hle
    have : 0 < 2 ^ m := by positivity
    omega
  have hz : (ω ^ 2 ^ m - 1) ^ 2 = 0 := by
    have : (ω ^ 2 ^ m - 1) ^ 2 = (ω ^ 2 ^ m) ^ 2 - 2 * ω ^ 2 ^ m + 1 := by ring
    rw [this, hsq, h2]
    ring_nf
    exact h2
  exact hne (sub_eq_zero.mp (pow_eq_zero_iff (two_ne_zero) |>.mp hz))

/-- After `FFTa` a vector holds the evaluations on the coset `γ * ω ^ i` of the polynomial that
interpolates its values. -/
theorem val_FFTaClosed (R : Fˣ) (d : Domain F) (ω γ : F) (hd : d.Consistent R ω γ)
    (hNF : (d.Cardinality : F) ≠ 0) (s : List F) (hs : s.length = d.Cardinality)
    (A : F[X]) (hA : A.natDegree < d.Cardinality)
    (hAe : ∀ j, j < d.Cardinality → A.eval (ω ^ j) = fr.val R (s.getD j 0))
    (i : Nat) (hi : i < d.Cardinality) :
    fr.val R ((FFTaClosed R d s).getD i 0) = A.eval (γ * ω ^ i) := by
  unfold FFTaClosed
  rw [val_FFT_getD R _ _ i (by simpa [hs] using hi)]
  simp only [List.length_map, List.length_range, hs, hd.gen]
  rw [← dft_coeff ω γ A hA i]
  apply dft_congr
  intro k hk
  rw [getD_map_range _ _ _ hk, fr.val_Mul, fr.val_expEntry, hd.cardInv, hd.sqrt,
    val_FFT_getD R s _ k (by rw [hs]; exact hk), hs, hd.genInv]
  have hcong := dft_congr d.Cardinality (fun j => fr.val R (s.getD j 0))
    (fun j => A.eval (1 * ω ^ j)) ω⁻¹ k (by
      intro j hj
      show fr.val R (s.getD j 0) = A.eval (1 * ω ^ j)
      rw [one_mul, hAe j hj])
  rw [hcong, dft_eval hd.prim 1 A hA k hk, one_pow, mul_one]
  field_simp
  ring

theorem padTo_getD (N : Nat) (a : List F) (j : Nat) : (padTo N a).getD j 0 = a.getD j 0 := by
  unfold padTo
  by_cases h : j < a.length
  · exact List.getD_append _ _ _ _ h
  · rw [List.getD_eq_default _ _ (by omega : a.length ≤ j)]
    rw [List.getD_eq_getElem?_getD, List.getElem?_append_right (by omega)]
    by_cases h2 : j - a.length < N - a.length
    · rw [List.getElem?_replicate_of_lt h2]
      rfl
    · rw [List.getElem?_eq_none (by simp; omega)]
      rfl

theorem fr.val_zero (R : Fˣ) : fr.val R (0 : F) = 0 := by
  unfold fr.val
  exact zero_mul _

theorem poly_of_coeffs (p : F[X]) (N : Nat) (hp : p.natDegree < N) (H : List F)
    (hlen : H.length = N) (hH : ∀ k, k < N → H.getD k 0 = p.coeff k) :
    (∑ i in Finset.range H.length, Polynomial.C (H.getD i 0) * X ^ i) = p := by
  rw [hlen]
  conv_rhs => rw [p.as_sum_range' N hp]
  apply Finset.sum_congr rfl
  intro i hi
  rw [hH i (Finset.mem_range.mp hi), C_mul_X_pow_eq_monomial]

/-- Entry `k` of the vector returned by `computeH` is coefficient `k` of the quotient. -/
theorem computeHClosed_getD (R : Fˣ) (d : Domain F) (ω γ : F) (hd : d.Consistent R ω γ)
    (hNF : (d.Cardinality : F) ≠ 0) (h2 : (2 : F) ≠ 0)
    (a b c : List F) (ha : a.length = d.Cardinality) (hb : b.length = d.Cardinality)
    (hc : c.length = d.Cardinality)
    (A B C Hq : F[X]) (hA : A.natDegree < d.Cardinality) (hB : B.natDegree < d.Cardinality)
    (hC : C.natDegree < d.Cardinality) (hHq : Hq.natDegree < d.Cardinality)
    (hAe : ∀ j, j < d.Cardinality → A.eval (ω ^ j) = fr.val R (a.getD j 0))
    (hBe : ∀ j, j < d.Cardinality → B.eval (ω ^ j) = fr.val R (b.getD j 0))
    (hCe : ∀ j, j < d.Cardinality → C.eval (ω ^ j) = fr.val R (c.getD j 0))
    (hQ : A * B - C = Hq * (X ^ d.Cardinality - 1))
    (k : Nat) (hk : k < d.Cardinality) :
    (computeHClosed R d a b c).getD k 0 = Hq.coeff k := by
  have hγ0 : γ ≠ 0 := by
    intro h0
    have := hd.sqrt_pow
    rw [h0, zero_pow (by omega)] at this
    exact neg_ne_zero.mpr one_ne_zero this.symm
  unfold computeHClosed
  simp only [ha]
  rw [getD_map_range _ _ _ hk, fr.FromMont_eq_val, fr.val_Mul, fr.val_expEntry, hd.cardInv,
    hd.sqrtInv, val_FFT_getD R _ _ k (by simpa using hk)]
  simp only [List.length_map, List.length_range, hd.genInv]
  have hcong := dft_congr d.Cardinality
    (fun j => fr.val R (((List.range d.Cardinality).map fun i =>
      fr.Mul R (fr.Sub (fr.Mul R ((FFTaClosed R d a).getD i 0) ((FFTaClosed R d b).getD i 0))
        ((FFTaClosed R d c).getD i 0)) (fr.Inverse R (fr.Neg (fr.SetUint64 R 2)))).getD j 0))
    (fun j => Hq.eval (γ * ω ^ j)) ω⁻¹ k (by
      intro j hj
      show fr.val R (((List.range d.Cardinality).map _).getD j 0) = Hq.eval (γ * ω ^ j)
      rw [getD_map_range _ _ _ hj, fr.val_Mul, fr.val_Sub, fr.val_Mul, fr.val_minusTwoInv,
        val_FFTaClosed R d ω γ hd hNF a ha A hA hAe j hj,
        val_FFTaClosed R d ω γ hd hNF b hb B hB hBe j hj,
        val_FFTaClosed R d ω γ hd hNF c hc C hC hCe j hj]
      have hev := congrArg (Polynomial.eval (γ * ω ^ j)) hQ
      simp only [eval_sub, eval_mul, eval_pow, eval_X, eval_one] at hev
      have hx : (γ * ω ^ j) ^ d.Cardinality = -1 := by
        have hw : (ω ^ j) ^ d.Cardinality = 1 := by
          rw [← pow_mul, mul_comm, pow_mul, hd.prim.pow_eq_one, one_pow]
        rw [mul_pow, hd.sqrt_pow, hw, mul_one]
      rw [hev, hx]
      have hm2 : (-2 : F) ≠ 0 := neg_ne_zero.mpr h2
      field_simp
      ring)
  rw [hcong, dft_eval hd.prim γ Hq hHq k hk, inv_pow]
  field_simp
  ring

/-- C1. `computeH` returns the quotient polynomial.  For a domain of cardinality `n = 2 ^ k`,
`k ≥ 1`, whose fields are consistent, and vectors `a`, `b`, `c` of one common length `m ≤ n`
with `a[i] * b[i] = c[i]` (as field values) for every `i < m`: with `FFT` the natural-order
transform, `computeH` returns a vector `H` of length `n`, and for the polynomials `A`, `B`, `C`
of degree `< n` that interpolate the zero-padded `a`, `b`, `c` on `ω ^ 0, …, ω ^ (n - 1)`,
`A * B - C = H(X) * (X ^ n - 1)` where `H(X) = ∑ i, H[i] * X ^ i`. -/
theorem computeH_returns_quotient (P : Nat) (hP : 1 ≤ P) (R : Fˣ) (d : Domain F) (k : Nat)
    (hk : 1 ≤ k) (hcard : d.Cardinality = 2 ^ k) (ω γ : F) (hd : d.Consistent R ω γ)
    (a b c : List F) (hb : a.length = b.length) (hc : a.length = c.length)
    (hm : a.length ≤ d.Cardinality)
    (habc : ∀ i, i < a.length →
      fr.val R (a.getD i 0) * fr.val R (b.getD i 0) = fr.val R (c.getD i 0))
    (A B C : F[X]) (hA : A.degree < d.Cardinality) (hB : B.degree < d.Cardinality)
    (hC : C.degree < d.Cardinality)
    (hAe : ∀ i, i < d.Cardinality →
      A.eval (ω ^ i) = fr.val R ((padTo d.Cardinality a).getD i 0))
    (hBe : ∀ i, i < d.Cardinality →
      B.eval (ω ^ i) = fr.val R ((padTo d.Cardinality b).getD i 0))
    (hCe : ∀ i, i < d.Cardinality →
      C.eval (ω ^ i) = fr.val R ((padTo d.Cardinality c).getD i 0)) :
    ∃ H, computeH P R a b c d = some H ∧ H.length = d.Cardinality ∧
      A * B - C =
        (∑ i in Finset.range H.length, Polynomial.C (H.getD i 0) * X ^ i) *
          (X ^ d.Cardinality - 1) := by
  have hprim : IsPrimitiveRoot ω (2 ^ k) := by
    have := hd.prim
    rwa [hcard] at this
  have h2 : (2 : F) ≠ 0 := two_ne_zero_of_primitive hk hprim
  have hN2 : 2 ≤ d.Cardinality := by
    rw [hcard]
    calc 2 = 2 ^ 1 := rfl
      _ ≤ 2 ^ k := Nat.pow_le_pow_right (by decide) hk
  have hNF : (d.Cardinality : F) ≠ 0 := by
    rw [hcard]
    push_cast
    exact pow_ne_zero _ h2
  have hAn := natDegree_lt_of_degree_lt_pos (by omega : 0 < d.Cardinality) hA
  have hBn := natDegree_lt_of_degree_lt_pos (by omega : 0 < d.Cardinality) hB
  have hCn := natDegree_lt_of_degree_lt_pos (by omega : 0 < d.Cardinality) hC
  have hvanish : ∀ j, j < d.Cardinality → (A * B - C).eval (ω ^ j) = 0 := by
    intro j hj
    rw [eval_sub, eval_mul, hAe j hj, hBe j hj, hCe j hj, padTo_getD, padTo_getD, padTo_getD]
    by_cases hjm : j < a.length
    · rw [habc j hjm, sub_self]
    · rw [List.getD_eq_default _ _ (by omega : a.length ≤ j),
        List.getD_eq_default _ _ (by omega : b.length ≤ j),
        List.getD_eq_default _ _ (by omega : c.length ≤ j), fr.val_zero]
      ring
  have hQ := vanishing_quotient hd.prim (by omega) (A * B - C) hvanish
  have hHq := quotient_natDegree_lt hN2 A B C hAn hBn hCn _ hQ
  refine ⟨_, computeH_eq P hP R a b c d hb hc hm hN2, ?_, ?_⟩
  · simp [computeHClosed, padTo_length _ _ hm]
  · have hpoly := poly_of_coeffs ((A * B - C) /ₘ (X ^ d.Cardinality - 1)) d.Cardinality hHq
      (computeHClosed R d (padTo d.Cardinality a) (padTo d.Cardinality b)
        (padTo d.Cardinality c))
      (by simp [computeHClosed, padTo_length _ _ hm])
      (fun i hi => computeHClosed_getD R d ω γ hd hNF h2 _ _ _ (padTo_length _ _ hm)
        (padTo_length _ _ (by omega)) (padTo_length _ _ (by omega)) A B C _ hAn hBn hCn hHq
        hAe hBe hCe hQ i hi)
    rw [hpoly]
    exact hQ

theorem exampleDomain_consistent : exampleDomain.Consistent (1 : (ZMod 5)ˣ) 4 2 where
  prim := IsPrimitiveRoot.mk_of_lt (4 : ZMod 5) (by decide) (by decide) (by
    intro l h0 h2
    have : l = 1 := by
      have h2 : l < 2 := h2
      omega
    subst this
    decide)
  gen := by decide
  genInv := by
    rw [eq_comm]
    exact inv_eq_of_mul_eq_one_left (by decide)
  sqrt := by decide
  sq := by decide
  sqrt_pow := by decide
  sqrtInv := by
    rw [eq_comm]
    exact inv_eq_of_mul_eq_one_left (by decide)
  cardInv := by
    rw [eq_comm]
    exact inv_eq_of_mul_eq_one_left (by decide)

/-- Concrete instance of C1: `a = [1, 2]`, `b = [3, 4]`, `c = [3, 3]` over `ZMod 5`, with
`A = 2 X + 4`, `B = 2 X + 1`, `C = 3`. -/
theorem computeH_returns_quotient_witness :
    ∃ H, computeH 2 (1 : (ZMod 5)ˣ) [1, 2] [3, 4] [3, 3] exampleDomain = some H ∧
      H.length = exampleDomain.Cardinality ∧
      (Polynomial.C 2 * X + Polynomial.C 4 : (ZMod 5)[X]) * (Polynomial.C 2 * X + Polynomial.C 1)
          - (Polynomial.C 0 * X + Polynomial.C 3) =
        (∑ i in Finset.range H.length, Polynomial.C (H.getD i 0) * X ^ i) *
          (X ^ exampleDomain.Cardinality - 1) :=
  computeH_returns_quotient 2 (by decide) (1 : (ZMod 5)ˣ) exampleDomain 1 (le_refl 1) rfl 4 2
    exampleDomain_consistent [1, 2] [3, 4] [3, 3] rfl rfl (by decide)
    (by
      intro i hi
      have hi2 : i < 2 := hi
      interval_cases i <;> decide)
    (Polynomial.C 2 * X + Polynomial.C 4) (Polynomial.C 2 * X + Polynomial.C 1)
    (Polynomial.C 0 * X + Polynomial.C 3)
    (Polynomial.degree_linear_lt) (Polynomial.degree_linear_lt) (Polynomial.degree_linear_lt)
    (by
      intro i hi
      have hi2 : i < 2 := hi
      interval_cases i <;> simp [padTo, fr.val, exampleDomain] <;> decide)
    (by
      intro i hi
      have hi2 : i < 2 := hi
      interval_cases i <;> simp [padTo, fr.val, exampleDomain] <;> decide)
    (by
      intro i hi
      have hi2 : i < 2 := hi
      interval_cases i <;> simp [padTo, fr.val, exampleDomain])

end Transforms

/-! ### The size of the vector returned by `computeH` -/

section ComputeHSize

variable {F : Type} [Field F]

/-- The padding step: the padded vector has the length of the domain, starts with the input
and is zero from the length of the input on. -/
theorem padTo_spec (N : Nat) (a : List F) (hm : a.length ≤ N) :
    (padTo N a).length = N ∧ (padTo N a).take a.length = a ∧
      ∀ i, a.length ≤ i → i < N → (padTo N a)[i]? = some 0 := by
  refine ⟨padTo_length N a hm, ?_, ?_⟩
  · unfold padTo
    rw [List.take_left']
    rfl
  · intro i h1 h2
    unfold padTo
    rw [List.getElem?_append_right h1, List.getElem?_replicate_of_lt (by omega)]

/-- For a domain of cardinality at least 2, `computeH` returns a vector of the size of the
domain. -/
theorem computeH_length (P : Nat) (hP : 1 ≤ P) (R : Fˣ) (a b c : List F) (d : Domain F)
    (hb : a.length = b.length) (hc : a.length = c.length) (hm : a.length ≤ d.Cardinality)
    (hN : 2 ≤ d.Cardinality) :
    ∃ H, computeH P R a b c d = some H ∧ H.length = d.Cardinality :=
  ⟨_, computeH_eq P hP R a b c d hb hc hm hN, by simp [computeHClosed, padTo_length _ _ hm]⟩

/-- C9, at the failing input. For a domain of cardinality 1 and vectors of length 1,
`computeH` returns no vector: the exponent table has length 1, `asyncExpTable` hands the
empty view `table[1:]` to `precomputeExpTableChunk`, and `table[0]` there is out of range. -/
theorem computeH_panics_at_cardinality_one (P : Nat) (R : Fˣ) (x y z : F)
    (cardinalityInv generator generatorInv generatorSqRt generatorSqRtInv : F) :
    computeH P R [x] [y] [z]
      { Cardinality := 1, CardinalityInv := cardinalityInv, Generator := generator,
        GeneratorInv := generatorInv, GeneratorSqRt := generatorSqRt,
        GeneratorSqRtInv := generatorSqRtInv } = none := by
  simp [computeH, padTo, asyncExpTable, asyncExpTableSequential, slice,
    precomputeExpTableChunk, ratioExpMul]

end ComputeHSize

/-! ### Multi-exponentiations -/

section MultiExpLemmas

variable {F E : Type} [Field F] [AddCommGroup E] [Module F E]

theorem msm_take_add_drop (points : List E) (scalars : List F) (q : Nat) :
    msm (points.take q) (scalars.take q) + msm (points.drop q) (scalars.drop q) =
      msm points scalars := by
  unfold msm
  rw [← List.take_zipWith, ← List.drop_zipWith, ← List.sum_append, List.take_append_drop]

/-- `MultiExp` returns the sum when there are at least as many points as scalars. -/
theorem MultiExp_of_le (points : List E) (scalars : List F)
    (h : scalars.length ≤ points.length) :
    MultiExp points scalars = some (msm points scalars) := by
  unfold MultiExp
  rw [if_neg (by omega)]

/-- `MultiExp` panics when there are fewer points than scalars. -/
theorem MultiExp_of_lt (points : List E) (scalars : List F)
    (h : points.length < scalars.length) : MultiExp points scalars = none := by
  unfold MultiExp
  rw [if_pos h]

/-- What `MultiExp` returns, when it returns. -/
theorem MultiExp_eq_some (points : List E) (scalars : List F) (x : E)
    (h : MultiExp points scalars = some x) :
    scalars.length ≤ points.length ∧ x = msm points scalars := by
  unfold MultiExp at h
  split at h
  · exact absurd h (by simp)
  · exact ⟨by omega, (Option.some.inj h).symm⟩

theorem slice_zero {α : Type} (l : List α) (hi : Nat) (h : hi ≤ l.length) :
    slice l 0 hi = some (l.take hi) := by
  simp [slice, h]

theorem slice_to_length {α : Type} (l : List α) (lo : Nat) (h : lo ≤ l.length) :
    slice l lo l.length = some (l.drop lo) := by
  simp [slice, h]

theorem slice_mid {α : Type} (l : List α) (lo hi : Nat) (h1 : lo ≤ hi) (h2 : hi ≤ l.length) :
    slice l lo hi = some ((l.take hi).drop lo) := by
  simp [slice, h1, h2]

/-- What a slice expression returns, when it is in range. -/
theorem slice_zero_eq_some {α : Type} (l v : List α) (hi : Nat) (h : slice l 0 hi = some v) :
    hi ≤ l.length ∧ v = l.take hi := by
  unfold slice at h
  split at h
  · rename_i hc
    refine ⟨hc.2, ?_⟩
    have := (Option.some.inj h).symm
    simpa using this
  · exact absurd h (by simp)

/-- The three sub-multi-exponentiations of the split add up to the whole one. -/
theorem msm_split_three (points : List E) (scalars : List F) (q : Nat) :
    msm (points.drop (q * 2)) (scalars.drop (q * 2)) + msm (points.take q)
        (scalars.take q) +
      msm ((points.take (q * 2)).drop q) ((scalars.take (q * 2)).drop q) =
      msm points scalars := by
  have h1 := msm_take_add_drop points scalars (q * 2)
  have h2 := msm_take_add_drop (points.take (q * 2)) (scalars.take (q * 2)) q
  rw [List.take_take, List.take_take, Nat.min_eq_left (by omega : q ≤ q * 2)] at h2
  rw [← h1, ← h2]
  abel

end MultiExpLemmas

/-! ### The `Bs2` block -/

section Bs2Lemmas

variable {F E1 E2 : Type} [Field F] [AddCommGroup E2] [Module F E2]

/-- The single multi-exponentiation of the `Bs2` block on operands of one length. -/
theorem bs2Single_eq (pk : ProvingKey E1 E2) (wireValues : List F)
    (hlen : pk.G2.B.length = wireValues.length) :
    bs2Single pk wireValues = some (msm pk.G2.B wireValues) :=
  MultiExp_of_le _ _ (by omega)

/-- The split branch of the `Bs2` block returns the point of the single multi-exponentiation.
-/
theorem bs2Split_eq (pk : ProvingKey E1 E2) (wireValues : List F)
    (hlen : pk.G2.B.length = wireValues.length) :
    bs2Split pk wireValues = some (msm pk.G2.B wireValues) := by
  have hq : pk.G2.B.length / 3 * 2 ≤ pk.G2.B.length := by omega
  unfold bs2Split
  simp only []
  rw [slice_zero _ _ (by omega), slice_zero _ _ (by omega),
    slice_mid _ _ _ (by omega) hq, slice_mid _ _ _ (by omega) (by omega),
    slice_to_length _ _ hq, slice_to_length _ _ (by omega)]
  simp only [Option.some_bind]
  rw [MultiExp_of_le _ _ (by simp only [List.length_take]; omega),
    MultiExp_of_le _ _ (by simp only [List.length_take, List.length_drop]; omega),
    MultiExp_of_le _ _ (by simp only [List.length_drop]; omega)]
  simp only [Option.some_bind]
  rw [msm_split_three]

/-- The `Bs2` block, in either branch. -/
theorem computeBs2_eq (pk : ProvingKey E1 E2) (wireValues : List F) (s : F)
    (hlen : pk.G2.B.length = wireValues.length) :
    computeBs2 pk wireValues s =
      some (msm pk.G2.B wireValues + s • pk.G2.Delta + pk.G2.Beta) := by
  unfold computeBs2
  simp only []
  split
  · rw [bs2Split_eq pk wireValues hlen]
    rfl
  · rw [bs2Single_eq pk wireValues hlen]
    rfl

end Bs2Lemmas

/-! ### The closure `computeKRS` -/

section KrsLemmas

variable {F E1 E2 : Type} [Field F] [AddCommGroup E1] [Module F E1]

/-- The select loop of `computeKRS` on an arrival order that delivers each of the three signals
once. -/
theorem krsLoop_of_perm (krs2 ar bs1 krs : E1) (r s : F) (arrivals : List KrsEvent)
    (hperm : arrivals.Perm [KrsEvent.krs2Done, KrsEvent.arDone, KrsEvent.bs1Done]) :
    krsLoop krs2 ar bs1 r s 3 arrivals [.krs2Done, .arDone, .bs1Done] krs [] =
      some (krs + krs2 + s • ar + r • bs1, arrivals) := by
  have hlen : arrivals.length = 3 := hperm.length_eq
  have hnodup : arrivals.Nodup := hperm.nodup_iff.mpr (by decide)
  match arrivals, hlen, hnodup with
  | [x, y, z], _, hnd =>
    cases x <;> cases y <;> cases z <;>
      first
        | exact absurd hnd (by decide)
        | (rw [krsLoop, if_pos (by decide), krsLoop, if_pos (by decide), krsLoop,
            if_pos (by decide), krsLoop]
           refine congrArg some (Prod.ext ?_ rfl)
           first
             | (simp only [krsSelectCase]; done)
             | (simp only [krsSelectCase]; ac_rfl))

/-- Whenever the select loop of `computeKRS` ends, it ends with
`krs + krs2 + s • ar + r • bs1`. -/
theorem krsLoop_result (krs2 ar bs1 krs : E1) (r s : F) (arrivals : List KrsEvent)
    (res : E1 × List KrsEvent)
    (h : krsLoop krs2 ar bs1 r s 3 arrivals [.krs2Done, .arDone, .bs1Done] krs [] = some res) :
    res.1 = krs + krs2 + s • ar + r • bs1 := by
  match arrivals, h with
  | [], h => simp [krsLoop] at h
  | [x], h => cases x <;> simp [krsLoop] at h
  | [x, y], h => cases x <;> cases y <;> simp [krsLoop] at h
  | x :: y :: z :: rest, h =>
    cases x <;> cases y <;> cases z <;> simp [krsLoop, krsSelectCase] at h <;>
      first
        | (rw [← h]; done)
        | (rw [← h]; ac_rfl)

end KrsLemmas

/-! ### The closures of `Prove` -/

section ClosureLemmas

variable {F E1 E2 : Type} [Field F] [AddCommGroup E1] [Module F E1]

/-- The closure `computeKRS` when its slices are in range, `G1.Z` has a point for every entry
of `h` and each signal arrives once. -/
theorem computeKRS_eq (pk : ProvingKey E1 E2) (nbWires nbPublic : Nat) (wireValues h : List F)
    (deltas : List E1) (ar bs1 : E1) (r s : F) (arrivals : List KrsEvent)
    (hpub : nbPublic ≤ nbWires)
    (hK : nbWires - nbPublic ≤ pk.G1.K.length + pk.G1.KSpare.length)
    (hw : nbWires - nbPublic ≤ wireValues.length) (hZ : h.length ≤ pk.G1.Z.length)
    (harr : arrivals.Perm [KrsEvent.krs2Done, KrsEvent.arDone, KrsEvent.bs1Done]) :
    computeKRS pk nbWires nbPublic wireValues h deltas ar bs1 r s arrivals =
      some (msm ((pk.G1.K ++ pk.G1.KSpare).take (nbWires - nbPublic))
        (wireValues.take (nbWires - nbPublic)) + deltas.getD 2 0 + msm pk.G1.Z h +
          s • ar + r • bs1) := by
  unfold computeKRS
  simp only [Nat.not_lt.mpr hpub, if_false]
  rw [MultiExp_of_le _ _ hZ, slice_zero _ _ (by rw [List.length_append]; exact hK),
    slice_zero _ _ hw]
  simp only [Option.some_bind]
  rw [MultiExp_of_le _ _ (by
    simp only [List.length_take, List.length_append]
    omega)]
  simp only [Option.some_bind]
  rw [krsLoop_of_perm _ _ _ _ _ _ _ harr]
  rfl

/-- What the closure `computeKRS` returns, when it returns. -/
theorem computeKRS_eq_some (pk : ProvingKey E1 E2) (nbWires nbPublic : Nat)
    (wireValues h : List F) (deltas : List E1) (ar bs1 krs : E1) (r s : F)
    (arrivals : List KrsEvent)
    (hk : computeKRS pk nbWires nbPublic wireValues h deltas ar bs1 r s arrivals = some krs) :
    krs = msm ((pk.G1.K ++ pk.G1.KSpare).take (nbWires - nbPublic))
        (wireValues.take (nbWires - nbPublic)) + deltas.getD 2 0 + msm pk.G1.Z h +
          s • ar + r • bs1 := by
  unfold computeKRS at hk
  split at hk
  · exact absurd hk (by simp)
  · simp only [Option.bind_eq_some, Option.map_eq_some'] at hk
    obtain ⟨krs2, hk2, points, hp, scalars, hs, krs0, hk0, res, hres, rfl⟩ := hk
    obtain ⟨_, hk2⟩ := MultiExp_eq_some _ _ _ hk2
    obtain ⟨_, hp⟩ := slice_zero_eq_some _ _ _ hp
    obtain ⟨_, hs⟩ := slice_zero_eq_some _ _ _ hs
    obtain ⟨_, hk0⟩ := MultiExp_eq_some _ _ _ hk0
    rw [krsLoop_result _ _ _ _ _ _ _ _ hres, hk0, hk2, hp, hs]

/-- With no entry of the backing array of `G1.K` at some index below `nbPrivateWires`, the
slice expression `pk.G1.K[:nbPrivateWires]` is out of range. -/
theorem computeKRS_of_short_K (pk : ProvingKey E1 E2) (nbWires nbPublic : Nat)
    (wireValues h : List F) (deltas : List E1) (ar bs1 : E1) (r s : F)
    (arrivals : List KrsEvent)
    (hK : pk.G1.K.length + pk.G1.KSpare.length < nbWires - nbPublic) :
    computeKRS pk nbWires nbPublic wireValues h deltas ar bs1 r s arrivals = none := by
  unfold computeKRS
  have hlt : ¬ nbWires < nbPublic := by omega
  have hs : slice (pk.G1.K ++ pk.G1.KSpare) 0 (nbWires - nbPublic) = none := by
    unfold slice
    rw [if_neg (by rw [List.length_append]; omega)]
  simp only [hlt, if_false, hs, Option.none_bind]
  cases MultiExp pk.G1.Z h <;> rfl

theorem computeAR1_eq (pk : ProvingKey E1 E2) (wireValues : List F) (deltas : List E1)
    (hA : wireValues.length ≤ pk.G1.A.length) :
    computeAR1 pk wireValues deltas =
      some (msm pk.G1.A wireValues + pk.G1.Alpha + deltas.getD 0 0) := by
  unfold computeAR1
  rw [MultiExp_of_le _ _ hA]
  rfl

theorem computeAR1_eq_some (pk : ProvingKey E1 E2) (wireValues : List F) (deltas : List E1)
    (ar : E1) (h : computeAR1 pk wireValues deltas = some ar) :
    ar = msm pk.G1.A wireValues + pk.G1.Alpha + deltas.getD 0 0 := by
  unfold computeAR1 at h
  simp only [Option.map_eq_some'] at h
  obtain ⟨x, hx, rfl⟩ := h
  rw [(MultiExp_eq_some _ _ _ hx).2]

theorem computeBS1_eq (pk : ProvingKey E1 E2) (wireValues : List F) (deltas : List E1)
    (hB : wireValues.length ≤ pk.G1.B.length) :
    computeBS1 pk wireValues deltas =
      some (msm pk.G1.B wireValues + pk.G1.Beta + deltas.getD 1 0) := by
  unfold computeBS1
  rw [MultiExp_of_le _ _ hB]
  rfl

theorem computeBS1_eq_some (pk : ProvingKey E1 E2) (wireValues : List F) (deltas : List E1)
    (bs1 : E1) (h : computeBS1 pk wireValues deltas = some bs1) :
    bs1 = msm pk.G1.B wireValues + pk.G1.Beta + deltas.getD 1 0 := by
  unfold computeBS1 at h
  simp only [Option.map_eq_some'] at h
  obtain ⟨x, hx, rfl⟩ := h
  rw [(MultiExp_eq_some _ _ _ hx).2]

theorem fr.val_Neg (R : Fˣ) (x : F) : fr.val R (fr.Neg x) = -fr.val R x := by
  unfold fr.val fr.Neg
  ring

/-- The three multiples of `Delta`, as multiples by field values. -/
theorem proveDeltas_getD (R : Fˣ) (pk : ProvingKey E1 E2) (rnd1 rnd2 : F) :
    (proveDeltas R pk rnd1 rnd2).getD 0 0 = fr.val R rnd1 • pk.G1.Delta ∧
    (proveDeltas R pk rnd1 rnd2).getD 1 0 = fr.val R rnd2 • pk.G1.Delta ∧
    (proveDeltas R pk rnd1 rnd2).getD 2 0 =
      (-(fr.val R rnd1 * fr.val R rnd2)) • pk.G1.Delta := by
  simp [proveDeltas, BatchScalarMultiplicationG1, fr.FromMont_eq_val, fr.val_Neg, fr.val_Mul]

end ClosureLemmas

/-! ### `Prove` -/

section ProveLemmas

variable {F E1 E2 ε S : Type} [Field F] [AddCommGroup E1] [Module F E1] [AddCommGroup E2]
  [Module F E2]

theorem Prove_wireValues (P : Nat) (hP : 1 ≤ P) (R : Fˣ) (r1cs : R1CS ε S F)
    (sol : SolveResult F) :
    execute P ((List.range r1cs.NbWires).map sol.wireValues).length
        (pointwiseWork fun _ x => fr.FromMont R x)
        ((List.range r1cs.NbWires).map sol.wireValues) = regularWires R r1cs sol := by
  rw [execute_pointwise P hP]
  unfold regularWires
  simp only [List.length_map, List.length_range]
  apply List.map_congr_left
  intro i hi
  rw [getD_map_range _ _ _ (List.mem_range.mp hi)]
  rfl

/-- The run of `Prove` when `Solve` succeeds, written with the closures of `Prove`. -/
theorem Prove_of_solved (P : Nat) (hP : 1 ≤ P) (R : Fˣ) (NewDomain : Nat → Domain F)
    (rnd1 rnd2 : F) (arrivals : List KrsEvent) (r1cs : R1CS ε S F) (pk : ProvingKey E1 E2)
    (solution : S) (sol : SolveResult F)
    (hdom : r1cs.NbConstraints ≤ (NewDomain r1cs.NbConstraints).Cardinality)
    (hsolve : r1cs.Solve solution = .ok sol) :
    (Prove P R NewDomain rnd1 rnd2 arrivals r1cs pk solution).outcome =
      match computeH P R ((List.range r1cs.NbConstraints).map sol.a)
          ((List.range r1cs.NbConstraints).map sol.b)
          ((List.range r1cs.NbConstraints).map sol.c) (NewDomain r1cs.NbConstraints) with
      | none => .panic
      | some h =>
        match computeBS1 pk (regularWires R r1cs sol) (proveDeltas R pk rnd1 rnd2),
          computeAR1 pk (regularWires R r1cs sol) (proveDeltas R pk rnd1 rnd2) with
        | some bs1, some ar =>
          match computeKRS pk r1cs.NbWires r1cs.NbPublicWires (regularWires R r1cs sol) h
              (proveDeltas R pk rnd1 rnd2) ar bs1 (fr.val R rnd1) (fr.val R rnd2) arrivals,
            computeBs2 pk (regularWires R r1cs sol) (fr.val R rnd2) with
          | some krs, some Bs => .ok { Ar := ar, Krs := krs, Bs := Bs }
          | _, _ => .panic
        | _, _ => .panic := by
  unfold Prove
  simp only [Nat.not_lt.mpr hdom, if_false, hsolve, Prove_wireValues P hP R r1cs sol]
  cases hH : computeH P R ((List.range r1cs.NbConstraints).map sol.a)
      ((List.range r1cs.NbConstraints).map sol.b)
      ((List.range r1cs.NbConstraints).map sol.c) (NewDomain r1cs.NbConstraints) with
  | none => rfl
  | some h =>
    simp only [fr.ToBigInt, fr.FromMont_eq_val, proveDeltas]
    generalize computeBS1 pk (regularWires R r1cs sol) _ = obs1
    generalize computeAR1 pk (regularWires R r1cs sol) _ = oar
    cases obs1 with
    | none => rfl
    | some bs1 =>
      cases oar with
      | none => rfl
      | some ar =>
        simp only []
        generalize computeKRS pk _ _ (regularWires R r1cs sol) _ _ _ _ _ _ _ = okrs
        generalize computeBs2 pk (regularWires R r1cs sol) _ = oBs
        cases okrs <;> cases oBs <;> rfl

theorem regularWires_length (R : Fˣ) (r1cs : R1CS ε S F) (sol : SolveResult F) :
    (regularWires R r1cs sol).length = r1cs.NbWires := by
  simp [regularWires]

/-- A run of `Prove` that returns a proof went through a successful `Solve`, `computeH`,
`computeBS1`, `computeAR1`, `computeKRS` and `Bs2` block, and the proof holds their results. -/
theorem Prove_ok_inv (P : Nat) (hP : 1 ≤ P) (R : Fˣ) (NewDomain : Nat → Domain F)
    (rnd1 rnd2 : F) (arrivals : List KrsEvent) (r1cs : R1CS ε S F) (pk : ProvingKey E1 E2)
    (solution : S) (proof : Proof E1 E2)
    (hok : (Prove P R NewDomain rnd1 rnd2 arrivals r1cs pk solution).outcome = .ok proof) :
    ∃ sol H bs1 ar, r1cs.Solve solution = .ok sol ∧
      computeH P R ((List.range r1cs.NbConstraints).map sol.a)
          ((List.range r1cs.NbConstraints).map sol.b)
          ((List.range r1cs.NbConstraints).map sol.c) (NewDomain r1cs.NbConstraints) = some H ∧
      computeBS1 pk (regularWires R r1cs sol) (proveDeltas R pk rnd1 rnd2) = some bs1 ∧
      computeAR1 pk (regularWires R r1cs sol) (proveDeltas R pk rnd1 rnd2) = some ar ∧
      computeKRS pk r1cs.NbWires r1cs.NbPublicWires (regularWires R r1cs sol) H
          (proveDeltas R pk rnd1 rnd2) ar bs1 (fr.val R rnd1) (fr.val R rnd2) arrivals =
        some proof.Krs ∧
      computeBs2 pk (regularWires R r1cs sol) (fr.val R rnd2) = some proof.Bs ∧
      proof.Ar = ar := by
  by_cases hdom : r1cs.NbConstraints ≤ (NewDomain r1cs.NbConstraints).Cardinality
  · cases hsolve : r1cs.Solve solution with
    | error err =>
      exfalso
      simp [Prove, Nat.not_lt.mpr hdom, hsolve] at hok
    | ok sol =>
      rw [Prove_of_solved P hP R NewDomain rnd1 rnd2 arrivals r1cs pk solution sol hdom
        hsolve] at hok
      refine ⟨sol, ?_⟩
      split at hok
      · exact absurd hok (by simp)
      · rename_i H hH
        split at hok
        · rename_i bs1 ar hbs1 har
          split at hok
          · rename_i krs Bs hkrs hBs
            injection hok with hok
            subst hok
            exact ⟨H, bs1, ar, rfl, hH, hbs1, har, hkrs, hBs, rfl⟩
          · exact absurd hok (by simp)
        · exact absurd hok (by simp)
  · exfalso
    simp [Prove, Nat.lt_of_not_le hdom] at hok

/-- Every error that `Prove` returns is the error that `Solve` returned. -/
theorem Prove_error_inv (P : Nat) (hP : 1 ≤ P) (R : Fˣ) (NewDomain : Nat → Domain F)
    (rnd1 rnd2 : F) (arrivals : List KrsEvent) (r1cs : R1CS ε S F) (pk : ProvingKey E1 E2)
    (solution : S) (e : ε)
    (h : (Prove P R NewDomain rnd1 rnd2 arrivals r1cs pk solution).outcome = .error e) :
    r1cs.Solve solution = .error e := by
  by_cases hdom : r1cs.NbConstraints ≤ (NewDomain r1cs.NbConstraints).Cardinality
  · cases hsolve : r1cs.Solve solution with
    | error err =>
      simp [Prove, Nat.not_lt.mpr hdom, hsolve] at h
      rw [h]
    | ok sol =>
      exfalso
      rw [Prove_of_solved P hP R NewDomain rnd1 rnd2 arrivals r1cs pk solution sol hdom
        hsolve] at h
      split at h
      · exact absurd h (by simp)
      · split at h
        · split at h <;> exact absurd h (by simp)
        · exact absurd h (by simp)
  · exfalso
    simp [Prove, Nat.lt_of_not_le hdom] at h

/-- With a domain of cardinality at least 2, a point for every scalar of each
multi-exponentiation, slices in range and each completion signal arriving once, `Prove` returns
a proof. -/
theorem Prove_returns_proof (P : Nat) (hP : 1 ≤ P) (R : Fˣ) (NewDomain : Nat → Domain F)
    (rnd1 rnd2 : F) (arrivals : List KrsEvent) (r1cs : R1CS ε S F) (pk : ProvingKey E1 E2)
    (solution : S) (sol : SolveResult F)
    (hdom : r1cs.NbConstraints ≤ (NewDomain r1cs.NbConstraints).Cardinality)
    (hN : 2 ≤ (NewDomain r1cs.NbConstraints).Cardinality)
    (hsolve : r1cs.Solve solution = .ok sol)
    (hpub : r1cs.NbPublicWires ≤ r1cs.NbWires)
    (hK : r1cs.NbWires - r1cs.NbPublicWires ≤ pk.G1.K.length + pk.G1.KSpare.length)
    (hA : r1cs.NbWires ≤ pk.G1.A.length) (hB : r1cs.NbWires ≤ pk.G1.B.length)
    (hZ : (NewDomain r1cs.NbConstraints).Cardinality ≤ pk.G1.Z.length)
    (hB2 : pk.G2.B.length = r1cs.NbWires)
    (harr : arrivals.Perm [KrsEvent.krs2Done, KrsEvent.arDone, KrsEvent.bs1Done]) :
    ∃ proof, (Prove P R NewDomain rnd1 rnd2 arrivals r1cs pk solution).outcome = .ok proof := by
  obtain ⟨H, hH, hHlen⟩ := computeH_length P hP R ((List.range r1cs.NbConstraints).map sol.a)
    ((List.range r1cs.NbConstraints).map sol.b) ((List.range r1cs.NbConstraints).map sol.c)
    (NewDomain r1cs.NbConstraints) (by simp) (by simp) (by simpa using hdom) hN
  have hrun := Prove_of_solved P hP R NewDomain rnd1 rnd2 arrivals r1cs pk solution sol hdom
    hsolve
  rw [hH] at hrun
  have har := computeAR1_eq pk (regularWires R r1cs sol) (proveDeltas R pk rnd1 rnd2)
    (by rw [regularWires_length]; exact hA)
  have hbs1 := computeBS1_eq pk (regularWires R r1cs sol) (proveDeltas R pk rnd1 rnd2)
    (by rw [regularWires_length]; exact hB)
  have hkrs := computeKRS_eq pk r1cs.NbWires r1cs.NbPublicWires (regularWires R r1cs sol) H
    (proveDeltas R pk rnd1 rnd2)
    (msm pk.G1.A (regularWires R r1cs sol) + pk.G1.Alpha + (proveDeltas R pk rnd1 rnd2).getD 0 0)
    (msm pk.G1.B (regularWires R r1cs sol) + pk.G1.Beta + (proveDeltas R pk rnd1 rnd2).getD 1 0)
    (fr.val R rnd1) (fr.val R rnd2) arrivals hpub hK
    (by rw [regularWires_length]; omega) (by rw [hHlen]; exact hZ) harr
  have hbs := computeBs2_eq pk (regularWires R r1cs sol) (fr.val R rnd2)
    (by rw [regularWires_length, hB2])
  simp only [har, hbs1, hkrs, hbs] at hrun
  exact ⟨_, hrun⟩

/-- With fewer points in `G1.A` than wires, the multi-exponentiation of `computeAR1` reads a
point that is not there and `Prove` returns no proof. -/
theorem Prove_panics_of_short_A (P : Nat) (hP : 1 ≤ P) (R : Fˣ) (NewDomain : Nat → Domain F)
    (rnd1 rnd2 : F) (arrivals : List KrsEvent) (r1cs : R1CS ε S F) (pk : ProvingKey E1 E2)
    (solution : S) (sol : SolveResult F)
    (hdom : r1cs.NbConstraints ≤ (NewDomain r1cs.NbConstraints).Cardinality)
    (hsolve : r1cs.Solve solution = .ok sol)
    (hA : pk.G1.A.length < r1cs.NbWires) :
    (Prove P R NewDomain rnd1 rnd2 arrivals r1cs pk solution).outcome = .panic := by
  rw [Prove_of_solved P hP R NewDomain rnd1 rnd2 arrivals r1cs pk solution sol hdom hsolve]
  have har : computeAR1 pk (regularWires R r1cs sol) (proveDeltas R pk rnd1 rnd2) = none := by
    unfold computeAR1
    rw [MultiExp_of_lt _ _ (by rw [regularWires_length]; exact hA)]
    rfl
  rw [har]
  split
  · rfl
  · cases computeBS1 pk (regularWires R r1cs sol) (proveDeltas R pk rnd1 rnd2) <;> rfl

/-- With no entry of the backing array of `G1.K` at some index below the number of private
wires, `Prove` fails on the slice expression `pk.G1.K[:nbPrivateWires]`. -/
theorem Prove_panics_of_short_K (P : Nat) (hP : 1 ≤ P) (R : Fˣ) (NewDomain : Nat → Domain F)
    (rnd1 rnd2 : F) (arrivals : List KrsEvent) (r1cs : R1CS ε S F) (pk : ProvingKey E1 E2)
    (solution : S) (sol : SolveResult F)
    (hdom : r1cs.NbConstraints ≤ (NewDomain r1cs.NbConstraints).Cardinality)
    (hsolve : r1cs.Solve solution = .ok sol)
    (hK : pk.G1.K.length + pk.G1.KSpare.length < r1cs.NbWires - r1cs.NbPublicWires) :
    (Prove P R NewDomain rnd1 rnd2 arrivals r1cs pk solution).outcome = .panic := by
  rw [Prove_of_solved P hP R NewDomain rnd1 rnd2 arrivals r1cs pk solution sol hdom hsolve]
  split
  · rfl
  · split
    · rw [computeKRS_of_short_K pk _ _ _ _ _ _ _ _ _ _ hK]
    · rfl

end ProveLemmas
/-! ### The proof elements -/

section ProofElements

variable {F E1 E2 ε S : Type} [Field F] [AddCommGroup E1] [Module F E1] [AddCommGroup E2]
  [Module F E2]

/-- C3. Formula of the G2 proof element, independent of the split: when `G2.B` and the wire
values have one common length (any length), the `Bs2` block yields
`MSM(G2.B, w) + s • G2.Delta + G2.Beta`, the split branch (three sub-multi-exponentiations over
`[0, q)`, `[q, 2q)`, `[2q, L)`, `q = L / 3`) returns the point of the single
multi-exponentiation, and this is the `Bs` of every proof that `Prove` returns, with `w` the
wire values in regular form and `s` the second random scalar. -/
theorem Bs_formula_independent_of_split (P : Nat) (hP : 1 ≤ P) (R : Fˣ)
    (NewDomain : Nat → Domain F) (rnd1 rnd2 : F) (arrivals : List KrsEvent)
    (r1cs : R1CS ε S F) (pk : ProvingKey E1 E2) (solution : S)
    (hL : pk.G2.B.length = r1cs.NbWires) :
    (∀ (wireValues : List F) (s : F), pk.G2.B.length = wireValues.length →
      computeBs2 pk wireValues s =
        some (msm pk.G2.B wireValues + s • pk.G2.Delta + pk.G2.Beta) ∧
      bs2Split pk wireValues = bs2Single pk wireValues ∧
      bs2Single pk wireValues = some (msm pk.G2.B wireValues)) ∧
    (∀ proof, (Prove P R NewDomain rnd1 rnd2 arrivals r1cs pk solution).outcome = .ok proof →
      ∃ sol, r1cs.Solve solution = .ok sol ∧
        proof.Bs = msm pk.G2.B (regularWires R r1cs sol) + fr.val R rnd2 • pk.G2.Delta +
          pk.G2.Beta) := by
  constructor
  · intro wireValues s hlen
    refine ⟨computeBs2_eq pk wireValues s hlen, ?_, bs2Single_eq pk wireValues hlen⟩
    rw [bs2Split_eq pk wireValues hlen, bs2Single_eq pk wireValues hlen]
  · intro proof hok
    obtain ⟨sol, _, _, _, hsolve, _, _, _, _, hBs, _⟩ :=
      Prove_ok_inv P hP R NewDomain rnd1 rnd2 arrivals r1cs pk solution proof hok
    refine ⟨sol, hsolve, ?_⟩
    rw [computeBs2_eq pk _ _ (by rw [regularWires_length, hL])] at hBs
    exact (Option.some.inj hBs).symm

/-- C2. Formula of the G1 proof elements: whenever `Solve` succeeds, with `w` the wire values
in regular form, `r`, `s` the field values of the two random residues, `np = NbWires -
NbPublicWires` and `H` the vector returned by `computeH`, every proof that `Prove` returns has
`Ar = ar` and `Krs = MSM(G1.K[:np], w[:np]) + (-(r * s)) • Delta + MSM(G1.Z, H) + s • ar +
r • bs1`, where `ar = MSM(G1.A, w) + Alpha + r • Delta` and `bs1 = MSM(G1.B, w) + Beta +
s • Delta`; and `Prove` does return a proof when the domain has cardinality at least 2 and at
least `NbConstraints`, the lengths of `G1.A`, `G1.B`, `G2.B` are `NbWires`, the length of
`G1.Z` is the cardinality, `np` is within the capacity of `G1.K` and each completion signal
arrives once. -/
theorem Prove_G1_elements (P : Nat) (hP : 1 ≤ P) (R : Fˣ) (NewDomain : Nat → Domain F)
    (rnd1 rnd2 : F) (arrivals : List KrsEvent) (r1cs : R1CS ε S F) (pk : ProvingKey E1 E2)
    (solution : S) (sol : SolveResult F)
    (hsolve : r1cs.Solve solution = .ok sol) :
    (∀ proof, (Prove P R NewDomain rnd1 rnd2 arrivals r1cs pk solution).outcome = .ok proof →
      ∃ H, computeH P R ((List.range r1cs.NbConstraints).map sol.a)
          ((List.range r1cs.NbConstraints).map sol.b)
          ((List.range r1cs.NbConstraints).map sol.c) (NewDomain r1cs.NbConstraints) = some H ∧
        proof.Ar = msm pk.G1.A (regularWires R r1cs sol) + pk.G1.Alpha +
          fr.val R rnd1 • pk.G1.Delta ∧
        proof.Krs =
          msm ((pk.G1.K ++ pk.G1.KSpare).take (r1cs.NbWires - r1cs.NbPublicWires))
              ((regularWires R r1cs sol).take (r1cs.NbWires - r1cs.NbPublicWires)) +
            (-(fr.val R rnd1 * fr.val R rnd2)) • pk.G1.Delta +
            msm pk.G1.Z H +
            fr.val R rnd2 • (msm pk.G1.A (regularWires R r1cs sol) + pk.G1.Alpha +
              fr.val R rnd1 • pk.G1.Delta) +
            fr.val R rnd1 • (msm pk.G1.B (regularWires R r1cs sol) + pk.G1.Beta +
              fr.val R rnd2 • pk.G1.Delta)) ∧
    (r1cs.NbConstraints ≤ (NewDomain r1cs.NbConstraints).Cardinality →
      2 ≤ (NewDomain r1cs.NbConstraints).Cardinality →
      r1cs.NbPublicWires ≤ r1cs.NbWires →
      r1cs.NbWires - r1cs.NbPublicWires ≤ pk.G1.K.length + pk.G1.KSpare.length →
      pk.G1.A.length = r1cs.NbWires → pk.G1.B.length = r1cs.NbWires →
      pk.G1.Z.length = (NewDomain r1cs.NbConstraints).Cardinality →
      pk.G2.B.length = r1cs.NbWires →
      arrivals ∈ [KrsEvent.krs2Done, KrsEvent.arDone, KrsEvent.bs1Done].permutations →
      ∃ proof,
        (Prove P R NewDomain rnd1 rnd2 arrivals r1cs pk solution).outcome = .ok proof) := by
  constructor
  · intro proof hok
    obtain ⟨sol1, H, bs1, ar, hsolve1, hH, hbs1, har, hkrs, _, hAr⟩ :=
      Prove_ok_inv P hP R NewDomain rnd1 rnd2 arrivals r1cs pk solution proof hok
    have hsol : sol1 = sol := by
      rw [hsolve] at hsolve1
      exact (Except.ok.inj hsolve1).symm
    subst hsol
    obtain ⟨hd0, hd1, hd2⟩ := proveDeltas_getD R pk rnd1 rnd2
    have har2 := computeAR1_eq_some pk _ _ ar har
    have hbs2 := computeBS1_eq_some pk _ _ bs1 hbs1
    have hkrs2 := computeKRS_eq_some pk _ _ _ _ _ _ _ _ _ _ _ hkrs
    rw [hd0] at har2
    rw [hd1] at hbs2
    rw [hd2] at hkrs2
    refine ⟨H, hH, ?_, ?_⟩
    · rw [hAr, har2]
    · rw [hkrs2, har2, hbs2]
  · intro hdom hN hpub hK hA hB hZ hB2 harr
    exact Prove_returns_proof P hP R NewDomain rnd1 rnd2 arrivals r1cs pk solution sol hdom hN
      hsolve hpub hK (le_of_eq hA.symm) (le_of_eq hB.symm) (le_of_eq hZ.symm) hB2
      (List.mem_permutations.mp harr)

/-- Concrete instance of C3: 33 wires, so that `33 / 3 > 10` and the split branch is taken.
-/
theorem Bs_formula_independent_of_split_witness :
    (∀ (wireValues : List (ZMod 5)) (s : ZMod 5),
      exampleWideProvingKey.G2.B.length = wireValues.length →
      computeBs2 exampleWideProvingKey wireValues s =
        some (msm exampleWideProvingKey.G2.B wireValues +
          s • exampleWideProvingKey.G2.Delta + exampleWideProvingKey.G2.Beta) ∧
      bs2Split exampleWideProvingKey wireValues = bs2Single exampleWideProvingKey wireValues ∧
      bs2Single exampleWideProvingKey wireValues =
        some (msm exampleWideProvingKey.G2.B wireValues)) ∧
    (∀ proof, (Prove 2 (1 : (ZMod 5)ˣ) (fun _ => exampleDomain) 2 3
        [KrsEvent.bs1Done, KrsEvent.krs2Done, KrsEvent.arDone] exampleWideR1CS
        exampleWideProvingKey ()).outcome = .ok proof →
      ∃ sol, exampleWideR1CS.Solve () = .ok sol ∧
        proof.Bs = msm exampleWideProvingKey.G2.B
            (regularWires (1 : (ZMod 5)ˣ) exampleWideR1CS sol) +
          fr.val (1 : (ZMod 5)ˣ) 3 • exampleWideProvingKey.G2.Delta +
          exampleWideProvingKey.G2.Beta) :=
  Bs_formula_independent_of_split 2 (by decide) (1 : (ZMod 5)ˣ) (fun _ => exampleDomain) 2 3
    [KrsEvent.bs1Done, KrsEvent.krs2Done, KrsEvent.arDone] exampleWideR1CS
    exampleWideProvingKey () (by simp [exampleWideProvingKey, exampleWideR1CS])

/-- Concrete instance of C2: `exampleR1CS` with `exampleProvingKey` on the domain of
cardinality 2 over `ZMod 5`: `Prove` returns a proof, and it has the stated `Ar` and `Krs`. -/
theorem Prove_G1_elements_witness :
    ∃ proof, (Prove 2 (1 : (ZMod 5)ˣ) (fun _ => exampleDomain) 2 3
        [KrsEvent.bs1Done, KrsEvent.krs2Done, KrsEvent.arDone] exampleR1CS exampleProvingKey
        ()).outcome = .ok proof ∧
      ∃ H, computeH 2 (1 : (ZMod 5)ˣ)
          ((List.range exampleR1CS.NbConstraints).map fun i => [1, 2].getD i 0)
          ((List.range exampleR1CS.NbConstraints).map fun i => [3, 4].getD i 0)
          ((List.range exampleR1CS.NbConstraints).map fun i => [3, 3].getD i 0)
          exampleDomain = some H ∧
        proof.Ar =
          msm exampleProvingKey.G1.A
              (List.map (fun i => fr.val (1 : (ZMod 5)ˣ) ([1, 2, 3].getD i 0))
                (List.range 3)) +
            exampleProvingKey.G1.Alpha +
            fr.val (1 : (ZMod 5)ˣ) 2 • exampleProvingKey.G1.Delta ∧
        proof.Krs =
          msm ((exampleProvingKey.G1.K ++ exampleProvingKey.G1.KSpare).take 2)
              ((List.map (fun i => fr.val (1 : (ZMod 5)ˣ) ([1, 2, 3].getD i 0))
                (List.range 3)).take 2) +
            (-(fr.val (1 : (ZMod 5)ˣ) 2 * fr.val (1 : (ZMod 5)ˣ) 3)) •
              exampleProvingKey.G1.Delta +
            msm exampleProvingKey.G1.Z H +
            fr.val (1 : (ZMod 5)ˣ) 3 •
              (msm exampleProvingKey.G1.A
                  (List.map (fun i => fr.val (1 : (ZMod 5)ˣ) ([1, 2, 3].getD i 0))
                    (List.range 3)) +
                exampleProvingKey.G1.Alpha +
                fr.val (1 : (ZMod 5)ˣ) 2 • exampleProvingKey.G1.Delta) +
            fr.val (1 : (ZMod 5)ˣ) 2 •
              (msm exampleProvingKey.G1.B
                  (List.map (fun i => fr.val (1 : (ZMod 5)ˣ) ([1, 2, 3].getD i 0))
                    (List.range 3)) +
                exampleProvingKey.G1.Beta +
                fr.val (1 : (ZMod 5)ˣ) 3 • exampleProvingKey.G1.Delta) := by
  have h := Prove_G1_elements 2 (by decide) (1 : (ZMod 5)ˣ) (fun _ => exampleDomain) 2 3
    [KrsEvent.bs1Done, KrsEvent.krs2Done, KrsEvent.arDone] exampleR1CS exampleProvingKey ()
    { a := fun i => [1, 2].getD i 0, b := fun i => [3, 4].getD i 0,
      c := fun i => [3, 3].getD i 0, wireValues := fun i => [1, 2, 3].getD i 0 } rfl
  obtain ⟨proof, hp⟩ := h.2 (by decide) (by decide) (by decide) (by decide) rfl rfl rfl rfl
    (List.mem_permutations.mpr (by decide))
  exact ⟨proof, hp, h.1 proof hp⟩

/-- C4. Solver failure is propagated unchanged and stops the proof: when `Solve` returns the
error `e`, `Prove` returns no proof together with exactly `e`, whatever the proving key, the
random residues and the scheduling are, and the only traced operation of the run is the call
of `Solve`: nothing is sampled and no FFT, scalar multiplication or multi-exponentiation is
performed.  (`NewDomain` returns a domain at least as large as the number of constraints, so
the buffers of `Solve` can be allocated.) -/
theorem Prove_propagates_solver_error (P : Nat) (R : Fˣ) (NewDomain : Nat → Domain F)
    (rnd1 rnd2 : F) (arrivals : List KrsEvent) (r1cs : R1CS ε S F) (pk : ProvingKey E1 E2)
    (solution : S) (e : ε)
    (hdom : ∀ m, m ≤ (NewDomain m).Cardinality)
    (hsolve : r1cs.Solve solution = .error e) :
    (Prove P R NewDomain rnd1 rnd2 arrivals r1cs pk solution).outcome = .error e ∧
    (Prove P R NewDomain rnd1 rnd2 arrivals r1cs pk solution).events = [.solve] := by
  constructor <;> simp [Prove, Nat.not_lt.mpr (hdom r1cs.NbConstraints), hsolve]

/-- C10. The Krs fold does not depend on the arrival order: for each of the 6 orders in which
the three completion signals can be received, the select loop of `computeKRS` runs exactly
three iterations, consumes the signals in that order, each exactly once, and ends with
`krs + krs2 + s • ar + r • bs1`. -/
theorem krs_fold_order_independent (krs2 ar bs1 krs : E1) (r s : F)
    (arrivals : List KrsEvent)
    (h : arrivals ∈ [KrsEvent.krs2Done, KrsEvent.arDone, KrsEvent.bs1Done].permutations) :
    krsLoop krs2 ar bs1 r s 3 arrivals [.krs2Done, .arDone, .bs1Done] krs [] =
      some (krs + krs2 + s • ar + r • bs1, arrivals) ∧
    arrivals.length = 3 ∧ (∀ ev, arrivals.count ev = 1) ∧
    [KrsEvent.krs2Done, KrsEvent.arDone, KrsEvent.bs1Done].permutations.length = 6 := by
  have hperm : arrivals.Perm [KrsEvent.krs2Done, KrsEvent.arDone, KrsEvent.bs1Done] :=
    List.mem_permutations.mp h
  have hcount : ∀ ev, arrivals.count ev = 1 := by
    intro ev
    rw [hperm.count_eq]
    cases ev <;> decide
  refine ⟨krsLoop_of_perm krs2 ar bs1 krs r s arrivals hperm, hperm.length_eq, hcount, ?_⟩
  rw [List.length_permutations]
  rfl

/-- Concrete instance of C10: the order `bs1`, `krs2`, `ar`, with points in `ZMod 5`. -/
theorem krs_fold_order_independent_witness :
    krsLoop (1 : ZMod 5) 2 3 (2 : ZMod 5) 3 3
        [KrsEvent.bs1Done, KrsEvent.krs2Done, KrsEvent.arDone]
        [.krs2Done, .arDone, .bs1Done] 4 [] =
      some (4 + 1 + (3 : ZMod 5) • (2 : ZMod 5) + (2 : ZMod 5) • (3 : ZMod 5),
        [KrsEvent.bs1Done, KrsEvent.krs2Done, KrsEvent.arDone]) ∧
    [KrsEvent.bs1Done, KrsEvent.krs2Done, KrsEvent.arDone].length = 3 ∧
    (∀ ev, [KrsEvent.bs1Done, KrsEvent.krs2Done, KrsEvent.arDone].count ev = 1) ∧
    [KrsEvent.krs2Done, KrsEvent.arDone, KrsEvent.bs1Done].permutations.length = 6 :=
  krs_fold_order_independent (1 : ZMod 5) 2 3 4 (2 : ZMod 5) 3
    [KrsEvent.bs1Done, KrsEvent.krs2Done, KrsEvent.arDone]
    (List.mem_permutations.mpr (by decide))

/-- Concrete instance of C4: an R1CS whose `Solve` fails with `"unsatisfied"`. -/
theorem Prove_propagates_solver_error_witness :
    (Prove 2 (1 : (ZMod 5)ˣ) (fun m => ⟨m, 0, 0, 0, 0, 0⟩) 1 2 []
        ({ NbWires := 3, NbPublicWires := 1, NbConstraints := 1,
           Solve := fun _ => .error "unsatisfied" } : R1CS String Unit (ZMod 5))
        ({ G1 := ⟨0, 0, 0, [], [], [], [], []⟩, G2 := ⟨0, 0, []⟩ } :
          ProvingKey (ZMod 5) (ZMod 5)) ()).outcome = .error "unsatisfied" ∧
    (Prove 2 (1 : (ZMod 5)ˣ) (fun m => ⟨m, 0, 0, 0, 0, 0⟩) 1 2 []
        ({ NbWires := 3, NbPublicWires := 1, NbConstraints := 1,
           Solve := fun _ => .error "unsatisfied" } : R1CS String Unit (ZMod 5))
        ({ G1 := ⟨0, 0, 0, [], [], [], [], []⟩, G2 := ⟨0, 0, []⟩ } :
          ProvingKey (ZMod 5) (ZMod 5)) ()).events = [.solve] :=
  Prove_propagates_solver_error 2 (1 : (ZMod 5)ˣ) (fun m => ⟨m, 0, 0, 0, 0, 0⟩) 1 2 []
    ({ NbWires := 3, NbPublicWires := 1, NbConstraints := 1,
       Solve := fun _ => .error "unsatisfied" } : R1CS String Unit (ZMod 5))
    ({ G1 := ⟨0, 0, 0, [], [], [], [], []⟩, G2 := ⟨0, 0, []⟩ } : ProvingKey (ZMod 5) (ZMod 5)) ()
    "unsatisfied" (fun m => le_refl m) rfl

end ProofElements

/-! ### The exponent table: workers, frame and smallest table -/

section ExpTableFrame

variable {F : Type} [Field F]

/-- On a table with a single entry `asyncExpTable` takes the sequential branch, for every
worker count, and its worker indexes `table[0]` of the empty view `table[1:]`. -/
theorem asyncExpTable_singleton (P : Nat) (R : Fˣ) (scale w x : F) :
    asyncExpTable P R scale w [x] = none := by
  have h : ([x].length - 1) / P < ratioExpMul := by
    simp [ratioExpMul]
  unfold asyncExpTable
  simp only [h, dif_pos]
  simp [asyncExpTableSequential, slice, precomputeExpTableChunk]

/-- C12, at the failing input. On the table `[s]` of length 1 `asyncExpTable` does not leave
`[s]`: for every worker count it starts one worker on the empty view `table[1:]`, and the first
statement of `precomputeExpTableChunk`, `table[0].Exp(w, power)`, is out of range. -/
theorem asyncExpTable_panics_at_length_one (P : Nat) (R : Fˣ) (s w : F) :
    asyncExpTable P R s w [s] = none ∧ asyncExpTable P R s w [s] ≠ some [s] ∧
      asyncExpTableWorkers P [s].length = [(1, 1)] ∧
      slice [s] 1 1 = some [] ∧ precomputeExpTableChunk R s w 1 [] = none := by
  have h := asyncExpTable_singleton P R s w s
  refine ⟨h, by rw [h]; simp, ?_, by simp [slice], precomputeExpTableChunk_nil R s w 1⟩
  have hi : ([s].length - 1) / P < ratioExpMul := by
    simp [ratioExpMul]
  unfold asyncExpTableWorkers
  simp only [hi, dif_pos]
  rfl

/-- The workers of `asyncExpTableWorkers` are the ones `asyncExpTable` runs. -/
theorem asyncExpTable_runs_workers (P : Nat) (R : Fˣ) (scale w : F) (table : List F) :
    asyncExpTable P R scale w table =
      (asyncExpTableWorkers P table.length).foldl (expTableWorker R scale w) (some table) := by
  unfold asyncExpTable asyncExpTableWorkers
  by_cases h : (table.length - 1) / P < ratioExpMul
  · simp only [h, dif_pos]
    rfl
  · simp only [h, dif_neg, not_false_eq_true]
    rfl

/-- C18. Frame effect of `asyncExpTable`: on a table of length `n ≥ 2`, for every worker
count `P ≥ 1`, the call returns a table of length `n` whose entry 0 is the one it had on entry
and whose entry `i`, for every `1 ≤ i < n`, is the residue of `scale * w ^ i`, the same for any
two tables of length `n` whatever they held before.  Hence the second call of `computeH`, on
the table that the first call filled, yields a table whose entry `i` denotes
`n⁻¹ * (g⁻¹) ^ i` for every `i < n`. -/
theorem asyncExpTable_overwrites_tail (P : Nat) (R : Fˣ) (scale w : F) (n : Nat)
    (table table' : List F) (d : Domain F)
    (hn : 2 ≤ n) (_hP : 1 ≤ P) (hlen : table.length = n) (hlen' : table'.length = n) :
    (∃ t t', asyncExpTable P R scale w table = some t ∧
      asyncExpTable P R scale w table' = some t' ∧
      t.length = n ∧ t'.length = n ∧ t[0]? = table[0]? ∧ t'[0]? = table'[0]? ∧
      ∀ i, 1 ≤ i → i < n → t[i]? = some (expEntry R scale w i) ∧ t'[i]? = t[i]?) ∧
    (∃ t1 t2, asyncExpTable P R d.CardinalityInv d.GeneratorSqRt
        ((List.replicate n (0 : F)).set 0 d.CardinalityInv) = some t1 ∧
      asyncExpTable P R d.CardinalityInv d.GeneratorSqRtInv t1 = some t2 ∧
      t2.length = n ∧
      ∀ i, i < n → ∃ x, t2[i]? = some x ∧
        fr.val R x = fr.val R d.CardinalityInv * fr.val R d.GeneratorSqRtInv ^ i) := by
  constructor
  · obtain ⟨t, ht, hl, hget⟩ := asyncExpTable_spec P R scale w table (by omega)
    obtain ⟨t', ht', hl', hget'⟩ := asyncExpTable_spec P R scale w table' (by omega)
    refine ⟨t, t', ht, ht', by omega, by omega, ?_, ?_, ?_⟩
    · rw [hget 0, if_neg (by omega)]
    · rw [hget' 0, if_neg (by omega)]
    · intro i h1 h2
      rw [hget i, hget' i, if_pos ⟨h1, by omega⟩, if_pos ⟨h1, by omega⟩]
      exact ⟨rfl, rfl⟩
  · have e1 := asyncExpTable_eq P R d.CardinalityInv d.GeneratorSqRt
      ((List.replicate n (0 : F)).set 0 d.CardinalityInv)
      (by simpa using hn) (by rw [List.getElem?_set_self (by simp; omega)])
    have e2 := asyncExpTable_eq P R d.CardinalityInv d.GeneratorSqRtInv
      ((List.range n).map (expEntry R d.CardinalityInv d.GeneratorSqRt))
      (by simpa using hn)
      (by rw [List.getElem?_map, List.getElem?_range (by omega)]; simp [expEntry_zero])
    simp only [List.length_set, List.length_replicate, List.length_map,
      List.length_range] at e1 e2
    refine ⟨_, _, e1, e2, by simp, ?_⟩
    intro i hi
    refine ⟨expEntry R d.CardinalityInv d.GeneratorSqRtInv i, ?_, fr.val_expEntry R _ _ i⟩
    rw [List.getElem?_map, List.getElem?_range hi]
    rfl

/-- Concrete instance of C18: two tables of length 3 over `ZMod 5`, two workers. -/
theorem asyncExpTable_overwrites_tail_witness :
    (∃ t t', asyncExpTable 2 (1 : (ZMod 5)ˣ) 3 2 [3, 0, 0] = some t ∧
      asyncExpTable 2 (1 : (ZMod 5)ˣ) 3 2 [4, 1, 2] = some t' ∧
      t.length = 3 ∧ t'.length = 3 ∧ t[0]? = [(3 : ZMod 5), 0, 0][0]? ∧
      t'[0]? = [(4 : ZMod 5), 1, 2][0]? ∧
      ∀ i, 1 ≤ i → i < 3 →
        t[i]? = some (expEntry (1 : (ZMod 5)ˣ) 3 2 i) ∧ t'[i]? = t[i]?) ∧
    (∃ t1 t2, asyncExpTable 2 (1 : (ZMod 5)ˣ) exampleDomain.CardinalityInv
        exampleDomain.GeneratorSqRt
        ((List.replicate 3 (0 : ZMod 5)).set 0 exampleDomain.CardinalityInv) = some t1 ∧
      asyncExpTable 2 (1 : (ZMod 5)ˣ) exampleDomain.CardinalityInv
        exampleDomain.GeneratorSqRtInv t1 = some t2 ∧
      t2.length = 3 ∧
      ∀ i, i < 3 → ∃ x, t2[i]? = some x ∧
        fr.val (1 : (ZMod 5)ˣ) x = fr.val (1 : (ZMod 5)ˣ) exampleDomain.CardinalityInv *
          fr.val (1 : (ZMod 5)ˣ) exampleDomain.GeneratorSqRtInv ^ i) :=
  asyncExpTable_overwrites_tail 2 (1 : (ZMod 5)ˣ) 3 2 3 [3, 0, 0] [4, 1, 2] exampleDomain
    (by decide) (by decide) rfl rfl

end ExpTableFrame

/-! ### The chunks of the exponent table -/

/-- The chunks of the loop of `asyncExpTable` started at loop variable `i ≤ n`: they follow one
another from `i` to `n`, each is non-empty and ends at `min (start + interval) n`, and there
are `⌈(n - i) / interval⌉` of them. -/
theorem asyncExpTableChunks_chain (interval n : Nat) (hpos : 0 < interval) :
    ∀ (k i : Nat), n - i ≤ k → i ≤ n →
      ChainFromTo i (asyncExpTableChunks interval n hpos i) n ∧
      (∀ r ∈ asyncExpTableChunks interval n hpos i, r.1 < r.2 ∧ r.2 = min (r.1 + interval) n) ∧
      (asyncExpTableChunks interval n hpos i).length = (n - i + interval - 1) / interval := by
  intro k
  induction k with
  | zero =>
    intro i hk hi
    have hin : i = n := by omega
    subst hin
    rw [asyncExpTableChunks_of_ge _ _ _ _ (le_refl _)]
    refine ⟨rfl, by simp, ?_⟩
    rw [Nat.sub_self, Nat.zero_add, List.length_nil]
    exact (Nat.div_eq_of_lt (by omega)).symm
  | succ k ih =>
    intro i hk hi
    by_cases hin : n ≤ i
    · have hin : i = n := by omega
      subst hin
      rw [asyncExpTableChunks_of_ge _ _ _ _ (le_refl _)]
      refine ⟨rfl, by simp, ?_⟩
      rw [Nat.sub_self, Nat.zero_add, List.length_nil]
      exact (Nat.div_eq_of_lt (by omega)).symm
    · have hlt : i < n := by omega
      rw [asyncExpTableChunks_of_lt _ _ _ _ hlt]
      have hdiv : (n - i + interval - 1) / interval = (n - i - 1) / interval + 1 := by
        rw [show n - i + interval - 1 = (n - i - 1) + interval by omega]
        exact Nat.add_div_right _ hpos
      by_cases hov : i + interval > n
      · rw [if_pos hov, asyncExpTableChunks_of_ge _ _ _ _ (by omega)]
        refine ⟨⟨rfl, le_of_lt hlt, rfl⟩, ?_, ?_⟩
        · intro r hr
          rw [List.mem_singleton] at hr
          subst hr
          exact ⟨hlt, by simp only; omega⟩
        · rw [hdiv, Nat.div_eq_of_lt (by omega)]
          rfl
      · rw [if_neg hov]
        obtain ⟨h1, h2, h3⟩ := ih (i + interval) (by omega) (by omega)
        refine ⟨⟨rfl, by simp only; omega, h1⟩, ?_, ?_⟩
        · intro r hr
          rcases List.mem_cons.mp hr with rfl | hmem
          · exact ⟨by simp only; omega, by simp only; omega⟩
          · exact h2 r hmem
        · rw [List.length_cons, h3, hdiv]
          congr 2
          omega

/-- C19. The chunking loop of `asyncExpTable` stops and its chunks partition the tail: for
a table of length `n ≥ 1` and `P ≥ 1` CPUs, with `interval = (n - 1) / P` and
`ratioExpMul = 92`, when `interval < 92` exactly one worker is started, on `table[1:]`; when
`interval ≥ 92` the step of the loop is positive, the loop runs `⌈(n - 1) / interval⌉`
iterations, and its ranges `[i, min (i + interval) n)` are non-empty, start at 1, follow one
another up to `n`, are pairwise disjoint, and every index of `[1, n)` lies in exactly one of
them and no other index in any. -/
theorem asyncExpTable_chunks_partition (P n : Nat) (_hn : 1 ≤ n) (_hP : 1 ≤ P) :
    ratioExpMul = 92 ∧
    ((n - 1) / P < 92 → asyncExpTableWorkers P n = [(1, n)]) ∧
    (92 ≤ (n - 1) / P →
      (∃ hpos : 0 < (n - 1) / P,
        asyncExpTableWorkers P n = asyncExpTableChunks ((n - 1) / P) n hpos 1) ∧
      (asyncExpTableWorkers P n).length = (n - 1 + (n - 1) / P - 1) / ((n - 1) / P) ∧
      (∀ r ∈ asyncExpTableWorkers P n, r.1 < r.2 ∧ r.2 = min (r.1 + (n - 1) / P) n) ∧
      (∀ r, (asyncExpTableWorkers P n).head? = some r → r.1 = 1) ∧
      List.Chain' (fun r r' => r.2 = r'.1) (asyncExpTableWorkers P n) ∧
      (∀ r, (asyncExpTableWorkers P n).getLast? = some r → r.2 = n) ∧
      List.Pairwise (fun r r' => r.2 ≤ r'.1) (asyncExpTableWorkers P n) ∧
      (∀ i, 1 ≤ i → i < n →
        (asyncExpTableWorkers P n).countP (fun r => decide (r.1 ≤ i ∧ i < r.2)) = 1) ∧
      (∀ i, i < 1 ∨ n ≤ i →
        (asyncExpTableWorkers P n).countP (fun r => decide (r.1 ≤ i ∧ i < r.2)) = 0)) := by
  have h92 : ratioExpMul = 92 := by decide
  refine ⟨h92, ?_, ?_⟩
  · intro h
    unfold asyncExpTableWorkers
    rw [← h92] at h
    simp only [h, dif_pos]
  · intro h
    have hpos : 0 < (n - 1) / P := by omega
    have hnot : ¬ (n - 1) / P < ratioExpMul := by rw [h92]; omega
    have hw : asyncExpTableWorkers P n = asyncExpTableChunks ((n - 1) / P) n hpos 1 := by
      unfold asyncExpTableWorkers
      simp only [hnot, dif_neg, not_false_eq_true]
    obtain ⟨hc, hne, hlen⟩ :=
      asyncExpTableChunks_chain ((n - 1) / P) n hpos (n - 1) 1 (le_refl _) _hn
    rw [hw]
    refine ⟨⟨hpos, rfl⟩, hlen, hne, hc.head, hc.chain, hc.last, hc.pairwise, ?_, ?_⟩
    · intro i h1 h2
      rw [hc.count_eq i, if_pos ⟨h1, h2⟩]
    · intro i hi
      rw [hc.count_eq i, if_neg (by omega)]

/-- Concrete instance of C19: a table of length 200 on 2 CPUs, `interval = 99`. -/
theorem asyncExpTable_chunks_partition_witness :
    ratioExpMul = 92 ∧
    ((200 - 1) / 2 < 92 → asyncExpTableWorkers 2 200 = [(1, 200)]) ∧
    (92 ≤ (200 - 1) / 2 →
      (∃ hpos : 0 < (200 - 1) / 2,
        asyncExpTableWorkers 2 200 = asyncExpTableChunks ((200 - 1) / 2) 200 hpos 1) ∧
      (asyncExpTableWorkers 2 200).length = (200 - 1 + (200 - 1) / 2 - 1) / ((200 - 1) / 2) ∧
      (∀ r ∈ asyncExpTableWorkers 2 200, r.1 < r.2 ∧ r.2 = min (r.1 + (200 - 1) / 2) 200) ∧
      (∀ r, (asyncExpTableWorkers 2 200).head? = some r → r.1 = 1) ∧
      List.Chain' (fun r r' => r.2 = r'.1) (asyncExpTableWorkers 2 200) ∧
      (∀ r, (asyncExpTableWorkers 2 200).getLast? = some r → r.2 = 200) ∧
      List.Pairwise (fun r r' => r.2 ≤ r'.1) (asyncExpTableWorkers 2 200) ∧
      (∀ i, 1 ≤ i → i < 200 →
        (asyncExpTableWorkers 2 200).countP (fun r => decide (r.1 ≤ i ∧ i < r.2)) = 1) ∧
      (∀ i, i < 1 ∨ 200 ≤ i →
        (asyncExpTableWorkers 2 200).countP (fun r => decide (r.1 ≤ i ∧ i < r.2)) = 0)) :=
  asyncExpTable_chunks_partition 2 200 (by decide) (by decide)

/-! ### The passes of `computeH` -/

section CosetPass

open Polynomial

variable {F : Type} [Field F]

/-- Two polynomials of degree below `N` that agree at every `ω ^ j`, `j < N`, are equal. -/
theorem interpolant_unique {N : ℕ} {ω : F} (hω : IsPrimitiveRoot ω N) (V W : F[X])
    (hV : V.degree < N) (hW : W.degree < N)
    (h : ∀ j, j < N → V.eval (ω ^ j) = W.eval (ω ^ j)) : V = W := by
  have hinj : Set.InjOn (fun j : ℕ => ω ^ j) (↑(Finset.range N) : Set ℕ) := by
    intro i hi j hj hij
    exact hω.pow_inj (by simpa using hi) (by simpa using hj) hij
  have hdeg : (V - W).degree < ((Finset.range N).card : WithBot ℕ) := by
    rw [Finset.card_range]
    exact lt_of_le_of_lt (degree_sub_le V W) (max_lt hV hW)
  have hev : ∀ i ∈ Finset.range N, (V - W).eval ((fun j : ℕ => ω ^ j) i) = 0 := by
    intro j hj
    rw [eval_sub, h j (Finset.mem_range.mp hj), sub_self]
  exact sub_eq_zero.mp
    (Polynomial.eq_zero_of_degree_lt_of_eval_index_eq_zero (Finset.range N) hinj hdeg hev)

/-- C14. After the first pass the vectors hold coset evaluations: for a consistent domain of
cardinality `n = 2 ^ k ≥ 2` with generator `ω` and `γ = √ω`, the first call of `asyncExpTable`
in `computeH` returns the table whose entry `i` denotes `n⁻¹ * γ ^ i`, and for every vector `v`
of length `n` the closure `FFTa` (FFT by `ω⁻¹`, product entry by entry with the table, FFT by
`ω`, with `FFT` the natural-order transform) returns a vector of length `n` whose entry `i`
denotes `V(γ * ω ^ i)`, for every `i < n`, where `V` is the polynomial of degree `< n` with
`V(ω ^ j) = v[j]` for every `j < n`; such a polynomial is unique. -/
theorem FFTa_evaluates_on_coset (P : Nat) (hP : 1 ≤ P) (R : Fˣ) (d : Domain F) (k : Nat)
    (hk : 1 ≤ k) (hcard : d.Cardinality = 2 ^ k) (ω γ : F) (hd : d.Consistent R ω γ)
    (v : List F) (hv : v.length = d.Cardinality)
    (V : F[X]) (hV : V.degree < d.Cardinality)
    (hVe : ∀ j, j < d.Cardinality → V.eval (ω ^ j) = fr.val R (v.getD j 0)) :
    ∃ expTable, asyncExpTable P R d.CardinalityInv d.GeneratorSqRt
        ((List.replicate d.Cardinality (0 : F)).set 0 d.CardinalityInv) = some expTable ∧
      (∀ i, i < d.Cardinality →
        fr.val R (expTable.getD i 0) = (d.Cardinality : F)⁻¹ * γ ^ i) ∧
      (FFTa P R d d.Cardinality expTable v).length = d.Cardinality ∧
      (∀ i, i < d.Cardinality →
        fr.val R ((FFTa P R d d.Cardinality expTable v).getD i 0) = V.eval (γ * ω ^ i)) ∧
      ∀ W : F[X], W.degree < d.Cardinality →
        (∀ j, j < d.Cardinality → W.eval (ω ^ j) = fr.val R (v.getD j 0)) → W = V := by
  have hprim : IsPrimitiveRoot ω (2 ^ k) := by
    have := hd.prim
    rwa [hcard] at this
  have h2 : (2 : F) ≠ 0 := two_ne_zero_of_primitive hk hprim
  have hN2 : 2 ≤ d.Cardinality := by
    rw [hcard]
    calc 2 = 2 ^ 1 := rfl
      _ ≤ 2 ^ k := Nat.pow_le_pow_right (by decide) hk
  have hNF : (d.Cardinality : F) ≠ 0 := by
    rw [hcard]
    push_cast
    exact pow_ne_zero _ h2
  have hVn := natDegree_lt_of_degree_lt_pos (by omega : 0 < d.Cardinality) hV
  have e1 : asyncExpTable P R d.CardinalityInv d.GeneratorSqRt
      ((List.replicate d.Cardinality (0 : F)).set 0 d.CardinalityInv) =
      some ((List.range d.Cardinality).map (expEntry R d.CardinalityInv d.GeneratorSqRt)) := by
    have := asyncExpTable_eq P R d.CardinalityInv d.GeneratorSqRt
      ((List.replicate d.Cardinality (0 : F)).set 0 d.CardinalityInv)
      (by simpa using hN2) (by rw [List.getElem?_set_self (by simp; omega)])
    simpa using this
  refine ⟨_, e1, ?_, ?_, ?_, ?_⟩
  · intro i hi
    rw [getD_map_range _ _ _ hi, fr.val_expEntry, hd.cardInv, hd.sqrt]
  · rw [FFTa_eq_of_length P hP R d v _ hv, FFTaClosed_length, hv]
  · intro i hi
    rw [FFTa_eq_of_length P hP R d v _ hv]
    exact val_FFTaClosed R d ω γ hd hNF v hv V hVn hVe i hi
  · intro W hW hWe
    apply interpolant_unique hd.prim W V hW hV
    intro j hj
    rw [hWe j hj, hVe j hj]

/-- Concrete instance of C14: `v = [1, 2]` over `ZMod 5`, `ω = 4`, `γ = 2`, `V = 2 X + 4`. -/
theorem FFTa_evaluates_on_coset_witness :
    ∃ expTable, asyncExpTable 2 (1 : (ZMod 5)ˣ) exampleDomain.CardinalityInv
        exampleDomain.GeneratorSqRt
        ((List.replicate exampleDomain.Cardinality (0 : ZMod 5)).set 0
          exampleDomain.CardinalityInv) = some expTable ∧
      (∀ i, i < exampleDomain.Cardinality →
        fr.val (1 : (ZMod 5)ˣ) (expTable.getD i 0) =
          ((exampleDomain.Cardinality : ℕ) : ZMod 5)⁻¹ * 2 ^ i) ∧
      (FFTa 2 (1 : (ZMod 5)ˣ) exampleDomain exampleDomain.Cardinality expTable [1, 2]).length
        = exampleDomain.Cardinality ∧
      (∀ i, i < exampleDomain.Cardinality →
        fr.val (1 : (ZMod 5)ˣ)
            ((FFTa 2 (1 : (ZMod 5)ˣ) exampleDomain exampleDomain.Cardinality expTable
              [1, 2]).getD i 0) =
          (Polynomial.C 2 * X + Polynomial.C 4 : (ZMod 5)[X]).eval (2 * 4 ^ i)) ∧
      ∀ W : (ZMod 5)[X], W.degree < exampleDomain.Cardinality →
        (∀ j, j < exampleDomain.Cardinality →
          W.eval (4 ^ j) = fr.val (1 : (ZMod 5)ˣ) ([(1 : ZMod 5), 2].getD j 0)) →
        W = Polynomial.C 2 * X + Polynomial.C 4 :=
  FFTa_evaluates_on_coset 2 (by decide) (1 : (ZMod 5)ˣ) exampleDomain 1 (le_refl 1) rfl 4 2
    exampleDomain_consistent [1, 2] rfl (Polynomial.C 2 * X + Polynomial.C 4)
    (Polynomial.degree_linear_lt)
    (by
      intro i hi
      have hi2 : i < 2 := hi
      interval_cases i <;> simp [fr.val] <;> decide)

/-- C15. The vanishing polynomial is the constant `-2` on the coset: in a field where
`2 ≠ 0`, for `n ≥ 1`, `g` with `g ^ n = -1` and `x` with `x ^ n = 1`,
`(g * x) ^ n - 1 = -2`; the constant `minusTwoInv = Inverse(Neg(2))` of `computeH` denotes a
value with `minusTwoInv * (-2) = 1` and `minusTwoInv = -(2⁻¹)`; so the body
`(a[i] * b[i] - c[i]) * minusTwoInv` of the pointwise pass denotes
`(a[i] * b[i] - c[i]) / z(g * x)` with `z(X) = X ^ n - 1`. -/
theorem vanishing_on_coset_is_minus_two (R : Fˣ) (n : Nat) (g x a b c : F)
    (h2 : (2 : F) ≠ 0) (_hn : 1 ≤ n) (hg : g ^ n = -1) (hx : x ^ n = 1) :
    (g * x) ^ n - 1 = -2 ∧
    fr.val R (fr.Inverse R (fr.Neg (fr.SetUint64 R 2))) * (-2) = 1 ∧
    fr.val R (fr.Inverse R (fr.Neg (fr.SetUint64 R 2))) = -(2 : F)⁻¹ ∧
    fr.val R (fr.Mul R (fr.Sub (fr.Mul R a b) c) (fr.Inverse R (fr.Neg (fr.SetUint64 R 2)))) =
      (fr.val R a * fr.val R b - fr.val R c) / ((g * x) ^ n - 1) := by
  have hz : (g * x) ^ n - 1 = -2 := by
    rw [mul_pow, hg, hx]
    ring
  have hm2 : (-2 : F) ≠ 0 := neg_ne_zero.mpr h2
  refine ⟨hz, ?_, ?_, ?_⟩
  · rw [fr.val_minusTwoInv, inv_mul_cancel₀ hm2]
  · rw [fr.val_minusTwoInv, inv_neg]
  · rw [fr.val_Mul, fr.val_Sub, fr.val_Mul, fr.val_minusTwoInv, hz, div_eq_mul_inv]

/-- Concrete instance of C15: `ZMod 5`, `n = 2`, `g = 2`, `x = 4`. -/
theorem vanishing_on_coset_is_minus_two_witness :
    ((2 : ZMod 5) * 4) ^ 2 - 1 = -2 ∧
    fr.val (1 : (ZMod 5)ˣ) (fr.Inverse 1 (fr.Neg (fr.SetUint64 1 2))) * (-2) = 1 ∧
    fr.val (1 : (ZMod 5)ˣ) (fr.Inverse 1 (fr.Neg (fr.SetUint64 1 2))) = -(2 : ZMod 5)⁻¹ ∧
    fr.val (1 : (ZMod 5)ˣ)
        (fr.Mul 1 (fr.Sub (fr.Mul 1 3 4) 1) (fr.Inverse 1 (fr.Neg (fr.SetUint64 1 2)))) =
      (fr.val (1 : (ZMod 5)ˣ) 3 * fr.val (1 : (ZMod 5)ˣ) 4 - fr.val (1 : (ZMod 5)ˣ) 1) /
        (((2 : ZMod 5) * 4) ^ 2 - 1) :=
  vanishing_on_coset_is_minus_two (1 : (ZMod 5)ˣ) 2 2 4 3 4 1 (by decide) (by decide)
    (by decide) (by decide)

end CosetPass

section FusedPass

variable {F : Type} [Field F]

/-- A stored table entry that denotes `n⁻¹ * g ^ i` is the residue `expEntry`. -/
theorem expEntry_of_val (R : Fˣ) (scale g e : F) (i : Nat)
    (h : fr.val R e = fr.val R scale * fr.val R g ^ i) : e = expEntry R scale g i := by
  unfold fr.val at h
  unfold expEntry
  have hR : ((↑R⁻¹ : F)) ≠ 0 := Units.ne_zero _
  apply mul_right_cancel₀ hR
  rw [h]
  ring

/-- One entry of the fused pass and of the two unfused passes. -/
theorem fused_entry (R : Fˣ) (ninv g y : F) (i : Nat) :
    fr.Mul R (fr.Mul R y ninv) (fr.Exp R g i) = fr.Mul R y (expEntry R ninv g i) := by
  rw [fr.Exp_eq]
  unfold fr.Mul expEntry
  have hρ : (↑R⁻¹ : F) * ↑R = 1 := R.inv_mul
  linear_combination (y * ninv * (g * ↑R⁻¹) ^ i * ↑R⁻¹) * hρ

/-- The two unfused passes, entry by entry. -/
theorem unfusedTablePass_eq (R : Fˣ) (d : Domain F) (g : F) (s : List F) :
    unfusedTablePass R d g s =
      (List.range s.length).map fun i =>
        fr.Mul R (s.getD i 0) (expEntry R d.CardinalityInv g i) := by
  unfold unfusedTablePass cosetShift scaleByCardinalityInv
  rw [List.length_map]
  apply List.map_congr_left
  intro i hi
  have hi2 : i < s.length := List.mem_range.mp hi
  rw [List.getD_eq_getElem _ _ (by rw [List.length_map]; exact hi2), List.getElem_map,
    List.getD_eq_getElem _ _ hi2]
  exact fused_entry R d.CardinalityInv g _ i

/-- C16. The fused table pass equals the two unfused passes: for every function `fft`, every
vector `v` whose transform `fft(v, ω⁻¹)` has length `n`, every worker count `P ≥ 1`, every base
`g` and every table whose entry `i` denotes `n⁻¹ * g ^ i` for `i < n`, the pass of `FFTa`, one
product entry by entry with the table, returns the vector that scaling every entry by `n⁻¹`
and then multiplying entry `i` by `g ^ i` returns; and the final pass of `computeH`, the
product with the table followed by `FromMont`, returns what the two unfused passes followed by
`FromMont` return.  The base is any `g`: the first pass has `g = √ω`, the final one
`g = √ω⁻¹`. -/
theorem fused_pass_eq_unfused (P : Nat) (hP : 1 ≤ P) (R : Fˣ) (d : Domain F) (n : Nat)
    (g : F) (fft : List F → F → List F) (v expTable : List F)
    (hlen : (fft v d.GeneratorInv).length = n)
    (hT : ∀ i, i < n →
      fr.val R (expTable.getD i 0) = fr.val R d.CardinalityInv * fr.val R g ^ i) :
    execute P n (pointwiseWork fun i x => fr.Mul R x (expTable.getD i 0))
        (fft v d.GeneratorInv) = unfusedTablePass R d g (fft v d.GeneratorInv) ∧
    execute P n (pointwiseWork fun i x => fr.FromMont R (fr.Mul R x (expTable.getD i 0)))
        (fft v d.GeneratorInv) = unfusedFinalPass R d g (fft v d.GeneratorInv) := by
  have hE : ∀ i, i < n → expTable.getD i 0 = expEntry R d.CardinalityInv g i :=
    fun i hi => expEntry_of_val R _ _ _ i (hT i hi)
  constructor
  · rw [execute_pointwise_of_length P hP _ _ n hlen, unfusedTablePass_eq, hlen]
    apply List.map_congr_left
    intro i hi
    rw [hE i (List.mem_range.mp hi)]
  · rw [execute_pointwise_of_length P hP _ _ n hlen]
    unfold unfusedFinalPass
    rw [unfusedTablePass_eq, hlen, List.map_map]
    apply List.map_congr_left
    intro i hi
    rw [hE i (List.mem_range.mp hi)]
    rfl

/-- Concrete instance of C16: `ZMod 5`, `n = 2`, `g = 2`, the table `[3, 1]`, on the transform
of `[1, 2]`. -/
theorem fused_pass_eq_unfused_witness :
    execute 2 2 (pointwiseWork fun i x => fr.Mul (1 : (ZMod 5)ˣ) x ([3, 1].getD i 0))
        (FFT (1 : (ZMod 5)ˣ) [1, 2] exampleDomain.GeneratorInv) =
      unfusedTablePass (1 : (ZMod 5)ˣ) exampleDomain 2
        (FFT (1 : (ZMod 5)ˣ) [1, 2] exampleDomain.GeneratorInv) ∧
    execute 2 2
        (pointwiseWork fun i x =>
          fr.FromMont (1 : (ZMod 5)ˣ) (fr.Mul (1 : (ZMod 5)ˣ) x ([3, 1].getD i 0)))
        (FFT (1 : (ZMod 5)ˣ) [1, 2] exampleDomain.GeneratorInv) =
      unfusedFinalPass (1 : (ZMod 5)ˣ) exampleDomain 2
        (FFT (1 : (ZMod 5)ˣ) [1, 2] exampleDomain.GeneratorInv) :=
  fused_pass_eq_unfused 2 (by decide) (1 : (ZMod 5)ˣ) exampleDomain 2 2
    (FFT (1 : (ZMod 5)ˣ)) [1, 2] [3, 1] rfl
    (by
      intro i hi
      interval_cases i <;>
        first
        | (simp [fr.val, exampleDomain]; done)
        | (simp [fr.val, exampleDomain]; decide))

end FusedPass

/-! ### The shape of the proving key -/

section KeyShape

variable {F E1 E2 ε S : Type} [Field F] [AddCommGroup E1] [Module F E1] [AddCommGroup E2]
  [Module F E2]

/-- C11, amended. `Prove` does not check the shape of the proving key and has no
key-shape-mismatch error: for every worker count `P ≥ 1`, every error that `Prove` returns is the
error that `Solve` returned; when `Solve` succeeds, a key whose `G1.K` has a capacity below
`NbWires - NbPublicWires` makes `Prove` fail on the out-of-range slice expression
`G1.K[:nbPrivateWires]`, and a key whose `G1.K` has a capacity of at least
`NbWires - NbPublicWires`, whatever its length is, the other lengths agreeing with the counts,
gets a proof (domain of cardinality at least 2, each completion signal arriving once). -/
theorem Prove_has_no_key_shape_check (P : Nat) (hP : 1 ≤ P) (R : Fˣ)
    (NewDomain : Nat → Domain F) (rnd1 rnd2 : F) (arrivals : List KrsEvent)
    (r1cs : R1CS ε S F) (pk : ProvingKey E1 E2) (solution : S) :
    (∀ e, (Prove P R NewDomain rnd1 rnd2 arrivals r1cs pk solution).outcome = .error e →
      r1cs.Solve solution = .error e) ∧
    (∀ sol, r1cs.NbConstraints ≤ (NewDomain r1cs.NbConstraints).Cardinality →
      r1cs.Solve solution = .ok sol →
      pk.G1.K.length + pk.G1.KSpare.length < r1cs.NbWires - r1cs.NbPublicWires →
      (Prove P R NewDomain rnd1 rnd2 arrivals r1cs pk solution).outcome = .panic) ∧
    (∀ sol, r1cs.NbConstraints ≤ (NewDomain r1cs.NbConstraints).Cardinality →
      2 ≤ (NewDomain r1cs.NbConstraints).Cardinality →
      r1cs.Solve solution = .ok sol →
      r1cs.NbPublicWires ≤ r1cs.NbWires →
      r1cs.NbWires - r1cs.NbPublicWires ≤ pk.G1.K.length + pk.G1.KSpare.length →
      pk.G1.A.length = r1cs.NbWires → pk.G1.B.length = r1cs.NbWires →
      pk.G2.B.length = r1cs.NbWires →
      pk.G1.Z.length = (NewDomain r1cs.NbConstraints).Cardinality →
      arrivals ∈ [KrsEvent.krs2Done, KrsEvent.arDone, KrsEvent.bs1Done].permutations →
      ∃ proof,
        (Prove P R NewDomain rnd1 rnd2 arrivals r1cs pk solution).outcome = .ok proof) := by
  refine ⟨?_, ?_, ?_⟩
  · intro e h
    exact Prove_error_inv P hP R NewDomain rnd1 rnd2 arrivals r1cs pk solution e h
  · intro sol hdom hsolve hK
    exact Prove_panics_of_short_K P hP R NewDomain rnd1 rnd2 arrivals r1cs pk solution sol hdom
      hsolve hK
  · intro sol hdom hN hsolve hpub hK hA hB hB2 hZ harr
    exact Prove_returns_proof P hP R NewDomain rnd1 rnd2 arrivals r1cs pk solution sol hdom hN
      hsolve hpub hK (le_of_eq hA.symm) (le_of_eq hB.symm) (le_of_eq hZ.symm) hB2
      (List.mem_permutations.mp harr)

end KeyShape

/-- Concrete instance of the amended C11: `exampleR1CS` with `exampleLongKey`, whose `G1.K` has
3 points for 2 private wires: `Prove` returns a proof, and no run on this input returns an
error. -/
theorem Prove_has_no_key_shape_check_witness :
    (∀ e, (Prove 2 (1 : (ZMod 5)ˣ) (fun _ => exampleDomain) 2 3
        [KrsEvent.bs1Done, KrsEvent.krs2Done, KrsEvent.arDone] exampleR1CS exampleLongKey
        ()).outcome = .error e → exampleR1CS.Solve () = .error e) ∧
    exampleLongKey.G1.K.length ≠ exampleR1CS.NbWires - exampleR1CS.NbPublicWires ∧
    ∃ proof, (Prove 2 (1 : (ZMod 5)ˣ) (fun _ => exampleDomain) 2 3
        [KrsEvent.bs1Done, KrsEvent.krs2Done, KrsEvent.arDone] exampleR1CS exampleLongKey
        ()).outcome = .ok proof := by
  have h := Prove_has_no_key_shape_check 2 (by decide) (1 : (ZMod 5)ˣ)
    (fun _ => exampleDomain) 2 3 [KrsEvent.bs1Done, KrsEvent.krs2Done, KrsEvent.arDone]
    exampleR1CS exampleLongKey ()
  exact ⟨h.1, by decide,
    h.2.2
      { a := fun i => [1, 2].getD i 0, b := fun i => [3, 4].getD i 0,
        c := fun i => [3, 3].getD i 0, wireValues := fun i => [1, 2, 3].getD i 0 }
      (by decide) (by decide) rfl (by decide) (by decide) rfl rfl rfl rfl
      (List.mem_permutations.mpr (by decide))⟩

/-- C11, counterexample. The key `exampleLongKey` has 3 points in `G1.K` while `exampleR1CS`
has `3 - 1 = 2` private wires, and `Prove` returns a proof; the key `exampleSpareKey` has 1 point
in `G1.K`, of capacity 2, and `Prove` returns a proof; the key `exampleShortKey` has no point in
`G1.K`, of capacity 0, and `Prove` fails on the out-of-range slice expression: no run returns an
error. -/
theorem Prove_accepts_mismatched_key :
    exampleLongKey.G1.K.length ≠ exampleR1CS.NbWires - exampleR1CS.NbPublicWires ∧
    (∃ proof, (Prove 2 (1 : (ZMod 5)ˣ) (fun _ => exampleDomain) 2 3
      [KrsEvent.bs1Done, KrsEvent.krs2Done, KrsEvent.arDone] exampleR1CS exampleLongKey
      ()).outcome = .ok proof) ∧
    exampleSpareKey.G1.K.length ≠ exampleR1CS.NbWires - exampleR1CS.NbPublicWires ∧
    (∃ proof, (Prove 2 (1 : (ZMod 5)ˣ) (fun _ => exampleDomain) 2 3
      [KrsEvent.bs1Done, KrsEvent.krs2Done, KrsEvent.arDone] exampleR1CS exampleSpareKey
      ()).outcome = .ok proof) ∧
    exampleShortKey.G1.K.length ≠ exampleR1CS.NbWires - exampleR1CS.NbPublicWires ∧
    (Prove 2 (1 : (ZMod 5)ˣ) (fun _ => exampleDomain) 2 3
      [KrsEvent.bs1Done, KrsEvent.krs2Done, KrsEvent.arDone] exampleR1CS exampleShortKey
      ()).outcome = .panic := by
  refine ⟨by decide, ?_, by decide, ?_, by decide, ?_⟩
  · exact Prove_returns_proof 2 (by decide) (1 : (ZMod 5)ˣ) (fun _ => exampleDomain) 2 3
      [KrsEvent.bs1Done, KrsEvent.krs2Done, KrsEvent.arDone] exampleR1CS exampleLongKey ()
      { a := fun i => [1, 2].getD i 0, b := fun i => [3, 4].getD i 0,
        c := fun i => [3, 3].getD i 0, wireValues := fun i => [1, 2, 3].getD i 0 }
      (by decide) (by decide) rfl (by decide) (by decide) (by decide) (by decide) (by decide)
      rfl (by decide)
  · exact Prove_returns_proof 2 (by decide) (1 : (ZMod 5)ˣ) (fun _ => exampleDomain) 2 3
      [KrsEvent.bs1Done, KrsEvent.krs2Done, KrsEvent.arDone] exampleR1CS exampleSpareKey ()
      { a := fun i => [1, 2].getD i 0, b := fun i => [3, 4].getD i 0,
        c := fun i => [3, 3].getD i 0, wireValues := fun i => [1, 2, 3].getD i 0 }
      (by decide) (by decide) rfl (by decide) (by decide) (by decide) (by decide) (by decide)
      rfl (by decide)
  · exact Prove_panics_of_short_K 2 (by decide) (1 : (ZMod 5)ˣ) (fun _ => exampleDomain) 2 3
      [KrsEvent.bs1Done, KrsEvent.krs2Done, KrsEvent.arDone] exampleR1CS exampleShortKey ()
      { a := fun i => [1, 2].getD i 0, b := fun i => [3, 4].getD i 0,
        c := fun i => [3, 3].getD i 0, wireValues := fun i => [1, 2, 3].getD i 0 }
      (by decide) rfl (by decide)

/-! ### Montgomery and regular form -/

section RegularForm

open Polynomial

variable {F E1 E2 ε S : Type} [Field F] [AddCommGroup E1] [Module F E1] [AddCommGroup E2]
  [Module F E2]

/-- The entries of the vector that `computeH` returns are, as stored, the coefficients of the
quotient of `A * B - C` by `X ^ n - 1`. -/
theorem computeH_entries (P : Nat) (hP : 1 ≤ P) (R : Fˣ) (d : Domain F) (k : Nat)
    (hk : 1 ≤ k) (hcard : d.Cardinality = 2 ^ k) (ω γ : F) (hd : d.Consistent R ω γ)
    (a b c : List F) (hb : a.length = b.length) (hc : a.length = c.length)
    (hm : a.length ≤ d.Cardinality)
    (habc : ∀ i, i < a.length →
      fr.val R (a.getD i 0) * fr.val R (b.getD i 0) = fr.val R (c.getD i 0))
    (A B C : F[X]) (hA : A.degree < d.Cardinality) (hB : B.degree < d.Cardinality)
    (hC : C.degree < d.Cardinality)
    (hAe : ∀ i, i < d.Cardinality →
      A.eval (ω ^ i) = fr.val R ((padTo d.Cardinality a).getD i 0))
    (hBe : ∀ i, i < d.Cardinality →
      B.eval (ω ^ i) = fr.val R ((padTo d.Cardinality b).getD i 0))
    (hCe : ∀ i, i < d.Cardinality →
      C.eval (ω ^ i) = fr.val R ((padTo d.Cardinality c).getD i 0)) :
    ∃ H, computeH P R a b c d = some H ∧ H.length = d.Cardinality ∧
      A * B - C = ((A * B - C) /ₘ (X ^ d.Cardinality - 1)) * (X ^ d.Cardinality - 1) ∧
      ∀ i, i < d.Cardinality →
        H.getD i 0 = ((A * B - C) /ₘ (X ^ d.Cardinality - 1)).coeff i := by
  have hprim : IsPrimitiveRoot ω (2 ^ k) := by
    have := hd.prim
    rwa [hcard] at this
  have h2 : (2 : F) ≠ 0 := two_ne_zero_of_primitive hk hprim
  have hN2 : 2 ≤ d.Cardinality := by
    rw [hcard]
    calc 2 = 2 ^ 1 := rfl
      _ ≤ 2 ^ k := Nat.pow_le_pow_right (by decide) hk
  have hNF : (d.Cardinality : F) ≠ 0 := by
    rw [hcard]
    push_cast
    exact pow_ne_zero _ h2
  have hAn := natDegree_lt_of_degree_lt_pos (by omega : 0 < d.Cardinality) hA
  have hBn := natDegree_lt_of_degree_lt_pos (by omega : 0 < d.Cardinality) hB
  have hCn := natDegree_lt_of_degree_lt_pos (by omega : 0 < d.Cardinality) hC
  have hvanish : ∀ j, j < d.Cardinality → (A * B - C).eval (ω ^ j) = 0 := by
    intro j hj
    rw [eval_sub, eval_mul, hAe j hj, hBe j hj, hCe j hj, padTo_getD, padTo_getD, padTo_getD]
    by_cases hjm : j < a.length
    · rw [habc j hjm, sub_self]
    · rw [List.getD_eq_default _ _ (by omega : a.length ≤ j),
        List.getD_eq_default _ _ (by omega : b.length ≤ j),
        List.getD_eq_default _ _ (by omega : c.length ≤ j), fr.val_zero]
      ring
  have hQ := vanishing_quotient hd.prim (by omega) (A * B - C) hvanish
  have hHq := quotient_natDegree_lt hN2 A B C hAn hBn hCn _ hQ
  refine ⟨_, computeH_eq P hP R a b c d hb hc hm hN2, ?_, hQ, ?_⟩
  · simp [computeHClosed, padTo_length _ _ hm]
  · intro i hi
    exact computeHClosed_getD R d ω γ hd hNF h2 _ _ _ (padTo_length _ _ hm)
      (padTo_length _ _ (by omega)) (padTo_length _ _ (by omega)) A B C _ hAn hBn hCn hHq
      hAe hBe hCe hQ i hi

/-- A second `FromMont` changes the stored residue, unless it is 0 or the Montgomery constant
is 1. -/
theorem fr.FromMont_twice (R : Fˣ) (x : F)
    (h : fr.FromMont R (fr.FromMont R x) = fr.FromMont R x) : x = 0 ∨ (↑R : F) = 1 := by
  unfold fr.FromMont at h
  have hR : ((↑R⁻¹ : F)) ≠ 0 := Units.ne_zero _
  have h1 : x * ↑R⁻¹ = x := mul_right_cancel₀ hR h
  by_cases hx : x = 0
  · exact Or.inl hx
  · right
    have h2 : (↑R⁻¹ : F) = 1 := by
      have : x * ↑R⁻¹ = x * 1 := by rw [h1, mul_one]
      exact mul_left_cancel₀ hx this
    have h3 : (↑R : F) * ↑R⁻¹ = 1 := R.mul_inv
    rw [h2, mul_one] at h3
    exact h3

/-- C17. Every scalar handed to a curve operation is in regular form, converted once.  With a
stored element modelled by its residue and `FromMont` the map from the Montgomery residue to
the regular one, in a run of `Prove` whose `Solve` succeeds (consistent domain of cardinality
`2 ^ k ≥ 2`, constraints satisfied, `A`, `B`, `C` the interpolants of the padded `a`, `b`, `c`):
the pass over the wire values applies `FromMont` once to each entry and leaves the field value
that the entry denoted; `r`, `s` and `kr` are `FromMont` of the Montgomery residues drawn and
of `Neg(Mul(r, s))`, that is the field values `r`, `s`, `-(r * s)`, and `ToBigInt` reads the
same numbers; every entry of the vector `H` that `computeH` returns is, as stored, the
coefficient of the quotient of `A * B - C` by `X ^ n - 1`; the result of `Prove` is computed by
the closures of `Prove`, whose multi-exponentiations and scalar multiplications read exactly
these residues; and a second `FromMont` would change a residue unless it is 0 or the Montgomery
constant is 1. -/
theorem scalars_in_regular_form (P : Nat) (hP : 1 ≤ P) (R : Fˣ) (NewDomain : Nat → Domain F)
    (rnd1 rnd2 : F) (arrivals : List KrsEvent) (r1cs : R1CS ε S F) (pk : ProvingKey E1 E2)
    (solution : S) (sol : SolveResult F) (k : Nat) (ω γ : F) (A B C : F[X])
    (hsolve : r1cs.Solve solution = .ok sol)
    (hdom : r1cs.NbConstraints ≤ (NewDomain r1cs.NbConstraints).Cardinality)
    (hk : 1 ≤ k) (hcard : (NewDomain r1cs.NbConstraints).Cardinality = 2 ^ k)
    (hd : (NewDomain r1cs.NbConstraints).Consistent R ω γ)
    (habc : ∀ i, i < r1cs.NbConstraints →
      fr.val R (sol.a i) * fr.val R (sol.b i) = fr.val R (sol.c i))
    (hA : A.degree < (NewDomain r1cs.NbConstraints).Cardinality)
    (hB : B.degree < (NewDomain r1cs.NbConstraints).Cardinality)
    (hC : C.degree < (NewDomain r1cs.NbConstraints).Cardinality)
    (hAe : ∀ i, i < (NewDomain r1cs.NbConstraints).Cardinality →
      A.eval (ω ^ i) = if i < r1cs.NbConstraints then fr.val R (sol.a i) else 0)
    (hBe : ∀ i, i < (NewDomain r1cs.NbConstraints).Cardinality →
      B.eval (ω ^ i) = if i < r1cs.NbConstraints then fr.val R (sol.b i) else 0)
    (hCe : ∀ i, i < (NewDomain r1cs.NbConstraints).Cardinality →
      C.eval (ω ^ i) = if i < r1cs.NbConstraints then fr.val R (sol.c i) else 0) :
    execute P ((List.range r1cs.NbWires).map sol.wireValues).length
        (pointwiseWork fun _ x => fr.FromMont R x)
        ((List.range r1cs.NbWires).map sol.wireValues) =
      ((List.range r1cs.NbWires).map sol.wireValues).map (fr.FromMont R) ∧
    ((List.range r1cs.NbWires).map sol.wireValues).map (fr.FromMont R) =
      (List.range r1cs.NbWires).map (fun i => fr.val R (sol.wireValues i)) ∧
    [fr.FromMont R rnd1, fr.FromMont R rnd2, fr.FromMont R (fr.Neg (fr.Mul R rnd1 rnd2))] =
      [fr.val R rnd1, fr.val R rnd2, -(fr.val R rnd1 * fr.val R rnd2)] ∧
    fr.ToBigInt (fr.FromMont R rnd1) = fr.val R rnd1 ∧
    fr.ToBigInt (fr.FromMont R rnd2) = fr.val R rnd2 ∧
    (∀ x : F, fr.FromMont R (fr.FromMont R x) = fr.FromMont R x → x = 0 ∨ (↑R : F) = 1) ∧
    ∃ H, computeH P R ((List.range r1cs.NbConstraints).map sol.a)
        ((List.range r1cs.NbConstraints).map sol.b)
        ((List.range r1cs.NbConstraints).map sol.c) (NewDomain r1cs.NbConstraints) = some H ∧
      H.length = (NewDomain r1cs.NbConstraints).Cardinality ∧
      A * B - C =
        ((A * B - C) /ₘ (X ^ (NewDomain r1cs.NbConstraints).Cardinality - 1)) *
          (X ^ (NewDomain r1cs.NbConstraints).Cardinality - 1) ∧
      (∀ i, i < (NewDomain r1cs.NbConstraints).Cardinality →
        H.getD i 0 =
          ((A * B - C) /ₘ (X ^ (NewDomain r1cs.NbConstraints).Cardinality - 1)).coeff i) ∧
      (Prove P R NewDomain rnd1 rnd2 arrivals r1cs pk solution).outcome =
        match
          computeBS1 pk ((List.range r1cs.NbWires).map (fun i => fr.val R (sol.wireValues i)))
            (BatchScalarMultiplicationG1 pk.G1.Delta
              [fr.val R rnd1, fr.val R rnd2, -(fr.val R rnd1 * fr.val R rnd2)]),
          computeAR1 pk ((List.range r1cs.NbWires).map (fun i => fr.val R (sol.wireValues i)))
            (BatchScalarMultiplicationG1 pk.G1.Delta
              [fr.val R rnd1, fr.val R rnd2, -(fr.val R rnd1 * fr.val R rnd2)]) with
        | some bs1, some ar =>
          match computeKRS pk r1cs.NbWires r1cs.NbPublicWires
              ((List.range r1cs.NbWires).map (fun i => fr.val R (sol.wireValues i))) H
              (BatchScalarMultiplicationG1 pk.G1.Delta
                [fr.val R rnd1, fr.val R rnd2, -(fr.val R rnd1 * fr.val R rnd2)])
              ar bs1 (fr.val R rnd1) (fr.val R rnd2) arrivals,
            computeBs2 pk ((List.range r1cs.NbWires).map (fun i => fr.val R (sol.wireValues i)))
              (fr.val R rnd2) with
          | some krs, some Bs => .ok { Ar := ar, Krs := krs, Bs := Bs }
          | _, _ => .panic
        | _, _ => .panic := by
  have hw := Prove_wireValues P hP R r1cs sol
  have hw2 : ((List.range r1cs.NbWires).map sol.wireValues).map (fr.FromMont R) =
      (List.range r1cs.NbWires).map (fun i => fr.val R (sol.wireValues i)) := by
    rw [List.map_map]
    rfl
  have hδ : [fr.FromMont R rnd1, fr.FromMont R rnd2,
      fr.FromMont R (fr.Neg (fr.Mul R rnd1 rnd2))] =
      [fr.val R rnd1, fr.val R rnd2, -(fr.val R rnd1 * fr.val R rnd2)] := by
    rw [fr.FromMont_eq_val, fr.FromMont_eq_val, fr.FromMont_eq_val, fr.val_Neg, fr.val_Mul]
  have hpad : ∀ (f : Nat → F) (i : Nat),
      fr.val R ((padTo (NewDomain r1cs.NbConstraints).Cardinality
        ((List.range r1cs.NbConstraints).map f)).getD i 0) =
      if i < r1cs.NbConstraints then fr.val R (f i) else 0 := by
    intro f i
    rw [padTo_getD]
    by_cases hi : i < r1cs.NbConstraints
    · rw [if_pos hi, getD_map_range _ _ _ hi]
    · rw [if_neg hi, List.getD_eq_default _ _ (by simp; omega), fr.val_zero]
  obtain ⟨H, hH, hlen, hQ, hcoeff⟩ := computeH_entries P hP R (NewDomain r1cs.NbConstraints) k
    hk hcard ω γ hd ((List.range r1cs.NbConstraints).map sol.a)
    ((List.range r1cs.NbConstraints).map sol.b) ((List.range r1cs.NbConstraints).map sol.c)
    (by simp) (by simp) (by simpa using hdom)
    (by
      intro i hi
      have hi2 : i < r1cs.NbConstraints := by simpa using hi
      rw [getD_map_range _ _ _ hi2, getD_map_range _ _ _ hi2, getD_map_range _ _ _ hi2]
      exact habc i hi2)
    A B C hA hB hC
    (fun i hi => by rw [hpad, hAe i hi])
    (fun i hi => by rw [hpad, hBe i hi])
    (fun i hi => by rw [hpad, hCe i hi])
  refine ⟨?_, hw2, hδ, rfl, rfl, fun x hx => fr.FromMont_twice R x hx, H, hH, hlen, hQ, hcoeff,
    ?_⟩
  · rw [hw, hw2]
    rfl
  · rw [Prove_of_solved P hP R NewDomain rnd1 rnd2 arrivals r1cs pk solution sol hdom hsolve,
      hH]
    have hδ2 : proveDeltas R pk rnd1 rnd2 = BatchScalarMultiplicationG1 pk.G1.Delta
        [fr.val R rnd1, fr.val R rnd2, -(fr.val R rnd1 * fr.val R rnd2)] := by
      unfold proveDeltas
      rw [hδ]
    rw [hδ2]
    rfl

end RegularForm

/-- The domain `exampleMontDomain` is consistent for the Montgomery constant 2: its fields
denote the inverse of 2, the generator 4 of order 2, its inverse, the square root 2 of the
generator and its inverse. -/
theorem exampleMontDomain_consistent : exampleMontDomain.Consistent exampleMontR 4 2 where
  prim := IsPrimitiveRoot.mk_of_lt (4 : ZMod 5) (by decide) (by decide) (by
    intro l h0 h2
    have : l = 1 := by
      have h2 : l < 2 := h2
      omega
    subst this
    decide)
  gen := by decide
  genInv := by
    rw [eq_comm]
    exact inv_eq_of_mul_eq_one_left (by decide)
  sqrt := by decide
  sq := by decide
  sqrt_pow := by decide
  sqrtInv := by
    rw [eq_comm]
    exact inv_eq_of_mul_eq_one_left (by decide)
  cardInv := by
    rw [eq_comm]
    exact inv_eq_of_mul_eq_one_left (by decide)

/-- Concrete instance of C17, with the Montgomery constant 2 of `ZMod 5`, for which `FromMont`
is not the identity: `exampleMontR1CS` with `exampleProvingKey` on `exampleMontDomain`, random
residues 4 and 1 (the field values 2 and 3), `A = 2 X + 4`, `B = 2 X + 1`, `C = 3`.  The stored
wire values `[2, 4, 1]` become `[1, 2, 3]`, the stored `[4, 1, Neg(Mul(4, 1))]` become
`[2, 3, 4]`, that is `r`, `s`, `-(r * s)`, and `H` holds the coefficients of the quotient. -/
theorem scalars_in_regular_form_witness :
    fr.FromMont exampleMontR 4 = 2 ∧ fr.FromMont exampleMontR (fr.FromMont exampleMontR 4) = 1 ∧
    execute 2 ((List.range exampleMontR1CS.NbWires).map fun i => [2, 4, 1].getD i 0).length
        (pointwiseWork fun _ x => fr.FromMont exampleMontR x)
        ((List.range exampleMontR1CS.NbWires).map fun i => [2, 4, 1].getD i 0) =
      ((List.range exampleMontR1CS.NbWires).map fun i => [2, 4, 1].getD i 0).map
        (fr.FromMont exampleMontR) ∧
    ((List.range exampleMontR1CS.NbWires).map fun i => [2, 4, 1].getD i 0).map
        (fr.FromMont exampleMontR) = [1, 2, 3] ∧
    [fr.FromMont exampleMontR 4, fr.FromMont exampleMontR 1,
        fr.FromMont exampleMontR (fr.Neg (fr.Mul exampleMontR 4 1))] =
      [fr.val exampleMontR 4, fr.val exampleMontR 1,
        -(fr.val exampleMontR 4 * fr.val exampleMontR 1)] ∧
    [fr.FromMont exampleMontR 4, fr.FromMont exampleMontR 1,
        fr.FromMont exampleMontR (fr.Neg (fr.Mul exampleMontR 4 1))] = [2, 3, 4] ∧
    ∃ H, computeH 2 exampleMontR
        ((List.range exampleMontR1CS.NbConstraints).map fun i => [2, 4].getD i 0)
        ((List.range exampleMontR1CS.NbConstraints).map fun i => [1, 3].getD i 0)
        ((List.range exampleMontR1CS.NbConstraints).map fun i => [1, 1].getD i 0)
        exampleMontDomain = some H ∧
      ∀ i, i < exampleMontDomain.Cardinality →
        H.getD i 0 =
          (((Polynomial.C 2 * Polynomial.X + Polynomial.C 4 : Polynomial (ZMod 5)) *
              (Polynomial.C 2 * Polynomial.X + Polynomial.C 1) -
            (Polynomial.C 0 * Polynomial.X + Polynomial.C 3)) /ₘ
            (Polynomial.X ^ exampleMontDomain.Cardinality - 1)).coeff i := by
  have h := scalars_in_regular_form 2 (by decide) exampleMontR (fun _ => exampleMontDomain) 4 1
    [KrsEvent.bs1Done, KrsEvent.krs2Done, KrsEvent.arDone] exampleMontR1CS exampleProvingKey ()
    { a := fun i => [2, 4].getD i 0, b := fun i => [1, 3].getD i 0,
      c := fun i => [1, 1].getD i 0, wireValues := fun i => [2, 4, 1].getD i 0 }
    1 4 2 (Polynomial.C 2 * Polynomial.X + Polynomial.C 4)
    (Polynomial.C 2 * Polynomial.X + Polynomial.C 1)
    (Polynomial.C 0 * Polynomial.X + Polynomial.C 3)
    rfl (by decide) (le_refl 1) rfl exampleMontDomain_consistent
    (by
      intro i hi
      have hi2 : i < 2 := hi
      interval_cases i <;> decide)
    (Polynomial.degree_linear_lt) (Polynomial.degree_linear_lt) (Polynomial.degree_linear_lt)
    (by
      intro i hi
      have hi2 : i < 2 := hi
      interval_cases i <;> simp [exampleMontR1CS] <;> decide)
    (by
      intro i hi
      have hi2 : i < 2 := hi
      interval_cases i <;> simp [exampleMontR1CS] <;> decide)
    (by
      intro i hi
      have hi2 : i < 2 := hi
      interval_cases i <;> simp [exampleMontR1CS] <;> decide)
  obtain ⟨h1, _, h3, _, _, _, H, hH, _, _, hcoeff, _⟩ := h
  exact ⟨by decide, by decide, h1, by decide, h3, by decide, H, hH, hcoeff⟩

end Groth16
